import Mathlib

/-!
# The xv6 shell `user/sh.c`: tokenizer, parser, executor and main loop

A shallow embedding of `user/sh.c`.

Representation choices.

* A `char *` into the NUL-terminated line buffer is represented by the text it
  points at: the list of characters from the pointer up to (not including) the
  terminating NUL at `es`.  So `es` is `[]`, `s < es` is `s ≠ []`, `*s` is the
  head of the list (NUL at `es`), `s++` is the tail, and the offset of a
  pointer `p` into a line `l` is `l.length - p.length`.
* `panic` prints its message and calls `exit(1)`; a function that panics is
  modelled by the result `Res.panic msg`.
* Loops and the recursion of the parser run on a fuel counter; `Res.nofuel`
  is the result of a run that was cut short.  `parsecmd` starts with more fuel
  than the line has characters.
-/

namespace Sh

/-! ## Constants -/

/-- Source: `#define MAXARGS 10`. -/
def MAXARGS : Nat := 10

/-- Source: `char whitespace[] = " \t\r\n\v";` -/
def whitespace : List Char := [' ', '\t', '\r', '\n', '\x0b']

/-- Source: `char symbols[] = "<|>&;()";` -/
def symbols : List Char := ['<', '|', '>', '&', ';', '(', ')']

/-- The NUL character. -/
def NUL : Char := '\x00'

/-- Truth value of `strchr(str, c)`: the character occurs in `str`, or it is
the terminating NUL (which `strchr` also finds). -/
def strchr (str : List Char) (c : Char) : Bool :=
  c == NUL || str.contains c

/-- Source: `*s` for a pointer into the line: the head, or NUL at the end `es`. -/
def deref (s : List Char) : Char := s.headD NUL

/-- Source: `strlen`-prefix of a buffer: the characters before the first NUL. -/
def cstr : List Char → List Char
  | [] => []
  | c :: s => if c == NUL then [] else c :: cstr s

/-! ## Command trees -/

/-- Open flags of `kernel/fcntl.h`.
Modelled from the spec: `kernel/fcntl.h` is not among the sources, so the
flags are kept as names; `O_APPEND` is never named by `sh.c` and is listed only
so that the spec's append mode can be spoken about. -/
inductive OFlag
  | O_RDONLY | O_WRONLY | O_RDWR | O_CREATE | O_TRUNC | O_APPEND
  deriving DecidableEq, Repr

/-- An open mode: the flags that are or-ed together, in source order. -/
abbrev Mode := List OFlag

/-- A word as the parser records it: the pointers `q` (start) and `eq` (one
past the end) that `gettoken` stored. -/
abbrev Span := List Char × List Char

/-- Source: `struct cmd` and its five variants (`EXEC`, `REDIR`, `PIPE`, `LIST`,
`BACK`).  `exec` holds `argv[i]`/`eargv[i]` for `i < argc`. -/
inductive Cmd
  | exec (argv : List Span)
  | redir (cmd : Cmd) (file efile : List Char) (mode : Mode) (fd : Nat)
  | pipe (left right : Cmd)
  | list (left right : Cmd)
  | back (cmd : Cmd)
  deriving DecidableEq, Repr

/-- Result of a parsing function: a value, a `panic` (message printed, then
`exit(1)`), or out of fuel. -/
inductive Res (α : Type)
  | ok (a : α)
  | panic (msg : String)
  | nofuel
  deriving DecidableEq, Repr

/-! ## Tokenizer -/

/-- Source: `while(s < es && strchr(whitespace, *s)) s++;` -/
def skipws : List Char → List Char
  | [] => []
  | c :: s => if strchr whitespace c then skipws s else c :: s

/-- Source: `while(s < es && !strchr(whitespace, *s) && !strchr(symbols, *s)) s++;` -/
def skipword : List Char → List Char
  | [] => []
  | c :: s => if !strchr whitespace c && !strchr symbols c then skipword s else c :: s

/-- What `gettoken` hands back: the return value and the pointers it stores
through `q`, `eq` and `ps`. -/
structure Token where
  ret : Char
  q : List Char
  eq : List Char
  ps : List Char
  deriving DecidableEq, Repr

/-- Source: `gettoken(ps, es, &q, &eq)`. -/
def gettoken (ps : List Char) : Token :=
  let s := skipws ps
  let c := deref s
  if c == NUL then
    ⟨c, s, s, skipws s⟩
  else if c == '|' || c == '(' || c == ')' || c == ';' || c == '&' || c == '<' then
    ⟨c, s, s.tail, skipws s.tail⟩
  else if c == '>' then
    if deref s.tail == '>' then
      ⟨'+', s, s.tail.tail, skipws s.tail.tail⟩
    else
      ⟨c, s, s.tail, skipws s.tail⟩
  else
    ⟨'a', s, skipword s, skipws (skipword s)⟩

/-- Source: `peek(ps, es, toks)`: the truth value returned and the new `*ps`. -/
def peek (ps : List Char) (toks : List Char) : Bool × List Char :=
  let s := skipws ps
  (deref s != NUL && strchr toks (deref s), s)

/-! ## Parser -/

/-- Source: `cmd->argv[argc] = q; cmd->eargv[argc] = eq;` seen through `ret`: in
`parseexec` the `execcmd` being filled is the innermost node of the chain of
`redircmd`s that `ret` points to, so the store shows in the tree under `ret`. -/
def Cmd.pushArg (a : Span) : Cmd → Cmd
  | .exec argv => .exec (argv ++ [a])
  | .redir c f ef m fd => .redir (c.pushArg a) f ef m fd
  | c => c

/-- Source: `parseredirs(cmd, ps, es)`. -/
def parseredirs : Nat → Cmd → List Char → Res (Cmd × List Char)
  | 0, _, _ => .nofuel
  | n + 1, cmd, ps =>
    let p := peek ps ['<', '>']
    if p.1 then
      let t := gettoken p.2
      let f := gettoken t.ps
      if f.ret != 'a' then .panic "missing file for redirection"
      else if t.ret == '<' then
        parseredirs n (.redir cmd f.q f.eq [.O_RDONLY] 0) f.ps
      else if t.ret == '>' then
        parseredirs n (.redir cmd f.q f.eq [.O_WRONLY, .O_CREATE, .O_TRUNC] 1) f.ps
      else if t.ret == '+' then
        parseredirs n (.redir cmd f.q f.eq [.O_WRONLY, .O_CREATE] 1) f.ps
      else parseredirs n cmd f.ps
    else .ok (cmd, p.2)

/-- Source: `parseblock(ps, es)`; `pl` is `parseline` (with the fuel left for it). -/
def parseblock (pl : List Char → Res (Cmd × List Char)) (n : Nat) (ps : List Char) :
    Res (Cmd × List Char) :=
  let p := peek ps ['(']
  if !p.1 then .panic "parseblock"
  else
    let t := gettoken p.2
    match pl t.ps with
    | .ok (cmd, s) =>
      let p := peek s [')']
      if !p.1 then .panic "syntax - missing )"
      else
        let t := gettoken p.2
        parseredirs n cmd t.ps
    | .panic m => .panic m
    | .nofuel => .nofuel

/-- The `while(!peek(ps, es, "|)&;"))` loop of `parseexec`, entered with the
tree `ret` and the count `argc`. -/
def parseexecLoop : Nat → Cmd → Nat → List Char → Res (Cmd × List Char)
  | 0, _, _, _ => .nofuel
  | n + 1, ret, argc, ps =>
    let p := peek ps ['|', ')', '&', ';']
    if !p.1 then
      let t := gettoken p.2
      if t.ret == NUL then .ok (ret, t.ps)
      else if t.ret != 'a' then .panic "syntax"
      else if argc + 1 >= MAXARGS then .panic "too many args"
      else
        match parseredirs (n + 1) (ret.pushArg (t.q, t.eq)) t.ps with
        | .ok (ret, s) => parseexecLoop n ret (argc + 1) s
        | .panic m => .panic m
        | .nofuel => .nofuel
    else .ok (ret, p.2)

/-- Source: `parseexec(ps, es)`. -/
def parseexec (pl : List Char → Res (Cmd × List Char)) (n : Nat) (ps : List Char) :
    Res (Cmd × List Char) :=
  let p := peek ps ['(']
  if p.1 then parseblock pl n p.2
  else
    match parseredirs n (.exec []) p.2 with
    | .ok (ret, s) => parseexecLoop n ret 0 s
    | .panic m => .panic m
    | .nofuel => .nofuel

/-- Source: `parsepipe(ps, es)`. -/
def parsepipe (pl : List Char → Res (Cmd × List Char)) :
    Nat → List Char → Res (Cmd × List Char)
  | 0, _ => .nofuel
  | n + 1, ps =>
    match parseexec pl (n + 1) ps with
    | .ok (cmd, s) =>
      let p := peek s ['|']
      if p.1 then
        let t := gettoken p.2
        match parsepipe pl n t.ps with
        | .ok (right, s) => .ok (.pipe cmd right, s)
        | .panic m => .panic m
        | .nofuel => .nofuel
      else .ok (cmd, p.2)
    | .panic m => .panic m
    | .nofuel => .nofuel

/-- The `while(peek(ps, es, "&"))` loop of `parseline`. -/
def parselineBack : Nat → Cmd → List Char → Res (Cmd × List Char)
  | 0, _, _ => .nofuel
  | n + 1, cmd, ps =>
    let p := peek ps ['&']
    if p.1 then
      let t := gettoken p.2
      parselineBack n (.back cmd) t.ps
    else .ok (cmd, p.2)

/-- Source: `parseline(ps, es)`. -/
def parseline : Nat → List Char → Res (Cmd × List Char)
  | 0, _ => .nofuel
  | n + 1, ps =>
    match parsepipe (parseline n) (n + 1) ps with
    | .ok (cmd, s) =>
      match parselineBack (n + 1) cmd s with
      | .ok (cmd, s) =>
        let p := peek s [';']
        if p.1 then
          let t := gettoken p.2
          match parseline n t.ps with
          | .ok (right, s) => .ok (.list cmd right, s)
          | .panic m => .panic m
          | .nofuel => .nofuel
        else .ok (cmd, p.2)
      | .panic m => .panic m
      | .nofuel => .nofuel
    | .panic m => .panic m
    | .nofuel => .nofuel

/-- Source: `parsecmd(s)`: the tree returned, or the panic.  A
`fprintf(2, "leftovers: %s\n", s)` precedes the `panic("syntax")` for leftover
input; the call of `nulterminate` writes into the line buffer and returns the
tree as it is. -/
def parsecmd (buf : List Char) : Res Cmd :=
  let s := cstr buf
  match parseline (s.length + 1) s with
  | .ok (cmd, s) =>
    let p := peek s []
    if p.2 != [] then .panic "syntax"
    else .ok cmd
  | .panic m => .panic m
  | .nofuel => .nofuel

/-! ## Trees of words

After `nulterminate`, each `argv[i]` and each `file` is read as the text
between the two pointers recorded for it.  `Tree` is a command tree with
these texts in place of the pointer pairs. -/

/-- The text between the two pointers of a span: the first
`offset(eq) - offset(q)` characters at `q`. -/
def spanText (sp : Span) : List Char := sp.1.take (sp.1.length - sp.2.length)

/-- A command tree whose words are texts. -/
inductive Tree
  | exec (argv : List (List Char))
  | redir (cmd : Tree) (file : List Char) (mode : Mode) (fd : Nat)
  | pipe (left right : Tree)
  | list (left right : Tree)
  | back (cmd : Tree)
  deriving DecidableEq, Repr

/-- The tree of words of a parsed command. -/
def Cmd.resolve : Cmd → Tree
  | .exec argv => .exec (argv.map spanText)
  | .redir c f ef m fd => .redir c.resolve (spanText (f, ef)) m fd
  | .pipe l r => .pipe l.resolve r.resolve
  | .list l r => .list l.resolve r.resolve
  | .back c => .back c.resolve

/-- Apply a function to the value of a result. -/
def Res.map {α β : Type} (f : α → β) : Res α → Res β
  | .ok a => .ok (f a)
  | .panic m => .panic m
  | .nofuel => .nofuel

/-- The outcome of `parsecmd` with the tree read as words. -/
def parseTree (buf : List Char) : Res Tree := (parsecmd buf).map Cmd.resolve

/-- Wrap a tree in `k` `back` nodes. -/
def Tree.backs : Nat → Tree → Tree
  | 0, t => t
  | k + 1, t => .back (Tree.backs k t)

/-! ## Lines built from words -/

/-- A character that may occur inside a word: not NUL, not whitespace, not
one of the operator characters. -/
def wordChar (c : Char) : Bool := !strchr whitespace c && !strchr symbols c

/-- A word: non-empty and made of word characters. -/
def isWord (w : List Char) : Bool := w != [] && w.all wordChar

/-- Words written one after the other, separated by one space. -/
def unwords : List (List Char) → List Char
  | [] => []
  | [w] => w
  | w :: ws => w ++ ' ' :: unwords ws

/-- The three redirection operators. -/
inductive RedirOp
  | lt | gt | gtgt
  deriving DecidableEq, Repr

/-- How an operator is written. -/
def RedirOp.text : RedirOp → List Char
  | .lt => ['<']
  | .gt => ['>']
  | .gtgt => ['>', '>']

/-- The mode `parseredirs` passes to `redircmd` for an operator. -/
def RedirOp.mode : RedirOp → Mode
  | .lt => [.O_RDONLY]
  | .gt => [.O_WRONLY, .O_CREATE, .O_TRUNC]
  | .gtgt => [.O_WRONLY, .O_CREATE]

/-- The descriptor `parseredirs` passes to `redircmd` for an operator. -/
def RedirOp.fd : RedirOp → Nat
  | .lt => 0
  | _ => 1

/-- An item of a simple command: a word or a redirection with its file. -/
inductive Item
  | word (w : List Char)
  | redir (op : RedirOp) (file : List Char)
  deriving DecidableEq, Repr

/-- How an item is written: a redirection is the operator directly followed
by the file. -/
def Item.text : Item → List Char
  | .word w => w
  | .redir op f => op.text ++ f

/-- The word or file of an item is a word. -/
def Item.wf : Item → Bool
  | .word w => isWord w
  | .redir _ f => isWord f

/-- The words among the items, in order. -/
def itemWords : List Item → List (List Char)
  | [] => []
  | .word w :: is => w :: itemWords is
  | .redir _ _ :: is => itemWords is

/-- Wrap a tree in the redirections among the items, first one innermost. -/
def wrapRedirs : List Item → Tree → Tree
  | [], t => t
  | .word _ :: is, t => wrapRedirs is t
  | .redir op f :: is, t => wrapRedirs is (.redir t f op.mode op.fd)

/-- Items written one after the other, separated by one space. -/
def unitems : List Item → List Char
  | [] => []
  | [it] => it.text
  | it :: its => it.text ++ ' ' :: unitems its

/-- The analogue of `Cmd.pushArg` on trees of words. -/
def Tree.pushArg (w : List Char) : Tree → Tree
  | .exec argv => .exec (argv ++ [w])
  | .redir c f m fd => .redir (c.pushArg w) f m fd
  | c => c

/-- Push several words, first one first. -/
def Tree.pushArgs : List (List Char) → Tree → Tree
  | [], t => t
  | w :: ws, t => Tree.pushArgs ws (t.pushArg w)

/-- The text after a simple command: next comes the end of the line or one of
`|`, `)`, `&`, `;`. -/
def cmdEnd (t : List Char) : Bool :=
  (peek t ['|', ')', '&', ';']).1 || skipws t == []

/-- The part of `parseexec` from a call of `parseredirs` on: that call, then
the loop. -/
def redirsThenLoop (m n : Nat) (ret : Cmd) (argc : Nat) (s : List Char) :
    Res (Cmd × List Char) :=
  match parseredirs m ret s with
  | .ok (r, s1) => parseexecLoop n r argc s1
  | .panic msg => .panic msg
  | .nofuel => .nofuel

/-- No NUL among the characters: the text is a C string as it stands. -/
def noNUL (s : List Char) : Bool := s.all (fun c => c != NUL)

/-- Only whitespace characters. -/
def blank (s : List Char) : Bool := s.all (fun c => whitespace.contains c)

/-- The text `s`, followed by `t`, is read by `parsepipe` as the tree of words
`T`, up to the first character of `t` that is not whitespace: with any
`parseline` for the blocks and any fuel above the length of the text. -/
def ParsesPipe (s t : List Char) (T : Tree) : Prop :=
  ∀ (pl : List Char → Res (Cmd × List Char)) (n : Nat), (s ++ t).length < n →
    ∃ c, parsepipe pl n (s ++ t) = .ok (c, skipws t) ∧ c.resolve = T

/-- The text `s` is read to its end by `parseline` as the tree of words `T`,
with any fuel above the length of the text. -/
def ParsesLine (s : List Char) (T : Tree) : Prop :=
  ∀ (n : Nat), s.length < n → ∃ c, parseline n s = .ok (c, []) ∧ c.resolve = T

/-- The function `g` agrees with `f` wherever `f` does not run out of fuel. -/
def Extends (f g : List Char → Res (Cmd × List Char)) : Prop :=
  ∀ s, f s ≠ .nofuel → g s = f s

/-- The same tree when text `t` is appended to the line: every pointer then
has `t` more in front of the end of the line. -/
def Cmd.shift (t : List Char) : Cmd → Cmd
  | .exec argv => .exec (argv.map fun a => (a.1 ++ t, a.2 ++ t))
  | .redir c f ef m fd => .redir (c.shift t) (f ++ t) (ef ++ t) m fd
  | .pipe l r => .pipe (l.shift t) (r.shift t)
  | .list l r => .list (l.shift t) (r.shift t)
  | .back c => .back (c.shift t)

/-- The function `pl` gives the shifted result on `s ++ t` whenever it stops
before the end of `s`. -/
def AppendStable (t : List Char) (pl : List Char → Res (Cmd × List Char)) : Prop :=
  ∀ (s : List Char) (c : Cmd) (s1 : List Char), pl s = .ok (c, s1) → s1 ≠ [] →
    pl (s ++ t) = .ok (c.shift t, s1 ++ t)

/-- A run of `&` tokens, each followed by the given whitespace. -/
def ampsText : List (List Char) → List Char
  | [] => []
  | g :: gs => '&' :: (g ++ ampsText gs)

/-- Some pipe node on the right spine of the tree has an `exec` with no
arguments as its right side. -/
def Tree.emptyPipeEnd : Tree → Bool
  | .pipe _ r => r == .exec [] || r.emptyPipeEnd
  | _ => false

/-! ## Executor -/

/-- A descriptor argument: a number, or an end of the pipe made by this
`runcmd` call (`p[0]`, `p[1]`). -/
inductive Fd
  | num (n : Nat) | p0 | p1
  deriving DecidableEq, Repr

/-- The calls `runcmd` makes, with the pointers it passes. -/
inductive Call
  | exec (path : List Char) (argv : List (List Char))
  | fprintf (fd : Nat) (fmt : String) (arg : List Char)
  | close (fd : Fd)
  | openFile (file : List Char) (mode : Mode)
  | fork
  | wait
  | pipe
  | dup (fd : Fd)
  deriving DecidableEq, Repr

/-- How the process running `runcmd` ends: `exit(status)`, or its image is
replaced by a successful `exec`. -/
inductive Fate
  | exit (status : Nat)
  | image
  deriving DecidableEq, Repr

/-- The calls made by the current process, in order, and its end. -/
structure Run where
  calls : List Call
  fate : Fate
  deriving DecidableEq, Repr

/-- Put calls in front of a run. -/
def Run.after (cs : List Call) (r : Run) : Run := ⟨cs ++ r.calls, r.fate⟩

/-- Source: `panic(s)` inside `runcmd`: print and `exit(1)`. -/
def panicRun (cs : List Call) (s : String) : Run :=
  ⟨cs ++ [.fprintf 2 "%s\n" s.toList], .exit 1⟩

/-- Source: `runcmd(cmd)` for a non-null `cmd`, seen from the process that calls it.
`os k` is the value the system returns to the `k`-th call of this process
(`exec` returns only when it fails; `fork` returns 0 in the child); `k` is
the number of calls made so far. -/
def runcmd (os : Nat → Int) : Cmd → Nat → Run
  | .exec argv, k =>
    match argv with
    | [] => ⟨[], .exit 1⟩
    | a :: _ =>
      if os k < 0 then
        ⟨[.exec a.1 (argv.map Prod.fst), .fprintf 2 "exec %s failed\n" a.1], .exit 0⟩
      else ⟨[.exec a.1 (argv.map Prod.fst)], .image⟩
  | .redir c file _ mode fd, k =>
    if os (k + 1) < 0 then
      ⟨[.close (.num fd), .openFile file mode, .fprintf 2 "open %s failed\n" file], .exit 1⟩
    else (runcmd os c (k + 2)).after [.close (.num fd), .openFile file mode]
  | .list l r, k =>
    if os k == -1 then panicRun [.fork] "fork"
    else if os k == 0 then (runcmd os l (k + 1)).after [.fork]
    else (runcmd os r (k + 2)).after [.fork, .wait]
  | .pipe l r, k =>
    if os k < 0 then panicRun [.pipe] "pipe"
    else if os (k + 1) == -1 then panicRun [.pipe, .fork] "fork"
    else if os (k + 1) == 0 then
      (runcmd os l (k + 6)).after
        [.pipe, .fork, .close (.num 1), .dup .p1, .close .p0, .close .p1]
    else if os (k + 2) == -1 then panicRun [.pipe, .fork, .fork] "fork"
    else if os (k + 2) == 0 then
      (runcmd os r (k + 7)).after
        [.pipe, .fork, .fork, .close (.num 0), .dup .p0, .close .p0, .close .p1]
    else ⟨[.pipe, .fork, .fork, .close .p0, .close .p1, .wait, .wait], .exit 0⟩
  | .back c, k =>
    if os k == -1 then panicRun [.fork] "fork"
    else if os k == 0 then (runcmd os c (k + 1)).after [.fork]
    else ⟨[.fork], .exit 0⟩

/-! ## Main loop -/

/-- The loop of `getcmd`: at most `k` more bytes are stored; reading stops at
end of input or after a newline, which is consumed and not stored.  Returns
the bytes stored and the input left unread. -/
def getcmdLoop : Nat → List Char → List Char × List Char
  | 0, inp => ([], inp)
  | _ + 1, [] => ([], [])
  | k + 1, c :: inp =>
    if c == '\n' then ([], inp)
    else ((c :: (getcmdLoop k inp).1), (getcmdLoop k inp).2)

/-- Source: `getcmd(buf, nbuf, fd)`: `none` for the return value -1 (nothing stored),
otherwise the bytes stored in `buf` and the input left unread. -/
def getcmd (nbuf : Nat) (inp : List Char) : Option (List Char × List Char) :=
  let r := getcmdLoop (nbuf - 1) inp
  if r.1 == [] then none else some r

/-- Source: `buf[i]` of the zero-filled buffer. -/
def bufAt (buf : List Char) (i : Nat) : Char := buf.getD i NUL

/-- The test for the `cd` built-in in `main`. -/
def isCd (buf : List Char) : Bool :=
  bufAt buf 0 == 'c' && bufAt buf 1 == 'd' && (bufAt buf 2 == ' ' || bufAt buf 2 == NUL)

/-- The test for the `jobs` built-in in `main`. -/
def isJobs (buf : List Char) : Bool :=
  bufAt buf 0 == 'j' && bufAt buf 1 == 'o' && bufAt buf 2 == 'b' && bufAt buf 3 == 's' &&
    (bufAt buf 4 == NUL || bufAt buf 4 == ' ')

/-- What one dispatch of a parsed command does to the interpreter process:
it goes on with a new state, it exits (`fork1` panics), or it never leaves
the foreground wait loop. -/
inductive Step (σ : Type)
  | next (w : σ)
  | exit (status : Nat)
  | hang

/-- The interpreter's surroundings, over a state `σ` of everything outside
the parser (processes, files, the job table, output): the effect of the `cd`
and `jobs` built-ins, and of the code from `fork1()` to
`poll_background_jobs()` for a parsed command. -/
structure Sys (σ : Type) where
  cd : List Char → σ → σ
  jobs : σ → σ
  dispatch : Cmd → σ → Step σ

/-- How `main` ends: `exit(status)` with `unread` input never read and the
panic message, if any, that was printed; or it hangs; or the model ran out of
fuel. -/
inductive Halt (σ : Type)
  | exited (status : Nat) (unread : List Char) (msg : Option String) (w : σ)
  | hang
  | nofuel

/-- The `while(getcmd(buf, sizeof(buf), fd) >= 0)` loop of `main` followed by
`exit(0)`, over the bytes still to be read from `fd`. -/
def mainLoop {σ : Type} (sys : Sys σ) : Nat → σ → List Char → Halt σ
  | 0, _, _ => .nofuel
  | n + 1, w, inp =>
    match getcmd 100 inp with
    | none => .exited 0 (getcmdLoop 99 inp).2 none w
    | some (buf, rest) =>
      if isCd buf then mainLoop sys n (if bufAt buf 2 == ' ' then sys.cd (cstr (buf.drop 3)) w else w) rest
      else if isJobs buf then mainLoop sys n (sys.jobs w) rest
      else
        match parsecmd buf with
        | .panic m => .exited 1 rest (some m) w
        | .nofuel => .nofuel
        | .ok cmd =>
          match sys.dispatch cmd w with
          | .next w => mainLoop sys n w rest
          | .exit st => .exited st rest none w
          | .hang => .hang

/-- The interpreter reading the bytes `inp`. -/
def shMain {σ : Type} (sys : Sys σ) (w : σ) (inp : List Char) : Halt σ :=
  mainLoop sys (inp.length + 1) w inp

/-- Surroundings in which nothing happens: every dispatch returns at once
(used for examples of the main loop). -/
def idleSys : Sys Unit := ⟨fun _ w => w, fun w => w, fun _ w => .next w⟩

/-! ## Offsets, cursors and fuel -/

/-- The offset of a pointer `p` into the line `line`: how far it is from the
start, the end `es` being at offset `line.length`. -/
def off (line p : List Char) : Nat := line.length - p.length

/-- The number of characters of a token: from `q` to `eq`. -/
def Token.extent (t : Token) : Nat := t.q.length - t.eq.length

/-- The function `pl` returns a cursor that is a suffix of the one it was given. -/
def ReturnsSuffix (pl : List Char → Res (Cmd × List Char)) : Prop :=
  ∀ (s : List Char) (c : Cmd) (s1 : List Char), pl s = .ok (c, s1) → s1 <:+ s

/-- The function `pl` does not run out of fuel on texts shorter than `m`. -/
def TotalBelow (pl : List Char → Res (Cmd × List Char)) (m : Nat) : Prop :=
  ∀ (s : List Char), s.length < m → pl s ≠ .nofuel

/-! ## The tokens of a text -/

/-- The tokens that repeated calls of `gettoken` read from a text, each with
its return value and, for a word, its characters: at most `n` of them. -/
def lexF : Nat → List Char → List (Char × List Char)
  | 0, _ => []
  | n + 1, s =>
    if (gettoken s).ret == NUL then []
    else ((gettoken s).ret, spanText ((gettoken s).q, (gettoken s).eq)) :: lexF n (gettoken s).ps

/-- The tokens of a text (a token has at least one character, so the length
of the text is fuel enough). -/
def lex (s : List Char) : List (Char × List Char) := lexF s.length s

/-- The return values of `gettoken` over the tokens of a text. -/
def kinds (s : List Char) : List Char := (lex s).map Prod.fst

/-- Scan token kinds for redirection operators (`<`, `>`, and `+` for `>>`):
`pending` says that the token before was one, and the scan succeeds when every
operator is directly followed by a word token. -/
def redirScan : Bool → List Char → Bool
  | pending, [] => !pending
  | pending, k :: ks =>
    if pending then k == 'a' && redirScan false ks
    else redirScan (k == '<' || k == '>' || k == '+') ks

/-- Scan for parentheses starting at depth `d`: `none` when a `)` comes at
depth 0, otherwise the depth at the end. -/
def pscan : Nat → List Char → Option Nat
  | d, [] => some d
  | d, k :: ks =>
    if k == '(' then pscan (d + 1) ks
    else if k == ')' then (if d = 0 then none else pscan (d - 1) ks)
    else pscan d ks

/-- A run of token kinds in which every redirection operator is followed by a
word and which, at any depth, keeps the parentheses balanced. -/
def GoodTrace (w : List Char) : Prop :=
  redirScan false w = true ∧ ∀ d, pscan d w = some d

/-- Between the cursors `s` and `s1` the tokens read form a good run. -/
def Traced (s s1 : List Char) : Prop :=
  ∃ w, kinds s = w ++ kinds s1 ∧ GoodTrace w

/-- The function `pl` reads a good run of tokens whenever it returns. -/
def TracesOK (pl : List Char → Res (Cmd × List Char)) : Prop :=
  ∀ (s : List Char) (c : Cmd) (s1 : List Char), pl s = .ok (c, s1) → Traced s s1

/-! ## The line buffer and `nulterminate` -/

/-- Source: `*p = 0` for a pointer `p` into the line buffer `b`, the end of
the line being at offset `es`. -/
def pokeNUL (es : Nat) (p : List Char) (b : List Char) : List Char :=
  b.set (es - p.length) NUL

/-- Source: `for(i=0; ecmd->argv[i]; i++) *ecmd->eargv[i] = 0;` -/
def nulterminateArgs (es : Nat) : List Span → List Char → List Char
  | [], b => b
  | a :: as, b => nulterminateArgs es as (pokeNUL es a.2 b)

/-- Source: `nulterminate(cmd)` for a non-null `cmd`: the line buffer after
the writes, given the buffer `b` before and the offset `es` of the end of the
line. -/
def nulterminate (es : Nat) : Cmd → List Char → List Char
  | .exec argv, b => nulterminateArgs es argv b
  | .redir c _ ef _ _, b => pokeNUL es ef (nulterminate es c b)
  | .pipe l r, b => nulterminate es r (nulterminate es l b)
  | .list l r, b => nulterminate es r (nulterminate es l b)
  | .back c, b => nulterminate es c b

/-- The C string that starts at the pointer `p` in the buffer `b`. -/
def cstrAt (es : Nat) (b p : List Char) : List Char := cstr (b.drop (es - p.length))

/-- All the word spans of a tree: the arguments of its `exec` nodes and the
files of its `redir` nodes. -/
def Cmd.spans : Cmd → List Span
  | .exec argv => argv
  | .redir c f ef _ _ => c.spans ++ [(f, ef)]
  | .pipe l r => l.spans ++ r.spans
  | .list l r => l.spans ++ r.spans
  | .back c => c.spans

/-- The span is a word of the line `L`: a non-empty run of word characters
from `q` to `eq`, inside `L`, that cannot be made longer. -/
def WordSpan (L : List Char) (sp : Span) : Prop :=
  ∃ w, isWord w = true ∧ sp.1 = w ++ sp.2 ∧ sp.1 <:+ L ∧ wordChar (deref sp.2) = false

/-- All spans of the tree are words of the line `L`. -/
def SpansIn (L : List Char) (c : Cmd) : Prop := ∀ sp ∈ c.spans, WordSpan L sp

/-- The function `pl`, started inside the line `L`, returns trees whose spans
are words of `L`. -/
def BuildsSpans (L : List Char) (pl : List Char → Res (Cmd × List Char)) : Prop :=
  ∀ (s : List Char) (c : Cmd) (s1 : List Char), s <:+ L → pl s = .ok (c, s1) → SpansIn L c

/-! ## Lines of redirections -/

/-- A redirection as it is written: the operator, whitespace, the file, and
the whitespace after it. -/
structure RedirText where
  op : RedirOp
  gap : List Char
  file : List Char
  after : List Char
  deriving DecidableEq, Repr

/-- The gaps are whitespace and the file is a word. -/
def RedirText.wf (r : RedirText) : Bool := blank r.gap && isWord r.file && blank r.after

/-- Redirections written one after the other. -/
def redirsText : List RedirText → List Char
  | [] => []
  | r :: rs => r.op.text ++ (r.gap ++ (r.file ++ (r.after ++ redirsText rs)))

/-- Wrap a tree in redirections, first one innermost. -/
def wrapFiles : List RedirText → Tree → Tree
  | [], t => t
  | r :: rs, t => wrapFiles rs (.redir t r.file r.op.mode r.op.fd)

/-! ## Job table -/

/-- Source: `int jobs[NPROC]; int job_count = 0;`: the array and the count.
The length of `jobs` is `NPROC`, a constant of `kernel/param.h`, which is not
among the sources and is a parameter here. -/
structure JobTable where
  jobs : List Int
  job_count : Int
  deriving DecidableEq, Repr

/-- The table at the start of the program: the array zeroed, the count 0. -/
def emptyTable (NPROC : Nat) : JobTable := ⟨List.replicate NPROC 0, 0⟩

/-- The sequence of jobs: `jobs[0 .. job_count)`. -/
def JobTable.seq (t : JobTable) : List Int := t.jobs.take t.job_count.toNat

/-- Source: `a[i] = v` for an `int i`: `none` when `i` is outside the array. -/
def writeAt (a : List Int) (i : Int) (v : Int) : Option (List Int) :=
  if 0 ≤ i ∧ i.toNat < a.length then some (a.set i.toNat v) else none

/-- Source: `for(int j = i; j < job_count - 1; j++) jobs[j] = jobs[j + 1];` in
`poll_background_jobs`.  Neither bound changes in the loop, so it makes
`job_count - 1 - i` rounds (none when that is not positive): `k` is the number
of rounds left and `j` the index.  The result is `none` when an access is
outside the array. -/
def pollShift : Nat → Nat → List Int → Option (List Int)
  | 0, _, jobs => some jobs
  | k + 1, j, jobs =>
    match jobs[j + 1]? with
    | none => none
    | some v =>
      match writeAt jobs j v with
      | none => none
      | some jobs1 => pollShift k (j + 1) jobs1

/-- Source: the loop `for(int i = 0; i < job_count; i++) { if(jobs[i] == pid)
{ ...; job_count--; break; } }` in `poll_background_jobs`.  The count changes
only right before the `break`, so the loop makes at most `job_count` rounds:
`k` is the number of rounds left and `i` the index. -/
def pollRemoveLoop (pid : Int) (t : JobTable) : Nat → Nat → Option JobTable
  | 0, _ => some t
  | k + 1, i =>
    match t.jobs[i]? with
    | none => none
    | some v =>
      if v == pid then
        match pollShift (t.job_count - 1 - i).toNat i t.jobs with
        | none => none
        | some jobs1 => some ⟨jobs1, t.job_count - 1⟩
      else pollRemoveLoop pid t k (i + 1)

/-- The removal of `pid` in `poll_background_jobs`. -/
def pollRemove (pid : Int) (t : JobTable) : Option JobTable :=
  pollRemoveLoop pid t t.job_count.toNat 0

/-- Source: `poll_background_jobs()`, on the job table.  The list holds the
values that the calls of `wait_noblock` return, in order; after them it
returns no pid. -/
def poll_background_jobs : List Int → JobTable → Option JobTable
  | [], t => some t
  | pid :: rest, t =>
    if pid > 0 then
      match pollRemove pid t with
      | none => none
      | some t1 => poll_background_jobs rest t1
    else some t

/-- Source: `for(int j = i; j < job_count - 1; j++) jobs[j] = jobs[j + 1];` in
the foreground wait loop of `main`, as `pollShift`. -/
def mainShift : Nat → Nat → List Int → Option (List Int)
  | 0, _, jobs => some jobs
  | k + 1, j, jobs =>
    match jobs[j + 1]? with
    | none => none
    | some v =>
      match writeAt jobs j v with
      | none => none
      | some jobs1 => mainShift k (j + 1) jobs1

/-- Source: the loop `for(int i = 0; i < job_count; i++) { if(jobs[i] ==
wait_pid) { ...; job_count--; break; } }` in `main`, as `pollRemoveLoop`. -/
def mainRemoveLoop (wait_pid : Int) (t : JobTable) : Nat → Nat → Option JobTable
  | 0, _ => some t
  | k + 1, i =>
    match t.jobs[i]? with
    | none => none
    | some v =>
      if v == wait_pid then
        match mainShift (t.job_count - 1 - i).toNat i t.jobs with
        | none => none
        | some jobs1 => some ⟨jobs1, t.job_count - 1⟩
      else mainRemoveLoop wait_pid t k (i + 1)

/-- The removal of `wait_pid` in the foreground wait loop of `main`. -/
def mainRemove (wait_pid : Int) (t : JobTable) : Option JobTable :=
  mainRemoveLoop wait_pid t t.job_count.toNat 0

/-- Source: the `while(1)` loop of `main` that waits for the foreground child
`child_pid`, on the job table.  The list holds the values that the calls of
`wait_noblock` return, in order. -/
def foregroundWait (child_pid : Int) : List Int → JobTable → Option JobTable
  | [], t => some t
  | wait_pid :: rest, t =>
    if wait_pid == child_pid then some t
    else if wait_pid > 0 then
      match mainRemove wait_pid t with
      | none => none
      | some t1 => foregroundWait child_pid rest t1
    else foregroundWait child_pid rest t

/-- Source: `add_job(pid)`: `if(job_count < NPROC) jobs[job_count++] = pid;`. -/
def add_job (NPROC : Nat) (pid : Int) (t : JobTable) : Option JobTable :=
  if t.job_count < NPROC then
    match writeAt t.jobs t.job_count pid with
    | none => none
    | some jobs1 => some ⟨jobs1, t.job_count + 1⟩
  else some t

/-- An operation on the job table: a registration, or a removal at one of the
two sites. -/
inductive JobOp
  | add (pid : Int)
  | reapPoll (pid : Int)
  | reapMain (pid : Int)
  deriving DecidableEq, Repr

/-- Run one operation. -/
def JobOp.run (NPROC : Nat) : JobOp → JobTable → Option JobTable
  | .add pid, t => add_job NPROC pid t
  | .reapPoll pid, t => pollRemove pid t
  | .reapMain pid, t => mainRemove pid t

/-- Run operations one after the other. -/
def runOps (NPROC : Nat) : List JobOp → JobTable → Option JobTable
  | [], t => some t
  | op :: ops, t =>
    match op.run NPROC t with
    | none => none
    | some t1 => runOps NPROC ops t1

/-! ## Whitespace between tokens -/

/-- The place between `a` and `b` in the line `a ++ b` is not inside a token:
the tokens of the line are those of `a` followed by those of `b`.  (Inside a
word, or between the two characters of a `>>`, the two parts give other
tokens than the whole.) -/
def tokenBoundary (a b : List Char) : Bool := lex (a ++ b) == lex a ++ lex b

/-- The line `s2` is the line `s` with whitespace inserted, any number of
times, at places that are not inside a token. -/
inductive Spaced : List Char → List Char → Prop
  | refl (s : List Char) : Spaced s s
  | ins (s a b g : List Char) : Spaced s (a ++ b) → blank g = true →
      tokenBoundary a b = true → Spaced s (a ++ (g ++ b))

/-- Two outcomes of a parsing function that differ at most in the pointers:
the same failure, or trees with the same words and cursors with the same
tokens left. -/
def SameOut : Res (Cmd × List Char) → Res (Cmd × List Char) → Prop
  | .ok (c, s), .ok (c2, s2) => c.resolve = c2.resolve ∧ lex s = lex s2
  | .panic m, .panic m2 => m = m2
  | .nofuel, .nofuel => True
  | _, _ => False

/-- The functions `pl` and `pl2` give the same outcome on texts with the same
tokens. -/
def Sim (pl pl2 : List Char → Res (Cmd × List Char)) : Prop :=
  ∀ (s s2 : List Char), lex s = lex s2 → SameOut (pl s) (pl2 s2)

/-! ## The modes in a tree -/

theorem strchr_NUL (str : List Char) : strchr str NUL = true := by
  simp [strchr]

theorem wordChar_ws {c : Char} (h : wordChar c = true) : strchr whitespace c = false := by
  simp only [wordChar, Bool.and_eq_true, Bool.not_eq_true'] at h
  exact h.1

theorem wordChar_sym {c : Char} (h : wordChar c = true) : strchr symbols c = false := by
  simp only [wordChar, Bool.and_eq_true, Bool.not_eq_true'] at h
  exact h.2

theorem ne_NUL_of_strchr {str : List Char} {c : Char} (h : strchr str c = false) :
    (c == NUL) = false := by
  simp only [strchr, Bool.or_eq_false_iff] at h
  exact h.1

theorem not_contains_of_strchr {str : List Char} {c : Char} (h : strchr str c = false) :
    str.contains c = false := by
  simp only [strchr, Bool.or_eq_false_iff] at h
  exact h.2

theorem skipws_cons {c : Char} (h : strchr whitespace c = false) (s : List Char) :
    skipws (c :: s) = c :: s := by
  simp [skipws, h]

theorem skipws_cons_ws {c : Char} (h : strchr whitespace c = true) (s : List Char) :
    skipws (c :: s) = skipws s := by
  simp [skipws, h]

theorem skipws_idem (s : List Char) : skipws (skipws s) = skipws s := by
  induction s with
  | nil => rfl
  | cons c s ih =>
    by_cases h : strchr whitespace c = true
    · simp [skipws, h, ih]
    · simp [skipws, h]

theorem skipws_head {s s1 : List Char} {c : Char} (h : skipws s = c :: s1) :
    strchr whitespace c = false := by
  induction s with
  | nil => simp [skipws] at h
  | cons a s ih =>
    by_cases ha : strchr whitespace a = true
    · rw [skipws_cons_ws ha] at h; exact ih h
    · simp only [Bool.not_eq_true] at ha
      rw [skipws_cons ha] at h
      cases h; exact ha

theorem skipws_append_stop {d : Char} (hd : strchr whitespace d = false) (s r : List Char) :
    skipws (s ++ d :: r) = skipws s ++ d :: r := by
  induction s with
  | nil => simp [skipws, hd]
  | cons a s ih =>
    by_cases ha : strchr whitespace a = true
    · simp [skipws, ha, ih]
    · simp [skipws, ha]

theorem skipword_cons_word {a : Char} (ha : wordChar a = true) (s : List Char) :
    skipword (a :: s) = skipword s := by
  have ha' : (!strchr whitespace a && !strchr symbols a) = true := ha
  rw [skipword]; rw [if_pos ha']

theorem skipword_cons_stop {a : Char} (ha : wordChar a = false) (s : List Char) :
    skipword (a :: s) = a :: s := by
  have ha' : (!strchr whitespace a && !strchr symbols a) = false := ha
  rw [skipword]; rw [if_neg (by rw [ha']; exact Bool.false_ne_true)]

theorem skipword_append_stop {d : Char} (hd : wordChar d = false) (s r : List Char) :
    skipword (s ++ d :: r) = skipword s ++ d :: r := by
  induction s with
  | nil => rw [List.nil_append, skipword_cons_stop hd]; rfl
  | cons a s ih =>
    rw [List.cons_append]
    by_cases ha : wordChar a = true
    · rw [skipword_cons_word ha, skipword_cons_word ha, ih]
    · simp only [Bool.not_eq_true] at ha
      rw [skipword_cons_stop ha, skipword_cons_stop ha]; rfl

theorem skipword_word (w t : List Char) (hw : w.all wordChar = true)
    (ht : wordChar (deref t) = false) : skipword (w ++ t) = t := by
  induction w with
  | nil =>
    cases t with
    | nil => rfl
    | cons d r => exact skipword_cons_stop ht r
  | cons a w ih =>
    simp only [List.all_cons, Bool.and_eq_true] at hw
    rw [List.cons_append, skipword_cons_word hw.1]
    exact ih hw.2

theorem wordChar_NUL : wordChar NUL = false := by decide

/-- The token at a word. -/
theorem gettoken_word (w t : List Char) (hw : isWord w = true)
    (ht : wordChar (deref t) = false) :
    gettoken (w ++ t) = ⟨'a', w ++ t, t, skipws t⟩ := by
  cases w with
  | nil => simp [isWord] at hw
  | cons a w =>
    simp only [isWord, Bool.and_eq_true, List.all_cons] at hw
    have ha := hw.2.1
    have hall : (a :: w).all wordChar = true := by simp [List.all_cons, hw.2.1, hw.2.2]
    have hws := wordChar_ws ha
    have hsy := wordChar_sym ha
    have hn := ne_NUL_of_strchr hws
    have hc := not_contains_of_strchr hsy
    simp only [symbols, List.contains_cons, List.contains_nil, Bool.or_false,
      Bool.or_eq_false_iff] at hc
    obtain ⟨h1, h2, h3, h4, h5, h6, h7⟩ := hc
    have hsk : skipword (a :: w ++ t) = t := skipword_word (a :: w) t hall ht
    simp only [gettoken, List.cons_append, skipws_cons hws, deref, List.headD_cons, hn,
      h1, h2, h3, h4, h5, h6, h7, Bool.false_eq_true, if_false, Bool.or_self]
    rw [← List.cons_append, hsk]

/-- A look ahead at a character that is not whitespace. -/
theorem peek_cons {c : Char} (h : strchr whitespace c = false) (s toks : List Char) :
    peek (c :: s) toks = (toks.contains c, c :: s) := by
  have h1 : (c == NUL) = false := ne_NUL_of_strchr h
  have h2 : (c != NUL) = true := by simp [bne, h1]
  unfold peek
  rw [skipws_cons h]
  simp only [deref, List.headD_cons, strchr, h1, h2, Bool.true_and, Bool.false_or]

theorem peek_skipws (s toks : List Char) : peek (skipws s) toks = peek s toks := by
  simp [peek, skipws_idem]

theorem gettoken_skipws (s : List Char) : gettoken (skipws s) = gettoken s := by
  simp [gettoken, skipws_idem]

theorem peek_snd (s toks : List Char) : (peek s toks).2 = skipws s := rfl

/-! ## Parsing a simple command -/

theorem gettoken_sym {d : Char} (hd : ['|', '(', ')', ';', '&', '<'].contains d = true)
    (s : List Char) : gettoken (d :: s) = ⟨d, d :: s, s, skipws s⟩ := by
  simp only [List.contains_cons, List.contains_nil, Bool.or_false, Bool.or_eq_true,
    beq_iff_eq] at hd
  rcases hd with h | h | h | h | h | h <;> subst h <;> rfl

theorem gettoken_gt (s : List Char) (h : (deref s == '>') = false) :
    gettoken ('>' :: s) = ⟨'>', '>' :: s, s, skipws s⟩ := by
  have h1 : skipws ('>' :: s) = '>' :: s := rfl
  unfold gettoken
  simp only [h1, deref, List.headD_cons, List.tail_cons]
  simp only [deref] at h
  rw [h]
  rfl

theorem gettoken_gtgt (s : List Char) :
    gettoken ('>' :: '>' :: s) = ⟨'+', '>' :: '>' :: s, s, skipws s⟩ := rfl

theorem spanText_append (w t : List Char) : spanText (w ++ t, t) = w := by
  simp [spanText]

theorem isWord_head {w : List Char} (hw : isWord w = true) :
    ∃ a w1, w = a :: w1 ∧ wordChar a = true := by
  cases w with
  | nil => simp [isWord] at hw
  | cons a w1 =>
    simp only [isWord, Bool.and_eq_true, List.all_cons] at hw
    exact ⟨a, w1, rfl, hw.2.1⟩

theorem skipws_word (w t : List Char) (hw : isWord w = true) : skipws (w ++ t) = w ++ t := by
  obtain ⟨a, w1, rfl, ha⟩ := isWord_head hw
  exact skipws_cons (wordChar_ws ha) _

theorem peek_word (w t toks : List Char) (hw : isWord w = true)
    (htoks : ∀ c, toks.contains c = true → strchr symbols c = true) :
    peek (w ++ t) toks = (false, w ++ t) := by
  obtain ⟨a, w1, rfl, ha⟩ := isWord_head hw
  rw [List.cons_append, peek_cons (wordChar_ws ha)]
  have : toks.contains a = false := by
    cases h : toks.contains a with
    | false => rfl
    | true => have := htoks a h; rw [wordChar_sym ha] at this; cases this
  rw [this]

theorem parseredirs_skipws (n : Nat) (c : Cmd) (s : List Char) :
    parseredirs n c (skipws s) = parseredirs n c s := by
  cases n with
  | zero => rfl
  | succ n => simp only [parseredirs, peek_skipws]

theorem redirsThenLoop_skipws (m n : Nat) (c : Cmd) (argc : Nat) (s : List Char) :
    redirsThenLoop m n c argc (skipws s) = redirsThenLoop m n c argc s := by
  simp only [redirsThenLoop, parseredirs_skipws]

theorem subset_symbols_redir : ∀ c, ['<', '>'].contains c = true → strchr symbols c = true := by
  intro c h
  simp only [List.contains_cons, List.contains_nil, Bool.or_false, Bool.or_eq_true,
    beq_iff_eq] at h
  rcases h with h | h <;> subst h <;> rfl

theorem subset_symbols_end :
    ∀ c, ['|', ')', '&', ';'].contains c = true → strchr symbols c = true := by
  intro c h
  simp only [List.contains_cons, List.contains_nil, Bool.or_false, Bool.or_eq_true,
    beq_iff_eq] at h
  rcases h with h | h | h | h <;> subst h <;> rfl

/-- A word in front of the loop of `parseexec`. -/
theorem redirsThenLoop_word (w tl : List Char) (hw : isWord w = true)
    (htl : wordChar (deref tl) = false) (m n : Nat) (ret : Cmd) (argc : Nat) :
    redirsThenLoop (m + 1) (n + 1) ret argc (w ++ tl) =
      if argc + 1 ≥ MAXARGS then .panic "too many args"
      else redirsThenLoop (n + 1) n (ret.pushArg (w ++ tl, tl)) (argc + 1) (skipws tl) := by
  have h1 : parseredirs (m + 1) ret (w ++ tl) = .ok (ret, w ++ tl) := by
    simp only [parseredirs, peek_word w tl _ hw subset_symbols_redir,
      Bool.false_eq_true, if_false]
  have h2 : parseexecLoop (n + 1) ret argc (w ++ tl) =
      if argc + 1 ≥ MAXARGS then .panic "too many args"
      else redirsThenLoop (n + 1) n (ret.pushArg (w ++ tl, tl)) (argc + 1) (skipws tl) := by
    simp only [parseexecLoop, peek_word w tl _ hw subset_symbols_end, gettoken_word w tl hw htl,
      redirsThenLoop]
    rfl
  simp only [redirsThenLoop, h1, h2]

/-- A redirection in front of the loop of `parseexec`. -/
theorem redirsThenLoop_redir (op : RedirOp) (f tl : List Char) (hf : isWord f = true)
    (htl : wordChar (deref tl) = false) (m n : Nat) (ret : Cmd) (argc : Nat) :
    redirsThenLoop (m + 1) n ret argc (op.text ++ (f ++ tl)) =
      redirsThenLoop m n (.redir ret (f ++ tl) tl op.mode op.fd) argc (skipws tl) := by
  have hsk := skipws_word f tl hf
  have hg := gettoken_word f tl hf htl
  have hgt : (deref (f ++ tl) == '>') = false := by
    obtain ⟨a, w1, rfl, ha⟩ := isWord_head hf
    have hc := not_contains_of_strchr (wordChar_sym ha)
    simp only [symbols, List.contains_cons, List.contains_nil, Bool.or_false,
      Bool.or_eq_false_iff] at hc
    simpa [deref] using hc.2.2.1
  have key : parseredirs (m + 1) ret (op.text ++ (f ++ tl)) =
      parseredirs m (.redir ret (f ++ tl) tl op.mode op.fd) (skipws tl) := by
    cases op with
    | lt =>
      have hp : peek ('<' :: (f ++ tl)) ['<', '>'] = (true, '<' :: (f ++ tl)) := rfl
      have ht : gettoken ('<' :: (f ++ tl)) = ⟨'<', '<' :: (f ++ tl), f ++ tl, f ++ tl⟩ := by
        rw [gettoken_sym (by rfl), hsk]
      simp only [RedirOp.text, List.cons_append, List.nil_append, parseredirs, hp, ht, hg,
        RedirOp.mode, RedirOp.fd]
      rfl
    | gt =>
      have hp : peek ('>' :: (f ++ tl)) ['<', '>'] = (true, '>' :: (f ++ tl)) := rfl
      have ht : gettoken ('>' :: (f ++ tl)) = ⟨'>', '>' :: (f ++ tl), f ++ tl, f ++ tl⟩ := by
        rw [gettoken_gt _ hgt, hsk]
      simp only [RedirOp.text, List.cons_append, List.nil_append, parseredirs, hp, ht, hg,
        RedirOp.mode, RedirOp.fd]
      rfl
    | gtgt =>
      have hp : peek ('>' :: '>' :: (f ++ tl)) ['<', '>'] = (true, '>' :: '>' :: (f ++ tl)) := rfl
      have ht : gettoken ('>' :: '>' :: (f ++ tl)) =
          ⟨'+', '>' :: '>' :: (f ++ tl), f ++ tl, f ++ tl⟩ := by
        rw [gettoken_gtgt, hsk]
      simp only [RedirOp.text, List.cons_append, List.nil_append, parseredirs, hp, ht, hg,
        RedirOp.mode, RedirOp.fd]
      rfl
  simp only [redirsThenLoop, key]

theorem contains_end_not_redir {c : Char} (h : ['|', ')', '&', ';'].contains c = true) :
    ['<', '>'].contains c = false := by
  simp only [List.contains_cons, List.contains_nil, Bool.or_false, Bool.or_eq_true,
    beq_iff_eq] at h
  rcases h with h | h | h | h <;> subst h <;> rfl

theorem peek_fst_true {s toks : List Char} (h : (peek s toks).1 = true) :
    ∃ c s1, skipws s = c :: s1 ∧ toks.contains c = true ∧ strchr whitespace c = false := by
  cases hs : skipws s with
  | nil => simp [peek, hs, deref, NUL] at h
  | cons c s1 =>
    have hws := skipws_head hs
    have := peek_cons hws s1 toks
    rw [← hs, peek_skipws] at this
    rw [this] at h
    exact ⟨c, s1, rfl, h, hws⟩

theorem peek_nil (toks : List Char) : peek [] toks = (false, []) := rfl

theorem peek_of_skipws_nil {s : List Char} (h : skipws s = []) (toks : List Char) :
    peek s toks = (false, []) := by
  rw [← peek_skipws, h]; rfl

/-- The end of a simple command: `parseredirs` finds nothing and the loop stops. -/
theorem redirsThenLoop_end (t : List Char) (ht : cmdEnd t = true) (m n : Nat) (ret : Cmd)
    (argc : Nat) : redirsThenLoop (m + 1) (n + 1) ret argc t = .ok (ret, skipws t) := by
  simp only [cmdEnd, Bool.or_eq_true, beq_iff_eq] at ht
  rcases ht with ht | ht
  · obtain ⟨c, s1, hs, hc, hws⟩ := peek_fst_true ht
    have hp1 : peek t ['<', '>'] = (false, c :: s1) := by
      rw [← peek_skipws, hs, peek_cons hws, contains_end_not_redir hc]
    have hp2 : peek (c :: s1) ['|', ')', '&', ';'] = (true, c :: s1) := by
      rw [peek_cons hws, hc]
    simp only [redirsThenLoop, parseredirs, hp1, Bool.false_eq_true, if_false, parseexecLoop,
      hp2, Bool.not_true, hs]
  · have hp1 := peek_of_skipws_nil ht ['<', '>']
    simp only [redirsThenLoop, parseredirs, hp1, Bool.false_eq_true, if_false, parseexecLoop,
      peek_nil, ht]
    rfl

theorem cmdEnd_stop {t : List Char} (ht : cmdEnd t = true) : wordChar (deref t) = false := by
  cases t with
  | nil => rfl
  | cons a r =>
    by_cases ha : strchr whitespace a = true
    · simp [deref, wordChar, ha]
    · simp only [Bool.not_eq_true] at ha
      simp only [cmdEnd, peek_cons ha, skipws_cons ha, Bool.or_eq_true, beq_iff_eq,
        reduceCtorEq, or_false] at ht
      have := subset_symbols_end a ht
      simp [deref, wordChar, this]

theorem unitems_cons_append (it : Item) (rest : List Item) (t : List Char)
    (ht : cmdEnd t = true) :
    ∃ tl, unitems (it :: rest) ++ t = it.text ++ tl ∧ wordChar (deref tl) = false ∧
      skipws tl = skipws (unitems rest ++ t) ∧ (unitems rest ++ t).length ≤ tl.length := by
  cases rest with
  | nil => exact ⟨t, rfl, cmdEnd_stop ht, rfl, le_refl _⟩
  | cons it2 r2 =>
    refine ⟨' ' :: (unitems (it2 :: r2) ++ t), ?_, by rfl, by rfl, by simp⟩
    simp [unitems]

theorem resolve_pushArg (a : Span) (c : Cmd) :
    (c.pushArg a).resolve = c.resolve.pushArg (spanText a) := by
  induction c with
  | exec argv => simp [Cmd.pushArg, Cmd.resolve, Tree.pushArg]
  | redir c f ef m fd ih => simp [Cmd.pushArg, Cmd.resolve, Tree.pushArg, ih]
  | pipe l r _ _ => simp [Cmd.pushArg, Cmd.resolve, Tree.pushArg]
  | list l r _ _ => simp [Cmd.pushArg, Cmd.resolve, Tree.pushArg]
  | back c _ => simp [Cmd.pushArg, Cmd.resolve, Tree.pushArg]

theorem pushArgs_redir (ws : List (List Char)) (t : Tree) (f : List Char) (m : Mode)
    (fd : Nat) : Tree.pushArgs ws (.redir t f m fd) = .redir (Tree.pushArgs ws t) f m fd := by
  induction ws generalizing t with
  | nil => rfl
  | cons w ws ih => simp [Tree.pushArgs, Tree.pushArg, ih]

theorem pushArgs_exec (ws acc : List (List Char)) :
    Tree.pushArgs ws (.exec acc) = .exec (acc ++ ws) := by
  induction ws generalizing acc with
  | nil => simp [Tree.pushArgs]
  | cons w ws ih => simp [Tree.pushArgs, Tree.pushArg, ih]

theorem text_length_pos (it : Item) (h : it.wf = true) : 0 < it.text.length := by
  cases it with
  | word w =>
    obtain ⟨a, w1, rfl, _⟩ := isWord_head h
    simp [Item.text]
  | redir op f => cases op <;> simp [Item.text, RedirOp.text]

/-- A simple command in front of `parseredirs` and the loop of `parseexec`:
too many words panic, otherwise the words are pushed in order and the
redirections wrapped in order. -/
theorem redirsThenLoop_items (t : List Char) (ht : cmdEnd t = true) :
    ∀ (items : List Item), (∀ it ∈ items, it.wf = true) →
    ∀ (m n : Nat) (ret : Cmd) (argc : Nat),
      (unitems items ++ t).length < m → (unitems items ++ t).length < n → argc < MAXARGS →
      (MAXARGS ≤ argc + (itemWords items).length →
        redirsThenLoop m n ret argc (unitems items ++ t) = .panic "too many args") ∧
      (argc + (itemWords items).length < MAXARGS →
        ∃ c, redirsThenLoop m n ret argc (unitems items ++ t) = .ok (c, skipws t) ∧
          c.resolve = wrapRedirs items (Tree.pushArgs (itemWords items) ret.resolve)) := by
  intro items
  induction items with
  | nil =>
    intro _ m n ret argc hm hn hargc
    obtain ⟨m, rfl⟩ : ∃ m', m = m' + 1 := ⟨m - 1, by omega⟩
    obtain ⟨n, rfl⟩ : ∃ n', n = n' + 1 := ⟨n - 1, by omega⟩
    constructor
    · intro h; simp [itemWords] at h; omega
    · intro _
      exact ⟨ret, redirsThenLoop_end t ht m n ret argc, rfl⟩
  | cons it rest ih =>
    intro hwf m n ret argc hm hn hargc
    have hwf1 : it.wf = true := hwf it (List.mem_cons_self _ _)
    have hwf2 : ∀ i ∈ rest, i.wf = true := fun i hi => hwf i (List.mem_cons_of_mem _ hi)
    obtain ⟨tl, htext, hstop, hsk, hlen⟩ := unitems_cons_append it rest t ht
    have hpos := text_length_pos it hwf1
    rw [htext] at hm hn ⊢
    rw [List.length_append] at hm hn
    obtain ⟨m, rfl⟩ : ∃ m', m = m' + 1 := ⟨m - 1, by omega⟩
    obtain ⟨n, rfl⟩ : ∃ n', n = n' + 1 := ⟨n - 1, by omega⟩
    cases it with
    | word w =>
      simp only [Item.text]
      rw [redirsThenLoop_word w tl hwf1 hstop]
      by_cases hfull : argc + 1 ≥ MAXARGS
      · rw [if_pos hfull]
        constructor
        · intro _; rfl
        · intro h; simp only [itemWords, List.length_cons] at h; omega
      · rw [if_neg hfull, hsk, redirsThenLoop_skipws]
        obtain ⟨ih1, ih2⟩ := ih hwf2 (n + 1) n (ret.pushArg (w ++ tl, tl)) (argc + 1)
          (by omega) (by omega) (by omega)
        constructor
        · intro h
          apply ih1
          simp only [itemWords, List.length_cons] at h; omega
        · intro h
          obtain ⟨c, hc, hres⟩ := ih2 (by simp only [itemWords, List.length_cons] at h; omega)
          refine ⟨c, hc, ?_⟩
          rw [hres, resolve_pushArg, spanText_append]
          rfl
    | redir op f =>
      simp only [Item.text, List.append_assoc]
      rw [redirsThenLoop_redir op f tl hwf1 hstop, hsk, redirsThenLoop_skipws]
      simp only [Item.text, List.length_append] at hm hn hpos
      obtain ⟨ih1, ih2⟩ := ih hwf2 m (n + 1) (.redir ret (f ++ tl) tl op.mode op.fd) argc
        (by omega) (by omega) hargc
      constructor
      · intro h; exact ih1 h
      · intro h
        obtain ⟨c, hc, hres⟩ := ih2 h
        refine ⟨c, hc, ?_⟩
        rw [hres]
        simp only [Cmd.resolve, spanText_append, pushArgs_redir, itemWords, wrapRedirs]

theorem parseexec_eq (pl : List Char → Res (Cmd × List Char)) (n : Nat) (s : List Char)
    (h : (peek s ['(']).1 = false) :
    parseexec pl n s = redirsThenLoop n n (.exec []) 0 s := by
  rw [← redirsThenLoop_skipws]
  simp only [parseexec, h, Bool.false_eq_true, if_false, redirsThenLoop, peek_snd]

theorem contains_end_not_paren {c : Char} (h : ['|', ')', '&', ';'].contains c = true) :
    ['('].contains c = false := by
  simp only [List.contains_cons, List.contains_nil, Bool.or_false, Bool.or_eq_true,
    beq_iff_eq] at h
  rcases h with h | h | h | h <;> subst h <;> rfl

theorem peek_paren_end {t : List Char} (ht : cmdEnd t = true) : (peek t ['(']).1 = false := by
  simp only [cmdEnd, Bool.or_eq_true, beq_iff_eq] at ht
  rcases ht with ht | ht
  · obtain ⟨c, s1, hs, hc, hws⟩ := peek_fst_true ht
    rw [← peek_skipws, hs, peek_cons hws, contains_end_not_paren hc]
  · rw [peek_of_skipws_nil ht]

theorem peek_paren_item (it : Item) (h : it.wf = true) (tl : List Char) :
    (peek (it.text ++ tl) ['(']).1 = false := by
  cases it with
  | word w => rw [Item.text, peek_word w tl _ h (by intro c hc; simp at hc; subst hc; rfl)]
  | redir op f => cases op <;> rfl

theorem peek_paren_items (items : List Item) (hwf : ∀ it ∈ items, it.wf = true)
    (t : List Char) (ht : cmdEnd t = true) : (peek (unitems items ++ t) ['(']).1 = false := by
  cases items with
  | nil => exact peek_paren_end ht
  | cons it rest =>
    obtain ⟨tl, htext, _, _, _⟩ := unitems_cons_append it rest t ht
    rw [htext]
    exact peek_paren_item it (hwf it (List.mem_cons_self _ _)) tl

/-- The function `parseexec` on a simple command followed by the end of the line or one of
`|`, `)`, `&`, `;`. -/
theorem parseexec_items (pl : List Char → Res (Cmd × List Char)) (items : List Item)
    (hwf : ∀ it ∈ items, it.wf = true) (t : List Char) (ht : cmdEnd t = true) (n : Nat)
    (hn : (unitems items ++ t).length < n) :
    (MAXARGS ≤ (itemWords items).length →
      parseexec pl n (unitems items ++ t) = .panic "too many args") ∧
    ((itemWords items).length < MAXARGS →
      ∃ c, parseexec pl n (unitems items ++ t) = .ok (c, skipws t) ∧
        c.resolve = wrapRedirs items (.exec (itemWords items))) := by
  rw [parseexec_eq pl n _ (peek_paren_items items hwf t ht)]
  have h := redirsThenLoop_items t ht items hwf n n (.exec []) 0 hn hn (by decide)
  simp only [Nat.zero_add, Cmd.resolve, List.map_nil, pushArgs_exec, List.nil_append] at h
  exact h

theorem parseexec_skipws (pl : List Char → Res (Cmd × List Char)) (n : Nat) (s : List Char) :
    parseexec pl n (skipws s) = parseexec pl n s := by
  simp only [parseexec, peek_skipws]

theorem parsepipe_skipws (pl : List Char → Res (Cmd × List Char)) (n : Nat) (s : List Char) :
    parsepipe pl n (skipws s) = parsepipe pl n s := by
  cases n with
  | zero => rfl
  | succ n => simp only [parsepipe, parseexec_skipws]

theorem parseline_skipws (n : Nat) (s : List Char) :
    parseline n (skipws s) = parseline n s := by
  cases n with
  | zero => rfl
  | succ n => simp only [parseline, parsepipe_skipws]

/-- The function `parsepipe` when `parseexec` stops in front of a `|`. -/
theorem parsepipe_bar (pl : List Char → Res (Cmd × List Char)) (n : Nat) (s rest s1 : List Char)
    (c r : Cmd) (h1 : parseexec pl (n + 1) s = .ok (c, '|' :: rest))
    (h2 : parsepipe pl n rest = .ok (r, s1)) :
    parsepipe pl (n + 1) s = .ok (.pipe c r, s1) := by
  have hp : peek ('|' :: rest) ['|'] = (true, '|' :: rest) := rfl
  have hg : gettoken ('|' :: rest) = ⟨'|', '|' :: rest, rest, skipws rest⟩ :=
    gettoken_sym (by rfl) rest
  simp only [parsepipe, h1, hp, hg, if_true, parsepipe_skipws, h2]

/-- The function `parsepipe` when `parseexec` stops in front of something else than `|`. -/
theorem parsepipe_stop (pl : List Char → Res (Cmd × List Char)) (n : Nat) (s s1 : List Char)
    (c : Cmd) (h1 : parseexec pl (n + 1) s = .ok (c, s1)) (h2 : (peek s1 ['|']).1 = false) :
    parsepipe pl (n + 1) s = .ok (c, skipws s1) := by
  simp only [parsepipe, h1, h2, Bool.false_eq_true, if_false, peek_snd]

/-- The function `parseline` when `parsepipe` stops in front of a `;`. -/
theorem parseline_semi (n : Nat) (s rest s1 : List Char) (c r : Cmd)
    (h1 : parsepipe (parseline n) (n + 1) s = .ok (c, ';' :: rest))
    (h2 : parseline n rest = .ok (r, s1)) :
    parseline (n + 1) s = .ok (.list c r, s1) := by
  have hb : peek (';' :: rest) ['&'] = (false, ';' :: rest) := rfl
  have hp : peek (';' :: rest) [';'] = (true, ';' :: rest) := rfl
  have hg : gettoken (';' :: rest) = ⟨';', ';' :: rest, rest, skipws rest⟩ :=
    gettoken_sym (by rfl) rest
  simp only [parseline, h1, parselineBack, hb, hp, hg, if_true, Bool.false_eq_true,
    if_false, parseline_skipws, h2]

/-- The function `parseline` when `parsepipe` stops in front of neither `&` nor `;`. -/
theorem parseline_stop (n : Nat) (s s1 : List Char) (c : Cmd)
    (h1 : parsepipe (parseline n) (n + 1) s = .ok (c, s1))
    (h2 : (peek s1 ['&']).1 = false) (h3 : (peek s1 [';']).1 = false) :
    parseline (n + 1) s = .ok (c, skipws s1) := by
  have h3' : (peek (skipws s1) [';']).1 = false := by rw [peek_skipws]; exact h3
  simp only [parseline, h1, parselineBack, h2, Bool.false_eq_true, if_false, peek_snd, h3',
    skipws_idem]

theorem cstr_of_noNUL (s : List Char) (h : noNUL s = true) : cstr s = s := by
  induction s with
  | nil => rfl
  | cons c s ih =>
    simp only [noNUL, List.all_cons, Bool.and_eq_true, bne_iff_ne, ne_eq] at h
    have hc : (c == NUL) = false := by simpa using h.1
    simp only [cstr, hc, Bool.false_eq_true, if_false]
    rw [ih (by simpa [noNUL] using h.2)]

theorem noNUL_append (a b : List Char) : noNUL (a ++ b) = (noNUL a && noNUL b) := by
  simp [noNUL]

theorem noNUL_cons (c : Char) (s : List Char) : noNUL (c :: s) = (c != NUL && noNUL s) := by
  simp [noNUL]

theorem noNUL_word {w : List Char} (h : isWord w = true) : noNUL w = true := by
  simp only [isWord, Bool.and_eq_true, List.all_eq_true] at h
  simp only [noNUL, List.all_eq_true, bne_iff_ne, ne_eq]
  intro c hc
  have := ne_NUL_of_strchr (wordChar_ws (h.2 c hc))
  simpa using this

theorem noNUL_text (it : Item) (h : it.wf = true) : noNUL it.text = true := by
  cases it with
  | word w => exact noNUL_word h
  | redir op f =>
    have := noNUL_word (w := f) h
    cases op <;> simp only [Item.text, RedirOp.text, noNUL_append, this, Bool.and_true] <;> rfl

theorem noNUL_unitems (items : List Item) (hwf : ∀ it ∈ items, it.wf = true) :
    noNUL (unitems items) = true := by
  induction items with
  | nil => rfl
  | cons it rest ih =>
    have h1 := noNUL_text it (hwf it (List.mem_cons_self _ _))
    have h2 := ih (fun i hi => hwf i (List.mem_cons_of_mem _ hi))
    cases rest with
    | nil => simpa [unitems] using h1
    | cons it2 r2 =>
      simp only [unitems, noNUL_append, noNUL_cons, h1, h2, Bool.and_true, Bool.true_and]
      rfl

theorem parsecmd_of_parseline (buf : List Char) (c : Cmd) (hb : noNUL buf = true)
    (h : parseline (buf.length + 1) buf = .ok (c, [])) : parsecmd buf = .ok c := by
  simp only [parsecmd, cstr_of_noNUL buf hb, h]
  rfl

/-! ## Lines made of simple commands -/

theorem unitems_words (ws : List (List Char)) : unitems (ws.map Item.word) = unwords ws := by
  induction ws with
  | nil => rfl
  | cons w ws ih =>
    cases ws with
    | nil => rfl
    | cons w2 ws2 =>
      simp only [List.map_cons, unitems, unwords, Item.text] at ih ⊢
      rw [ih]

theorem itemWords_words (ws : List (List Char)) : itemWords (ws.map Item.word) = ws := by
  induction ws with
  | nil => rfl
  | cons w ws ih => simp only [List.map_cons, itemWords, ih]

theorem wrapRedirs_words (ws : List (List Char)) (t : Tree) :
    wrapRedirs (ws.map Item.word) t = t := by
  induction ws with
  | nil => rfl
  | cons w ws ih => simp only [List.map_cons, wrapRedirs, ih]

theorem wf_words (ws : List (List Char)) (hw : ∀ w ∈ ws, isWord w = true) :
    ∀ it ∈ ws.map Item.word, it.wf = true := by
  intro it hit
  obtain ⟨w, hw1, rfl⟩ := List.mem_map.mp hit
  exact hw w hw1

theorem skipws_length_le (s : List Char) : (skipws s).length ≤ s.length := by
  induction s with
  | nil => simp [skipws]
  | cons c s ih =>
    by_cases h : strchr whitespace c = true
    · rw [skipws_cons_ws h]; simp only [List.length_cons]; omega
    · simp only [Bool.not_eq_true] at h
      rw [skipws_cons h]

theorem skipws_blank_append (pre s : List Char) (h : blank pre = true) :
    skipws (pre ++ s) = skipws s := by
  induction pre with
  | nil => rfl
  | cons c pre ih =>
    simp only [blank, List.all_cons, Bool.and_eq_true] at h
    have hc : strchr whitespace c = true := by simp only [strchr, h.1, Bool.or_true]
    rw [List.cons_append, skipws_cons_ws hc]
    exact ih h.2

theorem skipws_blank (s : List Char) (h : blank s = true) : skipws s = [] := by
  have := skipws_blank_append s [] h
  simpa using this

theorem noNUL_blank (s : List Char) (h : blank s = true) : noNUL s = true := by
  simp only [blank, List.all_eq_true] at h
  simp only [noNUL, List.all_eq_true, bne_iff_ne, ne_eq]
  intro c hc hn
  subst hn
  exact absurd (h _ hc) (by decide)

theorem cmdEnd_of_skipws {t : List Char} {d : Char} {r : List Char}
    (h : skipws t = d :: r) (hd : ['|', ')', '&', ';'].contains d = true) :
    cmdEnd t = true := by
  have hws := skipws_head h
  have : peek t ['|', ')', '&', ';'] = (true, d :: r) := by
    rw [← peek_skipws, h, peek_cons hws, hd]
  simp [cmdEnd, this]

theorem cmdEnd_of_skipws_nil {t : List Char} (h : skipws t = []) : cmdEnd t = true := by
  simp [cmdEnd, h]

/-- A simple command is a pipeline of one command. -/
theorem ParsesPipe_items (items : List Item) (hwf : ∀ it ∈ items, it.wf = true)
    (hlen : (itemWords items).length < MAXARGS) (t : List Char) (ht : cmdEnd t = true)
    (hbar : (peek t ['|']).1 = false) :
    ParsesPipe (unitems items) t (wrapRedirs items (.exec (itemWords items))) := by
  intro pl n hn
  obtain ⟨n, rfl⟩ : ∃ n', n = n' + 1 := ⟨n - 1, by omega⟩
  obtain ⟨c, hc, hres⟩ := (parseexec_items pl items hwf t ht (n + 1) hn).2 hlen
  refine ⟨c, ?_, hres⟩
  have := parsepipe_stop pl n _ _ c hc (by rw [peek_skipws]; exact hbar)
  rw [this, skipws_idem]

/-- A simple command, a `|`, and a pipeline. -/
theorem ParsesPipe_bar (items : List Item) (hwf : ∀ it ∈ items, it.wf = true)
    (hlen : (itemWords items).length < MAXARGS) (pre rest t : List Char) (R : Tree)
    (hpre : blank pre = true) (h : ParsesPipe rest t R) :
    ParsesPipe (unitems items ++ pre ++ '|' :: rest) t
      (.pipe (wrapRedirs items (.exec (itemWords items))) R) := by
  intro pl n hn
  obtain ⟨n, rfl⟩ : ∃ n', n = n' + 1 := ⟨n - 1, by omega⟩
  have hsk : skipws (pre ++ '|' :: (rest ++ t)) = '|' :: (rest ++ t) := by
    rw [skipws_blank_append _ _ hpre]; rfl
  have hend : cmdEnd (pre ++ '|' :: (rest ++ t)) = true := cmdEnd_of_skipws hsk (by rfl)
  have heq : unitems items ++ pre ++ '|' :: rest ++ t =
      unitems items ++ (pre ++ '|' :: (rest ++ t)) := by simp
  rw [heq] at hn ⊢
  obtain ⟨c, hc, hres⟩ := (parseexec_items pl items hwf _ hend (n + 1) hn).2 hlen
  rw [hsk] at hc
  simp only [List.length_append, List.length_cons] at hn
  obtain ⟨r, hr, hrres⟩ := h pl n (by simp only [List.length_append]; omega)
  exact ⟨.pipe c r, parsepipe_bar pl n _ _ _ c r hc hr, by simp only [Cmd.resolve, hres, hrres]⟩

/-- Whitespace in front of a pipeline. -/
theorem ParsesPipe_blank (pre s t : List Char) (T : Tree) (hpre : blank pre = true)
    (h : ParsesPipe s t T) : ParsesPipe (pre ++ s) t T := by
  intro pl n hn
  simp only [List.append_assoc, List.length_append] at hn
  obtain ⟨c, hc, hres⟩ := h pl n (by simp only [List.length_append]; omega)
  refine ⟨c, ?_, hres⟩
  rw [← parsepipe_skipws, List.append_assoc, skipws_blank_append _ _ hpre, parsepipe_skipws]
  exact hc

/-- A pipeline that ends the line. -/
theorem ParsesLine_pipe (s t : List Char) (T : Tree) (ht : blank t = true)
    (h : ParsesPipe s t T) : ParsesLine (s ++ t) T := by
  intro n hn
  obtain ⟨n, rfl⟩ : ∃ n', n = n' + 1 := ⟨n - 1, by omega⟩
  obtain ⟨c, hc, hres⟩ := h (parseline n) (n + 1) hn
  rw [skipws_blank t ht] at hc
  exact ⟨c, parseline_stop n _ _ c hc rfl rfl, hres⟩

/-- A pipeline, a `;`, and a line. -/
theorem ParsesLine_semi (s t rest : List Char) (P R : Tree) (ht : skipws t = ';' :: rest)
    (h : ParsesPipe s t P) (hr : ParsesLine rest R) : ParsesLine (s ++ t) (.list P R) := by
  intro n hn
  obtain ⟨n, rfl⟩ : ∃ n', n = n' + 1 := ⟨n - 1, by omega⟩
  obtain ⟨c, hc, hres⟩ := h (parseline n) (n + 1) hn
  rw [ht] at hc
  have hlen := skipws_length_le t
  rw [ht] at hlen
  simp only [List.length_append, List.length_cons] at hn hlen
  obtain ⟨r, hr1, hr2⟩ := hr n (by omega)
  exact ⟨.list c r, parseline_semi n _ _ _ c r hc hr1, by simp only [Cmd.resolve, hres, hr2]⟩

/-- Whitespace in front of a line. -/
theorem ParsesLine_blank (pre s : List Char) (T : Tree) (hpre : blank pre = true)
    (h : ParsesLine s T) : ParsesLine (pre ++ s) T := by
  intro n hn
  simp only [List.length_append] at hn
  obtain ⟨c, hc, hres⟩ := h n (by omega)
  refine ⟨c, ?_, hres⟩
  rw [← parseline_skipws, skipws_blank_append _ _ hpre, parseline_skipws]
  exact hc

theorem parseTree_of_ParsesLine (s : List Char) (T : Tree) (hs : noNUL s = true)
    (h : ParsesLine s T) : parseTree s = .ok T := by
  obtain ⟨c, hc, hres⟩ := h (s.length + 1) (by omega)
  simp only [parseTree, parsecmd_of_parseline s c hs hc, Res.map, hres]

/-! ## More fuel does not change a finished run -/

theorem parseredirs_fuel : ∀ (n : Nat) (cmd : Cmd) (s : List Char),
    parseredirs n cmd s ≠ .nofuel → ∀ m, n ≤ m → parseredirs m cmd s = parseredirs n cmd s := by
  intro n
  induction n with
  | zero => intro cmd s h; exact absurd rfl h
  | succ n ih =>
    intro cmd s h m hm
    obtain ⟨m, rfl⟩ : ∃ m', m = m' + 1 := ⟨m - 1, by omega⟩
    have hm' : n ≤ m := by omega
    simp only [parseredirs] at h ⊢
    split_ifs at h ⊢ <;> first | rfl | exact ih _ _ h m hm'

theorem parseexecLoop_fuel : ∀ (n : Nat) (ret : Cmd) (argc : Nat) (s : List Char),
    parseexecLoop n ret argc s ≠ .nofuel →
    ∀ m, n ≤ m → parseexecLoop m ret argc s = parseexecLoop n ret argc s := by
  intro n
  induction n with
  | zero => intro ret argc s h; exact absurd rfl h
  | succ n ih =>
    intro ret argc s h m hm
    obtain ⟨m, rfl⟩ : ∃ m', m = m' + 1 := ⟨m - 1, by omega⟩
    have hm' : n ≤ m := by omega
    simp only [parseexecLoop] at h ⊢
    split_ifs at h ⊢
    · rfl
    · rfl
    · rfl
    · have hr : parseredirs (n + 1) (ret.pushArg ((gettoken (peek s ['|', ')', '&', ';']).2).q,
          (gettoken (peek s ['|', ')', '&', ';']).2).eq))
          (gettoken (peek s ['|', ')', '&', ';']).2).ps ≠ .nofuel := by
        intro hc; rw [hc] at h; exact h rfl
      rw [parseredirs_fuel _ _ _ hr (m + 1) (by omega)]
      cases hres : parseredirs (n + 1) (ret.pushArg ((gettoken (peek s ['|', ')', '&', ';']).2).q,
          (gettoken (peek s ['|', ')', '&', ';']).2).eq))
          (gettoken (peek s ['|', ')', '&', ';']).2).ps with
      | ok a =>
        rw [hres] at h
        exact ih _ _ _ h m hm'
      | panic msg => rfl
      | nofuel => exact absurd hres hr
    · rfl

theorem parseblock_fuel (pl pl' : List Char → Res (Cmd × List Char)) (hpl : Extends pl pl')
    (n : Nat) (s : List Char) (h : parseblock pl n s ≠ .nofuel) (m : Nat) (hm : n ≤ m) :
    parseblock pl' m s = parseblock pl n s := by
  simp only [parseblock] at h ⊢
  split_ifs at h ⊢
  · rfl
  · have hr : pl (gettoken (peek s ['(']).2).ps ≠ .nofuel := by
      intro hc; rw [hc] at h; exact h rfl
    rw [hpl _ hr]
    cases hres : pl (gettoken (peek s ['(']).2).ps with
    | ok a =>
      rw [hres] at h
      simp only at h ⊢
      split_ifs at h ⊢
      · rfl
      · exact parseredirs_fuel _ _ _ h m hm
    | panic msg => rfl
    | nofuel => exact absurd hres hr

theorem parseexec_fuel (pl pl' : List Char → Res (Cmd × List Char)) (hpl : Extends pl pl')
    (n : Nat) (s : List Char) (h : parseexec pl n s ≠ .nofuel) (m : Nat) (hm : n ≤ m) :
    parseexec pl' m s = parseexec pl n s := by
  simp only [parseexec] at h ⊢
  split_ifs at h ⊢
  · exact parseblock_fuel pl pl' hpl n _ h m hm
  · have hr : parseredirs n (.exec []) (peek s ['(']).2 ≠ .nofuel := by
      intro hc; rw [hc] at h; exact h rfl
    rw [parseredirs_fuel _ _ _ hr m hm]
    cases hres : parseredirs n (.exec []) (peek s ['(']).2 with
    | ok a =>
      rw [hres] at h
      exact parseexecLoop_fuel _ _ _ _ h m hm
    | panic msg => rfl
    | nofuel => exact absurd hres hr

theorem parsepipe_fuel (pl pl' : List Char → Res (Cmd × List Char)) (hpl : Extends pl pl') :
    ∀ (n : Nat) (s : List Char), parsepipe pl n s ≠ .nofuel →
    ∀ m, n ≤ m → parsepipe pl' m s = parsepipe pl n s := by
  intro n
  induction n with
  | zero => intro s h; exact absurd rfl h
  | succ n ih =>
    intro s h m hm
    obtain ⟨m, rfl⟩ : ∃ m', m = m' + 1 := ⟨m - 1, by omega⟩
    have hm' : n ≤ m := by omega
    simp only [parsepipe] at h ⊢
    have hr : parseexec pl (n + 1) s ≠ .nofuel := by
      intro hc; rw [hc] at h; exact h rfl
    rw [parseexec_fuel pl pl' hpl _ _ hr (m + 1) (by omega)]
    cases hres : parseexec pl (n + 1) s with
    | ok a =>
      rw [hres] at h
      simp only at h ⊢
      split_ifs at h ⊢
      · have hr2 : parsepipe pl n (gettoken (peek a.2 ['|']).2).ps ≠ .nofuel := by
          intro hc; rw [hc] at h; exact h rfl
        rw [ih _ hr2 m hm']
      · rfl
    | panic msg => rfl
    | nofuel => exact absurd hres hr

theorem parselineBack_fuel : ∀ (n : Nat) (cmd : Cmd) (s : List Char),
    parselineBack n cmd s ≠ .nofuel →
    ∀ m, n ≤ m → parselineBack m cmd s = parselineBack n cmd s := by
  intro n
  induction n with
  | zero => intro cmd s h; exact absurd rfl h
  | succ n ih =>
    intro cmd s h m hm
    obtain ⟨m, rfl⟩ : ∃ m', m = m' + 1 := ⟨m - 1, by omega⟩
    have hm' : n ≤ m := by omega
    simp only [parselineBack] at h ⊢
    split_ifs at h ⊢
    · exact ih _ _ h m hm'
    · rfl

theorem parseline_fuel : ∀ (n : Nat) (m : Nat), n ≤ m → Extends (parseline n) (parseline m) := by
  intro n
  induction n with
  | zero => intro m _ s h; exact absurd rfl h
  | succ n ih =>
    intro m hm s h
    obtain ⟨m, rfl⟩ : ∃ m', m = m' + 1 := ⟨m - 1, by omega⟩
    have hm' : n ≤ m := by omega
    simp only [parseline] at h ⊢
    have hr : parsepipe (parseline n) (n + 1) s ≠ .nofuel := by
      intro hc; rw [hc] at h; exact h rfl
    rw [parsepipe_fuel _ _ (ih m hm') _ _ hr (m + 1) (by omega)]
    cases hres : parsepipe (parseline n) (n + 1) s with
    | ok a =>
      rw [hres] at h
      simp only at h ⊢
      have hr2 : parselineBack (n + 1) a.1 a.2 ≠ .nofuel := by
        intro hc; rw [hc] at h; exact h rfl
      rw [parselineBack_fuel _ _ _ hr2 (m + 1) (by omega)]
      cases hres2 : parselineBack (n + 1) a.1 a.2 with
      | ok b =>
        rw [hres2] at h
        simp only at h ⊢
        split_ifs at h ⊢
        · have hr3 : parseline n (gettoken (peek b.2 [';']).2).ps ≠ .nofuel := by
            intro hc; rw [hc] at h; exact h rfl
          rw [ih m hm' _ hr3]
        · rfl
      | panic msg => rfl
      | nofuel => exact absurd hres2 hr2
    | panic msg => rfl
    | nofuel => exact absurd hres hr

/-! ## Appending text behind a stop character

What the parser does on `s` it also does on `s ++ d :: r` when `d` is one of
`|`, `)`, `&`, `;`, as long as it does not get to look at `d` as an operator of
its own. -/

theorem spanText_shift (a : Span) (t : List Char) : spanText (a.1 ++ t, a.2 ++ t) = spanText a := by
  simp only [spanText, List.length_append]
  rw [show a.1.length + t.length - (a.2.length + t.length) = a.1.length - a.2.length by omega]
  exact List.take_append_of_le_length (by omega)

theorem resolve_shift (t : List Char) (c : Cmd) : (c.shift t).resolve = c.resolve := by
  induction c with
  | exec argv =>
    simp only [Cmd.shift, Cmd.resolve, List.map_map, Tree.exec.injEq]
    apply List.map_congr_left
    intro a _
    exact spanText_shift a t
  | redir c f ef m fd ih =>
    simp only [Cmd.shift, Cmd.resolve, ih]
    rw [spanText_shift (f, ef) t]
  | pipe l r ihl ihr => simp only [Cmd.shift, Cmd.resolve, ihl, ihr]
  | list l r ihl ihr => simp only [Cmd.shift, Cmd.resolve, ihl, ihr]
  | back c ih => simp only [Cmd.shift, Cmd.resolve, ih]

theorem pushArg_shift (t : List Char) (a : Span) (c : Cmd) :
    (c.pushArg a).shift t = (c.shift t).pushArg (a.1 ++ t, a.2 ++ t) := by
  induction c with
  | exec argv => simp [Cmd.shift, Cmd.pushArg]
  | redir c f ef m fd ih => simp [Cmd.shift, Cmd.pushArg, ih]
  | pipe l r _ _ => simp [Cmd.shift, Cmd.pushArg]
  | list l r _ _ => simp [Cmd.shift, Cmd.pushArg]
  | back c _ => simp [Cmd.shift, Cmd.pushArg]

theorem end_char_facts {d : Char} (hd : ['|', ')', '&', ';'].contains d = true) :
    strchr whitespace d = false ∧ wordChar d = false ∧ (d == '>') = false ∧
      ['<', '>'].contains d = false ∧ ['('].contains d = false := by
  simp only [List.contains_cons, List.contains_nil, Bool.or_false, Bool.or_eq_true,
    beq_iff_eq] at hd
  rcases hd with h | h | h | h <;> subst h <;> decide

theorem gettoken_append {d : Char} (hd : ['|', ')', '&', ';'].contains d = true)
    (r s : List Char) (hs : skipws s ≠ []) :
    gettoken (s ++ d :: r) =
      ⟨(gettoken s).ret, (gettoken s).q ++ d :: r, (gettoken s).eq ++ d :: r,
        (gettoken s).ps ++ d :: r⟩ := by
  obtain ⟨hdws, hdw, hdgt, _, _⟩ := end_char_facts hd
  obtain ⟨c, s', hs0⟩ := List.exists_cons_of_ne_nil hs
  have hsk : skipws (s ++ d :: r) = c :: (s' ++ d :: r) := by
    rw [skipws_append_stop hdws, hs0]; rfl
  have hderef : (deref (s' ++ d :: r) == '>') = (deref s' == '>') := by
    cases s' with
    | nil => simp only [List.nil_append, deref, List.headD_cons, hdgt, List.headD_nil]; rfl
    | cons x xs => rfl
  have hword : skipword (c :: (s' ++ d :: r)) = skipword (c :: s') ++ d :: r := by
    rw [← List.cons_append, skipword_append_stop hdw]
  have hcn : (c == NUL) = false := ne_NUL_of_strchr (skipws_head hs0)
  have hsk2 : ∀ x : List Char, skipws (x ++ d :: r) = skipws x ++ d :: r :=
    fun x => skipws_append_stop hdws x r
  simp only [gettoken, hsk, hs0, deref, List.headD_cons, List.tail_cons, hcn,
    Bool.false_eq_true, if_false]
  by_cases h1 : (c == '|' || c == '(' || c == ')' || c == ';' || c == '&' || c == '<') = true
  · simp only [h1, if_true, hsk2]
    rfl
  · simp only [h1, if_false]
    by_cases h2 : (c == '>') = true
    · simp only [h2, if_true]
      cases s' with
      | nil =>
        have h3 : (NUL == '>') = false := by decide
        simp only [List.nil_append, List.headD_cons, hdgt, List.headD_nil, h3,
          Bool.false_eq_true, if_false, List.tail_cons]
        rw [skipws_cons hdws]; rfl
      | cons x xs =>
        simp only [List.cons_append, List.headD_cons, List.tail_cons]
        by_cases h3 : (x == '>') = true
        · simp only [h3, if_true, hsk2]
          rfl
        · simp only [h3, if_false]
          rw [← List.cons_append, hsk2]
          rfl
    · simp only [h2, if_false, hword, hsk2]
      rfl

theorem peek_append {d : Char} (hdws : strchr whitespace d = false) (r s toks : List Char) :
    peek (s ++ d :: r) toks =
      ((peek s toks).1 || (skipws s == [] && toks.contains d), skipws s ++ d :: r) := by
  cases hs : skipws s with
  | nil =>
    rw [peek_of_skipws_nil hs, ← peek_skipws, skipws_append_stop hdws, hs, List.nil_append,
      peek_cons hdws]
    simp
  | cons c s' =>
    have hc := skipws_head hs
    rw [← peek_skipws s, hs, peek_cons hc, ← peek_skipws, skipws_append_stop hdws, hs,
      List.cons_append, peek_cons hc]
    simp

theorem peek_append_true {d : Char} (hdws : strchr whitespace d = false) (r s toks : List Char)
    (h : (peek s toks).1 = true) : peek (s ++ d :: r) toks = (true, skipws s ++ d :: r) := by
  rw [peek_append hdws, h]; rfl

theorem peek_append_false {d : Char} (hdws : strchr whitespace d = false) (r s toks : List Char)
    (h : (peek s toks).1 = false) (h2 : skipws s ≠ [] ∨ toks.contains d = false) :
    peek (s ++ d :: r) toks = (false, skipws s ++ d :: r) := by
  rw [peek_append hdws, h]
  rcases h2 with h2 | h2
  · have : (skipws s == []) = false := by simpa using h2
    rw [this]; rfl
  · rw [h2]; simp

theorem skipws_ne_nil_of_peek {s toks : List Char} (h : (peek s toks).1 = true) :
    skipws s ≠ [] := by
  obtain ⟨c, s1, hs, _, _⟩ := peek_fst_true h
  rw [hs]; exact List.cons_ne_nil _ _

theorem gettoken_ret_nil {s : List Char} (h : skipws s = []) : (gettoken s).ret = NUL := by
  simp [gettoken, h, deref]

theorem parseredirs_append {d : Char} (hd : ['|', ')', '&', ';'].contains d = true)
    (r : List Char) : ∀ (n : Nat) (cmd : Cmd) (s : List Char) (c : Cmd) (s1 : List Char),
    parseredirs n cmd s = .ok (c, s1) →
    parseredirs n (cmd.shift (d :: r)) (s ++ d :: r) = .ok (c.shift (d :: r), s1 ++ d :: r) := by
  obtain ⟨hdws, _, _, hdredir, _⟩ := end_char_facts hd
  intro n
  induction n with
  | zero => intro cmd s c s1 h; simp [parseredirs] at h
  | succ n ih =>
    intro cmd s c s1 h
    by_cases hp : (peek s ['<', '>']).1 = true
    · have hne := skipws_ne_nil_of_peek hp
      have hne' : skipws (skipws s) ≠ [] := by rw [skipws_idem]; exact hne
      have hg1 := gettoken_append hd r (skipws s) hne'
      simp only [parseredirs, hp, if_true, peek_snd] at h
      by_cases hf : ((gettoken (gettoken (skipws s)).ps).ret != 'a') = true
      · simp only [hf, if_true] at h
        cases h
      · have hne2 : skipws (gettoken (skipws s)).ps ≠ [] := by
          intro hc
          apply hf
          rw [gettoken_ret_nil hc]; decide
        have hg2 := gettoken_append hd r _ hne2
        simp only [hf, if_false] at h
        simp only [parseredirs, peek_append_true hdws r s _ hp, if_true, hg1, hg2, hf, if_false]
        split_ifs at h ⊢ <;> exact ih _ _ _ _ h
    · simp only [Bool.not_eq_true] at hp
      simp only [parseredirs, hp, Bool.false_eq_true, if_false, Res.ok.injEq, Prod.mk.injEq,
        peek_snd] at h
      obtain ⟨rfl, rfl⟩ := h
      simp only [parseredirs, peek_append_false hdws r s _ hp (Or.inr hdredir),
        Bool.false_eq_true, if_false]

theorem parseexecLoop_append {d : Char} (hd : ['|', ')', '&', ';'].contains d = true)
    (r : List Char) :
    ∀ (n : Nat) (ret : Cmd) (argc : Nat) (s : List Char) (c : Cmd) (s1 : List Char),
    parseexecLoop n ret argc s = .ok (c, s1) →
    parseexecLoop n (ret.shift (d :: r)) argc (s ++ d :: r) =
      .ok (c.shift (d :: r), s1 ++ d :: r) := by
  obtain ⟨hdws, _, _, _, _⟩ := end_char_facts hd
  intro n
  induction n with
  | zero => intro ret argc s c s1 h; simp [parseexecLoop] at h
  | succ n ih =>
    intro ret argc s c s1 h
    by_cases hp : (peek s ['|', ')', '&', ';']).1 = true
    · simp only [parseexecLoop, hp, Bool.not_true, Bool.false_eq_true, if_false, Res.ok.injEq,
        Prod.mk.injEq, peek_snd] at h
      obtain ⟨rfl, rfl⟩ := h
      simp only [parseexecLoop, peek_append_true hdws r s _ hp, Bool.not_true,
        Bool.false_eq_true, if_false]
    · simp only [Bool.not_eq_true] at hp
      by_cases hs : skipws s = []
      · have hg : gettoken [] = ⟨NUL, [], [], []⟩ := rfl
        simp only [parseexecLoop, hp, Bool.not_false, if_true, peek_snd, hs, hg, beq_self_eq_true,
          Res.ok.injEq, Prod.mk.injEq] at h
        obtain ⟨rfl, rfl⟩ := h
        have hpk : peek (s ++ d :: r) ['|', ')', '&', ';'] = (true, d :: r) := by
          rw [peek_append hdws, hp, hs, hd]; rfl
        simp only [parseexecLoop, hpk, Bool.not_true, Bool.false_eq_true, if_false,
          List.nil_append]
      · have hne' : skipws (skipws s) ≠ [] := by rw [skipws_idem]; exact hs
        have hg1 := gettoken_append hd r (skipws s) hne'
        simp only [parseexecLoop, hp, Bool.not_false, if_true, peek_snd] at h
        simp only [parseexecLoop, peek_append_false hdws r s _ hp (Or.inl hs), Bool.not_false,
          if_true, hg1]
        split_ifs at h ⊢
        · simp only [Res.ok.injEq, Prod.mk.injEq] at h
          obtain ⟨rfl, rfl⟩ := h
          rfl
        · cases hres : parseredirs (n + 1)
              (ret.pushArg ((gettoken (skipws s)).q, (gettoken (skipws s)).eq))
              (gettoken (skipws s)).ps with
          | ok a =>
            obtain ⟨r2, s2⟩ := a
            rw [hres] at h
            have := parseredirs_append hd r _ _ _ _ _ hres
            rw [pushArg_shift] at this
            simp only [this]
            exact ih _ _ _ _ _ h
          | panic msg => rw [hres] at h; cases h
          | nofuel => rw [hres] at h; cases h

theorem parseblock_append {d : Char} (hd : ['|', ')', '&', ';'].contains d = true)
    (r : List Char) (pl : List Char → Res (Cmd × List Char)) (hpl : AppendStable (d :: r) pl)
    (n : Nat) (s : List Char) (c : Cmd) (s1 : List Char)
    (h : parseblock pl n s = .ok (c, s1)) :
    parseblock pl n (s ++ d :: r) = .ok (c.shift (d :: r), s1 ++ d :: r) := by
  obtain ⟨hdws, _, _, _, _⟩ := end_char_facts hd
  by_cases hp : (peek s ['(']).1 = true
  · have hne := skipws_ne_nil_of_peek hp
    have hne' : skipws (skipws s) ≠ [] := by rw [skipws_idem]; exact hne
    have hg1 := gettoken_append hd r (skipws s) hne'
    simp only [parseblock, hp, Bool.not_true, Bool.false_eq_true, if_false, peek_snd] at h
    simp only [parseblock, peek_append_true hdws r s _ hp, Bool.not_true, Bool.false_eq_true,
      if_false, hg1]
    cases hres : pl (gettoken (skipws s)).ps with
    | ok a =>
      obtain ⟨cmd, s2⟩ := a
      rw [hres] at h
      simp only at h
      by_cases hp2 : (peek s2 [')']).1 = true
      · have hne2 := skipws_ne_nil_of_peek hp2
        have hs2 : s2 ≠ [] := by
          intro hc; rw [hc] at hne2; exact hne2 rfl
        have hne2' : skipws (skipws s2) ≠ [] := by rw [skipws_idem]; exact hne2
        have hg2 := gettoken_append hd r (skipws s2) hne2'
        rw [hpl _ _ _ hres hs2]
        simp only [hp2, Bool.not_true, Bool.false_eq_true, if_false, peek_snd] at h
        simp only [peek_append_true hdws r s2 _ hp2, Bool.not_true, Bool.false_eq_true,
          if_false, hg2]
        exact parseredirs_append hd r _ _ _ _ _ h
      · simp only [hp2, Bool.not_false, if_true] at h
        cases h
    | panic msg => rw [hres] at h; cases h
    | nofuel => rw [hres] at h; cases h
  · simp only [parseblock, hp, Bool.not_false, if_true] at h
    cases h

theorem parseexec_append {d : Char} (hd : ['|', ')', '&', ';'].contains d = true)
    (r : List Char) (pl : List Char → Res (Cmd × List Char)) (hpl : AppendStable (d :: r) pl)
    (n : Nat) (s : List Char) (c : Cmd) (s1 : List Char)
    (h : parseexec pl n s = .ok (c, s1)) :
    parseexec pl n (s ++ d :: r) = .ok (c.shift (d :: r), s1 ++ d :: r) := by
  obtain ⟨hdws, _, _, _, hdparen⟩ := end_char_facts hd
  by_cases hp : (peek s ['(']).1 = true
  · simp only [parseexec, hp, if_true, peek_snd] at h
    simp only [parseexec, peek_append_true hdws r s _ hp, if_true]
    exact parseblock_append hd r pl hpl n _ c s1 h
  · simp only [Bool.not_eq_true] at hp
    simp only [parseexec, hp, Bool.false_eq_true, if_false, peek_snd] at h
    simp only [parseexec, peek_append_false hdws r s _ hp (Or.inr hdparen), Bool.false_eq_true,
      if_false]
    cases hres : parseredirs n (.exec []) (skipws s) with
    | ok a =>
      obtain ⟨r2, s2⟩ := a
      rw [hres] at h
      have := parseredirs_append hd r _ _ _ _ _ hres
      simp only [Cmd.shift, List.map_nil] at this
      simp only [this]
      exact parseexecLoop_append hd r _ _ _ _ _ _ h
    | panic msg => rw [hres] at h; cases h
    | nofuel => rw [hres] at h; cases h

theorem parsepipe_append {d : Char} (hd : ['|', ')', '&', ';'].contains d = true)
    (r : List Char) (pl : List Char → Res (Cmd × List Char)) (hpl : AppendStable (d :: r) pl) :
    ∀ (n : Nat) (s : List Char) (c : Cmd) (s1 : List Char),
    parsepipe pl n s = .ok (c, s1) → (s1 ≠ [] ∨ d ≠ '|') →
    parsepipe pl n (s ++ d :: r) = .ok (c.shift (d :: r), s1 ++ d :: r) := by
  obtain ⟨hdws, _, _, _, _⟩ := end_char_facts hd
  intro n
  induction n with
  | zero => intro s c s1 h; simp [parsepipe] at h
  | succ n ih =>
    intro s c s1 h hcond
    simp only [parsepipe] at h ⊢
    cases hres : parseexec pl (n + 1) s with
    | ok a =>
      obtain ⟨c1, s2⟩ := a
      rw [hres] at h
      rw [parseexec_append hd r pl hpl _ _ _ _ hres]
      simp only at h ⊢
      by_cases hp : (peek s2 ['|']).1 = true
      · have hne := skipws_ne_nil_of_peek hp
        have hne' : skipws (skipws s2) ≠ [] := by rw [skipws_idem]; exact hne
        have hg1 := gettoken_append hd r (skipws s2) hne'
        simp only [hp, if_true, peek_snd] at h
        simp only [peek_append_true hdws r s2 _ hp, if_true, hg1]
        cases hres2 : parsepipe pl n (gettoken (skipws s2)).ps with
        | ok b =>
          obtain ⟨c2, s3⟩ := b
          rw [hres2] at h
          simp only [Res.ok.injEq, Prod.mk.injEq] at h
          obtain ⟨rfl, rfl⟩ := h
          rw [ih _ _ _ hres2 hcond]
          rfl
        | panic msg => rw [hres2] at h; cases h
        | nofuel => rw [hres2] at h; cases h
      · simp only [Bool.not_eq_true] at hp
        simp only [hp, Bool.false_eq_true, if_false, Res.ok.injEq, Prod.mk.injEq, peek_snd] at h
        obtain ⟨rfl, rfl⟩ := h
        have hc2 : skipws s2 ≠ [] ∨ ['|'].contains d = false := by
          rcases hcond with hc | hc
          · exact Or.inl hc
          · right; simpa using hc
        simp only [peek_append_false hdws r s2 _ hp hc2, Bool.false_eq_true, if_false]
    | panic msg => rw [hres] at h; cases h
    | nofuel => rw [hres] at h; cases h

theorem parselineBack_append {d : Char} (hd : ['|', ')', '&', ';'].contains d = true)
    (r : List Char) : ∀ (n : Nat) (cmd : Cmd) (s : List Char) (c : Cmd) (s1 : List Char),
    parselineBack n cmd s = .ok (c, s1) → (s1 ≠ [] ∨ d ≠ '&') →
    parselineBack n (cmd.shift (d :: r)) (s ++ d :: r) =
      .ok (c.shift (d :: r), s1 ++ d :: r) := by
  obtain ⟨hdws, _, _, _, _⟩ := end_char_facts hd
  intro n
  induction n with
  | zero => intro cmd s c s1 h; simp [parselineBack] at h
  | succ n ih =>
    intro cmd s c s1 h hcond
    by_cases hp : (peek s ['&']).1 = true
    · have hne := skipws_ne_nil_of_peek hp
      have hne' : skipws (skipws s) ≠ [] := by rw [skipws_idem]; exact hne
      have hg1 := gettoken_append hd r (skipws s) hne'
      simp only [parselineBack, hp, if_true, peek_snd] at h
      simp only [parselineBack, peek_append_true hdws r s _ hp, if_true, hg1]
      exact ih _ _ _ _ h hcond
    · simp only [Bool.not_eq_true] at hp
      simp only [parselineBack, hp, Bool.false_eq_true, if_false, Res.ok.injEq, Prod.mk.injEq,
        peek_snd] at h
      obtain ⟨rfl, rfl⟩ := h
      have hc2 : skipws s ≠ [] ∨ ['&'].contains d = false := by
        rcases hcond with hc | hc
        · exact Or.inl hc
        · right; simpa using hc
      simp only [parselineBack, peek_append_false hdws r s _ hp hc2, Bool.false_eq_true,
        if_false]

theorem parselineBack_nil (n : Nat) (cmd : Cmd) : parselineBack (n + 1) cmd [] = .ok (cmd, []) :=
  rfl

theorem parseline_append {d : Char} (hd : ['|', ')', '&', ';'].contains d = true)
    (r : List Char) : ∀ (n : Nat) (s : List Char) (c : Cmd) (s1 : List Char),
    parseline n s = .ok (c, s1) → (s1 ≠ [] ∨ d = ')') →
    parseline n (s ++ d :: r) = .ok (c.shift (d :: r), s1 ++ d :: r) := by
  obtain ⟨hdws, _, _, _, _⟩ := end_char_facts hd
  intro n
  induction n with
  | zero => intro s c s1 h; simp [parseline] at h
  | succ n ih =>
    intro s c s1 h hcond
    have hpl : AppendStable (d :: r) (parseline n) :=
      fun s c s1 h hs => ih s c s1 h (Or.inl hs)
    simp only [parseline] at h ⊢
    cases hres : parsepipe (parseline n) (n + 1) s with
    | ok a =>
      obtain ⟨c1, s2⟩ := a
      rw [hres] at h
      simp only at h
      cases hres2 : parselineBack (n + 1) c1 s2 with
      | ok b =>
        obtain ⟨c2, s3⟩ := b
        rw [hres2] at h
        simp only at h
        -- the conditions under which the two inner calls carry over
        have hfin : s1 ≠ [] → s3 ≠ [] := by
          intro hs1 hs3
          subst hs3
          simp only [peek_nil, Bool.false_eq_true, if_false, Res.ok.injEq, Prod.mk.injEq] at h
          exact hs1 h.2.symm
        have hc3 : s3 ≠ [] ∨ d ≠ '&' := by
          rcases hcond with hc | hc
          · exact Or.inl (hfin hc)
          · right; subst hc; decide
        have hc2 : s2 ≠ [] ∨ d ≠ '|' := by
          rcases hcond with hc | hc
          · left
            intro hs2
            subst hs2
            rw [parselineBack_nil] at hres2
            simp only [Res.ok.injEq, Prod.mk.injEq] at hres2
            exact hfin hc hres2.2.symm
          · right; subst hc; decide
        rw [parsepipe_append hd r _ hpl _ _ _ _ hres hc2]
        simp only
        rw [parselineBack_append hd r _ _ _ _ _ hres2 hc3]
        simp only
        by_cases hp : (peek s3 [';']).1 = true
        · have hne := skipws_ne_nil_of_peek hp
          have hne' : skipws (skipws s3) ≠ [] := by rw [skipws_idem]; exact hne
          have hg1 := gettoken_append hd r (skipws s3) hne'
          simp only [hp, if_true, peek_snd] at h
          simp only [peek_append_true hdws r s3 _ hp, if_true, hg1]
          cases hres3 : parseline n (gettoken (skipws s3)).ps with
          | ok e =>
            obtain ⟨c4, s4⟩ := e
            rw [hres3] at h
            simp only [Res.ok.injEq, Prod.mk.injEq] at h
            obtain ⟨rfl, rfl⟩ := h
            rw [ih _ _ _ hres3 hcond]
            rfl
          | panic msg => rw [hres3] at h; cases h
          | nofuel => rw [hres3] at h; cases h
        · simp only [Bool.not_eq_true] at hp
          simp only [hp, Bool.false_eq_true, if_false, Res.ok.injEq, Prod.mk.injEq, peek_snd] at h
          obtain ⟨rfl, rfl⟩ := h
          have hc4 : skipws s3 ≠ [] ∨ [';'].contains d = false := by
            rcases hcond with hc | hc
            · exact Or.inl hc
            · right; subst hc; decide
          simp only [peek_append_false hdws r s3 _ hp hc4, Bool.false_eq_true, if_false]
      | panic msg => rw [hres2] at h; cases h
      | nofuel => rw [hres2] at h; cases h
    | panic msg => rw [hres] at h; cases h
    | nofuel => rw [hres] at h; cases h

/-! ## Redirections and background marks -/

theorem blank_head_not_gt (g s : List Char) (hg : blank g = true) (hs : (deref s == '>') = false) :
    (deref (g ++ s) == '>') = false := by
  cases g with
  | nil => exact hs
  | cons c g =>
    simp only [blank, List.all_cons, Bool.and_eq_true] at hg
    have hc := hg.1
    simp only [whitespace, List.contains_cons, List.contains_nil, Bool.or_false,
      Bool.or_eq_true, beq_iff_eq] at hc
    rcases hc with h | h | h | h | h <;> subst h <;> rfl

theorem word_head_not_gt (f tl : List Char) (hf : isWord f = true) :
    (deref (f ++ tl) == '>') = false := by
  obtain ⟨a, w1, rfl, ha⟩ := isWord_head hf
  have hc := not_contains_of_strchr (wordChar_sym ha)
  simp only [symbols, List.contains_cons, List.contains_nil, Bool.or_false,
    Bool.or_eq_false_iff] at hc
  simpa [deref] using hc.2.2.1

/-- One turn of the loop of `parseredirs`: an operator, optional whitespace,
and a file word. -/
theorem parseredirs_step (op : RedirOp) (g f tl : List Char) (hg : blank g = true)
    (hf : isWord f = true) (htl : wordChar (deref tl) = false) (m : Nat) (ret : Cmd) :
    parseredirs (m + 1) ret (op.text ++ (g ++ (f ++ tl))) =
      parseredirs m (.redir ret (f ++ tl) tl op.mode op.fd) (skipws tl) := by
  have hsk : skipws (g ++ (f ++ tl)) = f ++ tl := by
    rw [skipws_blank_append _ _ hg, skipws_word f tl hf]
  have hg2 := gettoken_word f tl hf htl
  have hgt := blank_head_not_gt g (f ++ tl) hg (word_head_not_gt f tl hf)
  cases op with
  | lt =>
    have hp : peek ('<' :: (g ++ (f ++ tl))) ['<', '>'] = (true, '<' :: (g ++ (f ++ tl))) := rfl
    have ht : gettoken ('<' :: (g ++ (f ++ tl))) =
        ⟨'<', '<' :: (g ++ (f ++ tl)), g ++ (f ++ tl), f ++ tl⟩ := by
      rw [gettoken_sym (by rfl), hsk]
    simp only [RedirOp.text, List.cons_append, List.nil_append, parseredirs, hp, ht, hg2,
      RedirOp.mode, RedirOp.fd]
    rfl
  | gt =>
    have hp : peek ('>' :: (g ++ (f ++ tl))) ['<', '>'] = (true, '>' :: (g ++ (f ++ tl))) := rfl
    have ht : gettoken ('>' :: (g ++ (f ++ tl))) =
        ⟨'>', '>' :: (g ++ (f ++ tl)), g ++ (f ++ tl), f ++ tl⟩ := by
      rw [gettoken_gt _ hgt, hsk]
    simp only [RedirOp.text, List.cons_append, List.nil_append, parseredirs, hp, ht, hg2,
      RedirOp.mode, RedirOp.fd]
    rfl
  | gtgt =>
    have hp : peek ('>' :: '>' :: (g ++ (f ++ tl))) ['<', '>'] =
        (true, '>' :: '>' :: (g ++ (f ++ tl))) := rfl
    have ht : gettoken ('>' :: '>' :: (g ++ (f ++ tl))) =
        ⟨'+', '>' :: '>' :: (g ++ (f ++ tl)), g ++ (f ++ tl), f ++ tl⟩ := by
      rw [gettoken_gtgt, hsk]
    simp only [RedirOp.text, List.cons_append, List.nil_append, parseredirs, hp, ht, hg2,
      RedirOp.mode, RedirOp.fd]
    rfl

theorem parseredirs_nil (m : Nat) (cmd : Cmd) : parseredirs (m + 1) cmd [] = .ok (cmd, []) := rfl

theorem parselineBack_skipws (n : Nat) (c : Cmd) (s : List Char) :
    parselineBack n c (skipws s) = parselineBack n c s := by
  cases n with
  | zero => rfl
  | succ n => simp only [parselineBack, peek_skipws]

theorem backs_succ (k : Nat) (t : Tree) : Tree.backs (k + 1) t = Tree.backs k (.back t) := by
  induction k with
  | zero => rfl
  | succ k ih =>
    show Tree.back (Tree.backs (k + 1) t) = Tree.back (Tree.backs k (.back t))
    rw [ih]

/-- The loop of `parseline` on a run of `&` tokens that ends the line. -/
theorem parselineBack_amps : ∀ (gaps : List (List Char)), (∀ g ∈ gaps, blank g = true) →
    ∀ (n : Nat) (cmd : Cmd), (ampsText gaps).length < n →
    ∃ c, parselineBack n cmd (ampsText gaps) = .ok (c, []) ∧
      c.resolve = Tree.backs gaps.length cmd.resolve := by
  intro gaps
  induction gaps with
  | nil =>
    intro _ n cmd hn
    obtain ⟨n, rfl⟩ : ∃ n', n = n' + 1 := ⟨n - 1, by omega⟩
    exact ⟨cmd, rfl, rfl⟩
  | cons g gs ih =>
    intro hg n cmd hn
    obtain ⟨n, rfl⟩ : ∃ n', n = n' + 1 := ⟨n - 1, by omega⟩
    simp only [ampsText, List.length_cons, List.length_append] at hn
    obtain ⟨c, hc, hres⟩ := ih (fun x hx => hg x (List.mem_cons_of_mem _ hx)) n (.back cmd)
      (by omega)
    refine ⟨c, ?_, ?_⟩
    · have hp : peek ('&' :: (g ++ ampsText gs)) ['&'] = (true, '&' :: (g ++ ampsText gs)) := rfl
      have ht : gettoken ('&' :: (g ++ ampsText gs)) =
          ⟨'&', '&' :: (g ++ ampsText gs), g ++ ampsText gs, skipws (g ++ ampsText gs)⟩ :=
        gettoken_sym (by rfl) _
      simp only [ampsText, parselineBack, hp, ht, if_true]
      rw [skipws_blank_append _ _ (hg g (List.mem_cons_self _ _)), parselineBack_skipws]
      exact hc
    · rw [hres, List.length_cons, backs_succ]
      rfl

theorem noNUL_ampsText (gaps : List (List Char)) (hg : ∀ g ∈ gaps, blank g = true) :
    noNUL (ampsText gaps) = true := by
  induction gaps with
  | nil => rfl
  | cons g gs ih =>
    have h1 := noNUL_blank g (hg g (List.mem_cons_self _ _))
    have h2 := ih (fun x hx => hg x (List.mem_cons_of_mem _ hx))
    simp only [ampsText, noNUL_cons, noNUL_append, h1, h2, Bool.and_true]
    rfl

theorem parseline_of_pipe_back (n : Nat) (s s1 : List Char) (c c' : Cmd)
    (h1 : parsepipe (parseline n) (n + 1) s = .ok (c, s1))
    (h2 : parselineBack (n + 1) c s1 = .ok (c', [])) :
    parseline (n + 1) s = .ok (c', []) := by
  simp only [parseline, h1, h2, peek_nil, Bool.false_eq_true, if_false]

/-! ## Lines of words -/

theorem cmdEnd_nil : cmdEnd [] = true := rfl

/-- A simple command of words is a pipeline of one command. -/
theorem ParsesPipe_words (ws : List (List Char)) (hw : ∀ w ∈ ws, isWord w = true)
    (hlen : ws.length < MAXARGS) (t : List Char) (ht : cmdEnd t = true)
    (hbar : (peek t ['|']).1 = false) : ParsesPipe (unwords ws) t (.exec ws) := by
  have h := ParsesPipe_items (ws.map Item.word) (wf_words ws hw)
    (by rw [itemWords_words]; exact hlen) t ht hbar
  rw [unitems_words, itemWords_words, wrapRedirs_words] at h
  exact h

/-- Words, a `|`, and a pipeline. -/
theorem ParsesPipe_words_bar (ws : List (List Char)) (hw : ∀ w ∈ ws, isWord w = true)
    (hlen : ws.length < MAXARGS) (pre rest t : List Char) (R : Tree)
    (hpre : blank pre = true) (h : ParsesPipe rest t R) :
    ParsesPipe (unwords ws ++ pre ++ '|' :: rest) t (.pipe (.exec ws) R) := by
  have h := ParsesPipe_bar (ws.map Item.word) (wf_words ws hw)
    (by rw [itemWords_words]; exact hlen) pre rest t R hpre h
  rw [unitems_words, itemWords_words, wrapRedirs_words] at h
  exact h

/-- A simple command of words that ends the line. -/
theorem ParsesLine_words (ws : List (List Char)) (hw : ∀ w ∈ ws, isWord w = true)
    (hlen : ws.length < MAXARGS) : ParsesLine (unwords ws) (.exec ws) := by
  have h := ParsesLine_pipe (unwords ws) [] (.exec ws) rfl
    (ParsesPipe_words ws hw hlen [] rfl rfl)
  rw [List.append_nil] at h
  exact h

theorem noNUL_unwords (ws : List (List Char)) (hw : ∀ w ∈ ws, isWord w = true) :
    noNUL (unwords ws) = true := by
  rw [← unitems_words]
  exact noNUL_unitems _ (wf_words ws hw)

/-- A pipeline followed by a run of `&` tokens that ends the line. -/
theorem ParsesLine_amps (s : List Char) (gaps : List (List Char))
    (hg : ∀ g ∈ gaps, blank g = true) (T : Tree) (h : ParsesPipe s (ampsText gaps) T) :
    ParsesLine (s ++ ampsText gaps) (Tree.backs gaps.length T) := by
  intro n hn
  obtain ⟨n, rfl⟩ : ∃ n', n = n' + 1 := ⟨n - 1, by omega⟩
  obtain ⟨c, hc, hres⟩ := h (parseline n) (n + 1) hn
  simp only [List.length_append] at hn
  obtain ⟨c', hc', hres'⟩ := parselineBack_amps gaps hg (n + 1) c (by omega)
  rw [← parselineBack_skipws] at hc'
  exact ⟨c', parseline_of_pipe_back n _ _ c c' hc hc', by rw [hres', hres]⟩

theorem parsecmd_panic_of_parseexec (buf : List Char) (msg : String) (hb : noNUL buf = true)
    (h : parseexec (parseline buf.length) (buf.length + 1) buf = .panic msg) :
    parsecmd buf = .panic msg := by
  simp only [parsecmd, cstr_of_noNUL buf hb, parseline, parsepipe, h]

theorem getcmdLoop_line (rest : List Char) : ∀ (line : List Char) (k : Nat),
    line.length < k → '\n' ∉ line → getcmdLoop k (line ++ '\n' :: rest) = (line, rest) := by
  intro line
  induction line with
  | nil =>
    intro k hk _
    obtain ⟨k, rfl⟩ : ∃ k', k = k' + 1 := ⟨k - 1, by simp at hk; omega⟩
    rfl
  | cons c line ih =>
    intro k hk hnl
    obtain ⟨k, rfl⟩ : ∃ k', k = k' + 1 := ⟨k - 1, by simp at hk; omega⟩
    simp only [List.mem_cons, not_or] at hnl
    have hc : (c == '\n') = false := by
      simp only [beq_eq_false_iff_ne, ne_eq]
      exact fun h => hnl.1 h.symm
    simp only [List.length_cons] at hk
    have hi := ih k (by omega) hnl.2
    rw [List.cons_append]
    simp only [getcmdLoop, hc, Bool.false_eq_true, if_false, hi]

theorem getcmd_line (line rest : List Char) (hne : line ≠ []) (hlen : line.length < 99)
    (hnl : '\n' ∉ line) : getcmd 100 (line ++ '\n' :: rest) = some (line, rest) := by
  have h := getcmdLoop_line rest line 99 hlen hnl
  have hb : (line == []) = false := by simpa using hne
  simp only [getcmd, Nat.add_one_sub_one, h, hb, Bool.false_eq_true, if_false]

theorem getcmdLoop_all : ∀ (line : List Char) (k : Nat),
    line.length ≤ k → '\n' ∉ line → getcmdLoop k line = (line, []) := by
  intro line
  induction line with
  | nil => intro k _ _; cases k <;> rfl
  | cons c line ih =>
    intro k hk hnl
    obtain ⟨k, rfl⟩ : ∃ k2, k = k2 + 1 := ⟨k - 1, by simp at hk; omega⟩
    simp only [List.mem_cons, not_or] at hnl
    have hc : (c == '\n') = false := by
      simp only [beq_eq_false_iff_ne, ne_eq]
      exact fun h => hnl.1 h.symm
    simp only [List.length_cons] at hk
    simp only [getcmdLoop, hc, Bool.false_eq_true, if_false, ih k (by omega) hnl.2]

theorem getcmdLoop_full (more : List Char) : ∀ (chunk : List Char) (k : Nat),
    chunk.length = k → '\n' ∉ chunk → getcmdLoop k (chunk ++ more) = (chunk, more) := by
  intro chunk
  induction chunk with
  | nil =>
    intro k hk _
    simp only [List.length_nil] at hk
    subst hk
    rfl
  | cons c chunk ih =>
    intro k hk hnl
    simp only [List.length_cons] at hk
    subst hk
    simp only [List.mem_cons, not_or] at hnl
    have hc : (c == '\n') = false := by
      simp only [beq_eq_false_iff_ne, ne_eq]
      exact fun h => hnl.1 h.symm
    rw [List.cons_append]
    simp only [getcmdLoop, hc, Bool.false_eq_true, if_false, ih chunk.length rfl hnl.2]

/-- A last line without a newline. -/
theorem getcmd_last (line : List Char) (hne : line ≠ []) (hlen : line.length < 99)
    (hnl : '\n' ∉ line) : getcmd 100 line = some (line, []) := by
  have h := getcmdLoop_all line 99 (by omega) hnl
  have hb : (line == []) = false := by simpa using hne
  simp only [getcmd, Nat.add_one_sub_one, h, hb, Bool.false_eq_true, if_false]

/-- A line of 99 bytes or more: the first 99 bytes are handed over. -/
theorem getcmd_long (chunk more : List Char) (hlen : chunk.length = 99)
    (hnl : '\n' ∉ chunk) : getcmd 100 (chunk ++ more) = some (chunk, more) := by
  have h := getcmdLoop_full more chunk 99 hlen hnl
  have hne : chunk ≠ [] := by
    intro e
    rw [e] at hlen
    simp at hlen
  have hb : (chunk == []) = false := by simpa using hne
  simp only [getcmd, Nat.add_one_sub_one, h, hb, Bool.false_eq_true, if_false]

theorem parsepipe_nil (pl : List Char → Res (Cmd × List Char)) (n : Nat) :
    parsepipe pl (n + 1) [] = .ok (.exec [], []) := rfl

/-- A pipeline read to its end, then a `|` and whitespace: `parsepipe` goes on
and pipes into an `exec` with no arguments. -/
theorem parsepipe_trailing_bar (pl : List Char → Res (Cmd × List Char)) (g : List Char)
    (hg : blank g = true) (hpl : AppendStable ('|' :: g) pl) :
    ∀ (n : Nat) (s : List Char) (c : Cmd), parsepipe pl (n + 1) s = .ok (c, []) →
    ∃ c', parsepipe pl (n + 2) (s ++ '|' :: g) = .ok (c', []) ∧
      c'.resolve.emptyPipeEnd = true := by
  have hd : ['|', ')', '&', ';'].contains '|' = true := by decide
  obtain ⟨hdws, _, _, _, _⟩ := end_char_facts hd
  have hext : Extends pl pl := fun _ _ => rfl
  intro n
  induction n with
  | zero =>
    intro s c h
    simp only [parsepipe] at h
    cases hres : parseexec pl (0 + 1) s with
    | ok a =>
      obtain ⟨c1, s2⟩ := a
      rw [hres] at h
      have he := parseexec_append hd g pl hpl _ _ _ _ hres
      have he2 : parseexec pl (0 + 2) (s ++ '|' :: g) =
          .ok (c1.shift ('|' :: g), s2 ++ '|' :: g) := by
        rw [parseexec_fuel pl pl hext (0 + 1) _ (by rw [he]; exact fun hc => by cases hc)
          (0 + 2) (by omega), he]
      by_cases hp : (peek s2 ['|']).1 = true
      · simp only [hp, if_true] at h
        cases h
      · simp only [Bool.not_eq_true] at hp
        simp only [hp, Bool.false_eq_true, if_false, Res.ok.injEq, Prod.mk.injEq, peek_snd] at h
        obtain ⟨rfl, hs2⟩ := h
        have hpk : peek (s2 ++ '|' :: g) ['|'] = (true, '|' :: g) := by
          rw [peek_append hdws, hp, hs2]; rfl
        have hg1 : gettoken ('|' :: g) = ⟨'|', '|' :: g, g, []⟩ := by
          rw [gettoken_sym (by rfl), skipws_blank g hg]
        refine ⟨.pipe (c1.shift ('|' :: g)) (.exec []), ?_, rfl⟩
        rw [parsepipe, he2]
        simp only [hpk, if_true, hg1, parsepipe_nil]
    | panic msg => rw [hres] at h; cases h
    | nofuel => rw [hres] at h; cases h
  | succ n ih =>
    intro s c h
    rw [parsepipe] at h
    cases hres : parseexec pl (n + 1 + 1) s with
    | ok a =>
      obtain ⟨c1, s2⟩ := a
      rw [hres] at h
      simp only at h
      have he := parseexec_append hd g pl hpl _ _ _ _ hres
      have he2 : parseexec pl (n + 1 + 2) (s ++ '|' :: g) =
          .ok (c1.shift ('|' :: g), s2 ++ '|' :: g) := by
        rw [parseexec_fuel pl pl hext (n + 1 + 1) _ (by rw [he]; exact fun hc => by cases hc)
          (n + 1 + 2) (by omega), he]
      by_cases hp : (peek s2 ['|']).1 = true
      · have hne := skipws_ne_nil_of_peek hp
        have hne' : skipws (skipws s2) ≠ [] := by rw [skipws_idem]; exact hne
        have hg1 := gettoken_append hd g (skipws s2) hne'
        simp only [hp, if_true, peek_snd] at h
        cases hres2 : parsepipe pl (n + 1) (gettoken (skipws s2)).ps with
        | ok b =>
          obtain ⟨r, s3⟩ := b
          rw [hres2] at h
          simp only [Res.ok.injEq, Prod.mk.injEq] at h
          obtain ⟨rfl, rfl⟩ := h
          obtain ⟨r', hr', hflag⟩ := ih _ _ hres2
          refine ⟨.pipe (c1.shift ('|' :: g)) r', ?_, ?_⟩
          · rw [parsepipe, he2]
            simp only [peek_append_true hdws g s2 _ hp, if_true, hg1, hr']
          · simp only [Cmd.resolve, Tree.emptyPipeEnd, hflag, Bool.or_true]
        | panic msg => rw [hres2] at h; cases h
        | nofuel => rw [hres2] at h; cases h
      · simp only [Bool.not_eq_true] at hp
        simp only [hp, Bool.false_eq_true, if_false, Res.ok.injEq, Prod.mk.injEq, peek_snd] at h
        obtain ⟨rfl, hs2⟩ := h
        have hpk : peek (s2 ++ '|' :: g) ['|'] = (true, '|' :: g) := by
          rw [peek_append hdws, hp, hs2]; rfl
        have hg1 : gettoken ('|' :: g) = ⟨'|', '|' :: g, g, []⟩ := by
          rw [gettoken_sym (by rfl), skipws_blank g hg]
        refine ⟨.pipe (c1.shift ('|' :: g)) (.exec []), ?_, rfl⟩
        rw [parsepipe, he2]
        simp only [hpk, if_true, hg1, parsepipe_nil]
    | panic msg => rw [hres] at h; cases h
    | nofuel => rw [hres] at h; cases h

/-! ## The claims -/

/-- C1, what the code does: whenever `getcmd` hands `main` a buffer that is
not taken by the `cd` or `jobs` built-in and on which `parsecmd` detects a parse
error, the panic message is printed and the interpreter process itself exits
with status 1; the input after that buffer is never read.  This holds in every
pass of the main loop, whatever the state and the surroundings.  The buffer
is the line without its newline for a line of fewer than 99 bytes, the bytes
up to the end of the input for a last line without a newline, and the first
99 bytes of a longer line. -/
theorem main_parse_error_exits {σ : Type} (sys : Sys σ) (n : Nat) (w : σ)
    (inp buf rest : List Char) (msg : String)
    (hget : getcmd 100 inp = some (buf, rest))
    (hcd : isCd buf = false) (hjobs : isJobs buf = false)
    (hpanic : parsecmd buf = .panic msg) :
    mainLoop sys (n + 1) w inp = .exited 1 rest (some msg) w ∧
    (∀ line rest2 : List Char, line ≠ [] → line.length < 99 → '\n' ∉ line →
      getcmd 100 (line ++ '\n' :: rest2) = some (line, rest2)) ∧
    (∀ line : List Char, line ≠ [] → line.length < 99 → '\n' ∉ line →
      getcmd 100 line = some (line, [])) ∧
    (∀ chunk more : List Char, chunk.length = 99 → '\n' ∉ chunk →
      getcmd 100 (chunk ++ more) = some (chunk, more)) := by
  refine ⟨?_, getcmd_line, getcmd_last, getcmd_long⟩
  simp only [mainLoop, hget, hcd, hjobs, hpanic, Bool.false_eq_true, if_false]

/-- C1, instances, one for each kind of parse error, each followed by the
line `ls` that is left unread: a missing `)`, leftover input, a missing
redirection file, too many arguments, an unexpected token; and the leftover
input as a last line without a newline. -/
theorem main_parse_error_exits_witness :
    mainLoop idleSys 1 () "(a\nls\n".toList =
      .exited 1 "ls\n".toList (some "syntax - missing )") () ∧
    mainLoop idleSys 1 () "a )\nls\n".toList =
      .exited 1 "ls\n".toList (some "syntax") () ∧
    mainLoop idleSys 1 () "a >\nls\n".toList =
      .exited 1 "ls\n".toList (some "missing file for redirection") () ∧
    mainLoop idleSys 1 () "a b c d e f g h i j\nls\n".toList =
      .exited 1 "ls\n".toList (some "too many args") () ∧
    mainLoop idleSys 1 () "a (\nls\n".toList =
      .exited 1 "ls\n".toList (some "syntax") () ∧
    mainLoop idleSys 1 () "a )".toList = .exited 1 [] (some "syntax") () :=
  ⟨(main_parse_error_exits idleSys 0 () "(a\nls\n".toList "(a".toList "ls\n".toList
      "syntax - missing )" (by decide) (by decide) (by decide) (by decide)).1,
    (main_parse_error_exits idleSys 0 () "a )\nls\n".toList "a )".toList "ls\n".toList
      "syntax" (by decide) (by decide) (by decide) (by decide)).1,
    (main_parse_error_exits idleSys 0 () "a >\nls\n".toList "a >".toList "ls\n".toList
      "missing file for redirection" (by decide) (by decide) (by decide) (by decide)).1,
    (main_parse_error_exits idleSys 0 () "a b c d e f g h i j\nls\n".toList
      "a b c d e f g h i j".toList "ls\n".toList
      "too many args" (by decide) (by decide) (by decide) (by decide)).1,
    (main_parse_error_exits idleSys 0 () "a (\nls\n".toList "a (".toList "ls\n".toList
      "syntax" (by decide) (by decide) (by decide) (by decide)).1,
    (main_parse_error_exits idleSys 0 () "a )".toList "a )".toList []
      "syntax" (by decide) (by decide) (by decide) (by decide)).1⟩

/-- C1, the failing input: on the line `a )` (leftover input) followed by the
line `echo hi`, the interpreter exits with status 1 and never reads `echo hi`. -/
theorem main_stops_at_leftovers :
    shMain idleSys () "a )\necho hi\n".toList =
      .exited 1 "echo hi\n".toList (some "syntax") () := by
  rfl

/-- C2 as stated fails: `ls |` is accepted, and the tree is a pipe whose right
side is an `exec` with no arguments. -/
theorem trailing_pipe_ls_accepted :
    parseTree "ls |".toList = .ok (.pipe (.exec ["ls".toList]) (.exec [])) := by
  decide

/-- C2, as the code has it: a line that consists of a pipeline (text that the
first `parsepipe` call of `parsecmd` reads to its end) followed by a `|` with
nothing but whitespace after it is accepted, and the tree returned has a pipe
node whose right side is an `exec` with no arguments. -/
theorem trailing_pipe_accepted (p g : List Char) (P : Cmd)
    (hp : noNUL p = true) (hg : blank g = true)
    (h : parsepipe (parseline p.length) (p.length + 1) p = .ok (P, [])) :
    ∃ T, parseTree (p ++ '|' :: g) = .ok T ∧ T.emptyPipeEnd = true := by
  have hd : ['|', ')', '&', ';'].contains '|' = true := by decide
  have hpl : AppendStable ('|' :: g) (parseline p.length) :=
    fun s c s1 h hs => parseline_append hd _ _ s c s1 h (Or.inl hs)
  obtain ⟨c', hc', hflag⟩ := parsepipe_trailing_bar _ g hg hpl _ _ _ h
  have hlen : p.length ≤ (p ++ '|' :: g).length := by
    simp only [List.length_append]; omega
  have hm := parsepipe_fuel (parseline p.length) (parseline (p ++ '|' :: g).length)
    (parseline_fuel _ _ hlen) (p.length + 2) (p ++ '|' :: g)
    (by rw [hc']; exact fun hc => by cases hc) ((p ++ '|' :: g).length + 1)
    (by simp only [List.length_append, List.length_cons]; omega)
  rw [hc'] at hm
  have hl := parseline_of_pipe_back _ _ _ c' c' hm (parselineBack_nil _ _)
  have hnn : noNUL (p ++ '|' :: g) = true := by
    simp only [noNUL_append, noNUL_cons, hp, noNUL_blank g hg, Bool.and_true, Bool.true_and]
    rfl
  exact ⟨c'.resolve, by simp only [parseTree, parsecmd_of_parseline _ c' hnn hl, Res.map], hflag⟩

/-- C2, an instance: `ls |`. -/
theorem trailing_pipe_accepted_witness :
    ∃ T, parseTree ("ls ".toList ++ '|' :: []) = .ok T ∧ T.emptyPipeEnd = true :=
  trailing_pipe_accepted "ls ".toList [] (.exec [("ls ".toList, " ".toList)])
    (by decide) (by decide) (by decide)

/-- C4, what the code does: for every `exec` node with a non-empty argument
vector, if `exec` fails and returns, `runcmd` prints the failure and the
process then ends with `exit(0)`, not with status 1. -/
theorem runcmd_exec_failure_exits_zero (os : Nat → Int) (k : Nat) (a : Span)
    (rest : List Span) (hfail : os k < 0) :
    runcmd os (.exec (a :: rest)) k =
      ⟨[.exec a.1 ((a :: rest).map Prod.fst), .fprintf 2 "exec %s failed\n" a.1], .exit 0⟩ := by
  simp only [runcmd, hfail, if_true]

/-- C4, the failing input: the one argument `nosuch`, and `exec` returns -1. -/
theorem runcmd_exec_failure_exits_zero_witness :
    runcmd (fun _ => -1) (.exec [("nosuch".toList, [])]) 0 =
      ⟨[.exec "nosuch".toList ["nosuch".toList],
        .fprintf 2 "exec %s failed\n" "nosuch".toList], .exit 0⟩ :=
  runcmd_exec_failure_exits_zero (fun _ => -1) 0 ("nosuch".toList, []) [] (by decide)

/-- C5: `;` is right-associative.  For simple commands `a`, `b`, `c` (words
separated by spaces, fewer than `MAXARGS` each) the line `a; b; c` parses to
`list A (list B C)`; and in general, when `parsepipe` returns `P` and the next
token is `;`, `parseline` returns `list P R` for the result `R` of `parseline`
on the rest. -/
theorem semicolon_right_assoc (a b c : List (List Char))
    (ha : ∀ w ∈ a, isWord w = true) (hb : ∀ w ∈ b, isWord w = true)
    (hc : ∀ w ∈ c, isWord w = true)
    (la : a.length < MAXARGS) (lb : b.length < MAXARGS) (lc : c.length < MAXARGS) :
    parseTree (unwords a ++ [';', ' '] ++ unwords b ++ [';', ' '] ++ unwords c) =
        .ok (.list (.exec a) (.list (.exec b) (.exec c))) ∧
    (∀ (n : Nat) (s s1 s2 : List Char) (P R : Cmd),
      parsepipe (parseline n) (n + 1) s = .ok (P, s1) → (peek s1 [';']).1 = true →
      parseline n (gettoken s1).ps = .ok (R, s2) →
      parseline (n + 1) s = .ok (.list P R, s2)) := by
  constructor
  · have h3 : ParsesLine (' ' :: unwords c) (.exec c) :=
      ParsesLine_blank [' '] _ _ rfl (ParsesLine_words c hc lc)
    have h2 : ParsesLine (unwords b ++ ';' :: ' ' :: unwords c) (.list (.exec b) (.exec c)) :=
      ParsesLine_semi _ _ _ _ _ rfl (ParsesPipe_words b hb lb _ rfl rfl) h3
    have h2' : ParsesLine (' ' :: (unwords b ++ ';' :: ' ' :: unwords c))
        (.list (.exec b) (.exec c)) := ParsesLine_blank [' '] _ _ rfl h2
    have h1 := ParsesLine_semi (unwords a) (';' :: ' ' :: (unwords b ++ ';' :: ' ' :: unwords c))
      _ _ _ rfl (ParsesPipe_words a ha la _ rfl rfl) h2'
    apply parseTree_of_ParsesLine _ _ _ (by simpa using h1)
    simp only [noNUL_append, noNUL_cons, noNUL_unwords a ha, noNUL_unwords b hb,
      noNUL_unwords c hc, Bool.and_true, Bool.true_and]
    rfl
  · intro n s s1 s2 P R h1 h2 h3
    obtain ⟨d, r, hs, hd, _⟩ := peek_fst_true h2
    have hd' : d = ';' := by simpa using hd
    subst hd'
    have hb : (peek s1 ['&']).1 = false := by
      rw [← peek_skipws, hs]; rfl
    simp only [parseline, h1, parselineBack, hb, Bool.false_eq_true, if_false, peek_snd,
      skipws_idem, peek_skipws, h2, if_true, gettoken_skipws, h3]

/-- C5, an instance: `a; b; c`. -/
theorem semicolon_right_assoc_witness :
    parseTree "a; b; c".toList =
      .ok (.list (.exec ["a".toList]) (.list (.exec ["b".toList]) (.exec ["c".toList]))) :=
  (semicolon_right_assoc ["a".toList] ["b".toList] ["c".toList] (by decide) (by decide)
    (by decide) (by decide) (by decide) (by decide)).1

/-- C6: `|` is right-associative and binds tighter than `&` and `;`.  For
simple commands `a`, `b`, `c` the line `a|b|c` parses to `pipe A (pipe B C)`,
`a|b;c` to `list (pipe A B) C` and `a|b&` to `back (pipe A B)`; and in general,
when `parseexec` returns `E` and the next token is `|`, `parsepipe` returns
`pipe E R` for the result `R` of `parsepipe` on the rest. -/
theorem pipe_right_assoc (a b c : List (List Char))
    (ha : ∀ w ∈ a, isWord w = true) (hb : ∀ w ∈ b, isWord w = true)
    (hc : ∀ w ∈ c, isWord w = true)
    (la : a.length < MAXARGS) (lb : b.length < MAXARGS) (lc : c.length < MAXARGS) :
    parseTree (unwords a ++ ['|'] ++ unwords b ++ ['|'] ++ unwords c) =
        .ok (.pipe (.exec a) (.pipe (.exec b) (.exec c))) ∧
    parseTree (unwords a ++ ['|'] ++ unwords b ++ [';'] ++ unwords c) =
        .ok (.list (.pipe (.exec a) (.exec b)) (.exec c)) ∧
    parseTree (unwords a ++ ['|'] ++ unwords b ++ ['&']) =
        .ok (.back (.pipe (.exec a) (.exec b))) ∧
    (∀ (pl : List Char → Res (Cmd × List Char)) (n : Nat) (s s1 s2 : List Char) (E R : Cmd),
      parseexec pl (n + 1) s = .ok (E, s1) → (peek s1 ['|']).1 = true →
      parsepipe pl n (gettoken s1).ps = .ok (R, s2) →
      parsepipe pl (n + 1) s = .ok (.pipe E R, s2)) := by
  have na := noNUL_unwords a ha
  have nb := noNUL_unwords b hb
  have nc := noNUL_unwords c hc
  refine ⟨?_, ?_, ?_, ?_⟩
  · have h3 : ParsesPipe (unwords c) [] (.exec c) := ParsesPipe_words c hc lc [] rfl rfl
    have h2 := ParsesPipe_words_bar b hb lb [] _ [] _ rfl h3
    have h1 := ParsesPipe_words_bar a ha la [] _ [] _ rfl h2
    have hl := ParsesLine_pipe _ [] _ rfl h1
    apply parseTree_of_ParsesLine _ _ _ (by simpa using hl)
    simp only [noNUL_append, noNUL_cons, na, nb, nc, Bool.and_true, Bool.true_and]
    rfl
  · have h2 : ParsesPipe (unwords b) (';' :: unwords c) (.exec b) :=
      ParsesPipe_words b hb lb _ rfl rfl
    have h1 := ParsesPipe_words_bar a ha la [] _ _ _ rfl h2
    have hl := ParsesLine_semi _ (';' :: unwords c) _ _ _ rfl h1 (ParsesLine_words c hc lc)
    apply parseTree_of_ParsesLine _ _ _ (by simpa using hl)
    simp only [noNUL_append, noNUL_cons, na, nb, nc, Bool.and_true, Bool.true_and]
    rfl
  · have h2 : ParsesPipe (unwords b) (ampsText [[]]) (.exec b) :=
      ParsesPipe_words b hb lb _ rfl rfl
    have h1 := ParsesPipe_words_bar a ha la [] _ _ _ rfl h2
    have hl := ParsesLine_amps _ [[]] (by decide) _ h1
    apply parseTree_of_ParsesLine _ _ _ (by simpa [ampsText, Tree.backs] using hl)
    simp only [noNUL_append, noNUL_cons, na, nb, Bool.and_true, Bool.true_and]
    rfl
  · intro pl n s s1 s2 E R h1 h2 h3
    simp only [parsepipe, h1, h2, if_true, peek_snd, gettoken_skipws, h3]

/-- C6, an instance: `a|b|c`, `a|b;c` and `a|b&`. -/
theorem pipe_right_assoc_witness :
    parseTree "a|b|c".toList =
      .ok (.pipe (.exec ["a".toList]) (.pipe (.exec ["b".toList]) (.exec ["c".toList]))) ∧
    parseTree "a|b;c".toList =
      .ok (.list (.pipe (.exec ["a".toList]) (.exec ["b".toList])) (.exec ["c".toList])) ∧
    parseTree "a|b&".toList = .ok (.back (.pipe (.exec ["a".toList]) (.exec ["b".toList]))) :=
  have h := pipe_right_assoc ["a".toList] ["b".toList] ["c".toList] (by decide) (by decide)
    (by decide) (by decide) (by decide) (by decide)
  ⟨h.1, h.2.1, h.2.2.1⟩

/-- C7: `&` wraps the whole pipeline, once per token.  If the first
`parsepipe` call of `parsecmd` on a line `p` reads all of `p` and returns `P`,
then `p` followed by `k` `&` tokens (each followed by any whitespace) parses to
`P` inside exactly `k` nested `back` nodes. -/
theorem background_wraps_pipeline (p : List Char) (P : Cmd) (gaps : List (List Char))
    (hp : noNUL p = true) (hg : ∀ g ∈ gaps, blank g = true)
    (h : parsepipe (parseline p.length) (p.length + 1) p = .ok (P, [])) :
    parseTree (p ++ ampsText gaps) = .ok (Tree.backs gaps.length P.resolve) := by
  have hnn : noNUL (p ++ ampsText gaps) = true := by
    rw [noNUL_append, hp, noNUL_ampsText gaps hg]; rfl
  cases gaps with
  | nil =>
    have hl : parseline ((p ++ ampsText []).length + 1) (p ++ ampsText []) = .ok (P, []) := by
      simp only [ampsText, List.append_nil]
      exact parseline_of_pipe_back _ _ _ P P h (parselineBack_nil _ _)
    simp only [parseTree, parsecmd_of_parseline _ P hnn hl, Res.map]
    rfl
  | cons g gs =>
    have hd : ['|', ')', '&', ';'].contains '&' = true := by decide
    have hpl : AppendStable ('&' :: (g ++ ampsText gs)) (parseline p.length) :=
      fun s c s1 h hs => parseline_append hd _ _ s c s1 h (Or.inl hs)
    have he := parsepipe_append hd (g ++ ampsText gs) _ hpl _ _ _ _ h (Or.inr (by decide))
    have hlen : p.length ≤ (p ++ ampsText (g :: gs)).length := by
      simp only [List.length_append]; omega
    have hm := parsepipe_fuel (parseline p.length)
      (parseline (p ++ ampsText (g :: gs)).length) (parseline_fuel _ _ hlen) (p.length + 1)
      (p ++ ampsText (g :: gs)) (by simp only [ampsText]; rw [he]; exact fun hc => by cases hc)
      ((p ++ ampsText (g :: gs)).length + 1) (by omega)
    simp only [ampsText] at hm hnn ⊢
    rw [he] at hm
    obtain ⟨c', hc', hres'⟩ := parselineBack_amps (g :: gs) hg
      ((p ++ '&' :: (g ++ ampsText gs)).length + 1) (P.shift ('&' :: (g ++ ampsText gs)))
      (by simp only [ampsText, List.length_append, List.length_cons]; omega)
    simp only [ampsText] at hc'
    have hl := parseline_of_pipe_back _ _ _ _ c' hm hc'
    simp only [parseTree, parsecmd_of_parseline _ c' hnn hl, Res.map, hres', resolve_shift]

/-- C7, an instance: `sleep 100 &`. -/
theorem background_wraps_pipeline_witness :
    parseTree ("sleep 100 ".toList ++ ampsText [[]]) =
      .ok (.back (.exec ["sleep".toList, "100".toList])) :=
  background_wraps_pipeline "sleep 100 ".toList
    (.exec [("sleep 100 ".toList, " 100 ".toList), ("100 ".toList, " ".toList)]) [[]]
    (by decide) (by decide) (by decide)

/-- C8: redirections written among the words of a simple command accumulate
left to right around one `exec`.  For items (words and redirections, in any
interleaving, separated by spaces, fewer than `MAXARGS` words) `parsecmd`, and
`parseexec` in front of the end of the line or of `|`, `)`, `&`, `;`, return
the `exec` of all the words in order, wrapped in the redirections in order,
the last one outermost. -/
theorem redirections_accumulate (items : List Item) (hwf : ∀ it ∈ items, it.wf = true)
    (hlen : (itemWords items).length < MAXARGS) :
    parseTree (unitems items) = .ok (wrapRedirs items (.exec (itemWords items))) ∧
    (∀ (pl : List Char → Res (Cmd × List Char)) (t : List Char) (n : Nat),
      cmdEnd t = true → (unitems items ++ t).length < n →
      ∃ c, parseexec pl n (unitems items ++ t) = .ok (c, skipws t) ∧
        c.resolve = wrapRedirs items (.exec (itemWords items))) := by
  constructor
  · have hl := ParsesLine_pipe _ [] _ rfl (ParsesPipe_items items hwf hlen [] rfl rfl)
    rw [List.append_nil] at hl
    exact parseTree_of_ParsesLine _ _ (noNUL_unitems items hwf) hl
  · intro pl t n ht hn
    exact (parseexec_items pl items hwf t ht n hn).2 hlen

/-- C8, an instance: `cmd <in arg1 >out arg2`. -/
theorem redirections_accumulate_witness :
    parseTree "cmd <in arg1 >out arg2".toList =
      .ok (.redir (.redir (.exec ["cmd".toList, "arg1".toList, "arg2".toList])
        "in".toList [.O_RDONLY] 0) "out".toList [.O_WRONLY, .O_CREATE, .O_TRUNC] 1) :=
  (redirections_accumulate
    [.word "cmd".toList, .redir .lt "in".toList, .word "arg1".toList,
      .redir .gt "out".toList, .word "arg2".toList] (by decide) (by decide)).1

/-- C9: a redirection written after a parenthesized group applies to the
whole group.  If `parsecmd` accepts the line `L` with tree `T`, then
`( L ) > f` (with any whitespace around the `>`) parses to a `redir` node for
the file `f`, descriptor 1, mode `O_WRONLY|O_CREATE|O_TRUNC`, whose target is
all of `T`. -/
theorem redirect_after_group (L f g1 g2 : List Char) (T : Cmd)
    (hL : noNUL L = true) (hf : isWord f = true) (hg1 : blank g1 = true)
    (hg2 : blank g2 = true) (h : parsecmd L = .ok T) :
    parseTree ('(' :: L ++ ')' :: g1 ++ '>' :: g2 ++ f) =
      .ok (.redir T.resolve f [.O_WRONLY, .O_CREATE, .O_TRUNC] 1) := by
  -- what `parsecmd L = .ok T` says about `parseline`
  obtain ⟨s, hs, hline⟩ : ∃ s, skipws s = [] ∧ parseline (L.length + 1) L = .ok (T, s) := by
    simp only [parsecmd, cstr_of_noNUL L hL] at h
    cases hres : parseline (L.length + 1) L with
    | ok a =>
      obtain ⟨c, s⟩ := a
      rw [hres] at h
      simp only [peek_snd] at h
      by_cases hk : skipws s = []
      · simp only [hk, bne_self_eq_false, Bool.false_eq_true, if_false, Res.ok.injEq] at h
        subst h
        exact ⟨s, hk, rfl⟩
      · have : (skipws s != []) = true := by simpa using hk
        simp only [this, if_true] at h
        cases h
    | panic msg => rw [hres] at h; cases h
    | nofuel => rw [hres] at h; cases h
  -- the line, with the parts named
  have hd : ['|', ')', '&', ';'].contains ')' = true := by decide
  obtain ⟨hdws, _, _, _, _⟩ := end_char_facts hd
  have hrest : skipws (g1 ++ '>' :: (g2 ++ (f ++ []))) = '>' :: (g2 ++ (f ++ [])) := by
    rw [skipws_blank_append _ _ hg1]; rfl
  have heq : '(' :: L ++ ')' :: g1 ++ '>' :: g2 ++ f =
      '(' :: (L ++ ')' :: (g1 ++ '>' :: (g2 ++ (f ++ [])))) := by simp
  rw [heq]
  generalize hr : g1 ++ '>' :: (g2 ++ (f ++ [])) = rest at hrest
  have hlenrest : 1 ≤ rest.length := by
    rw [← hr]; simp only [List.length_append, List.length_cons]; omega
  -- `parseline` inside the parentheses
  have he := parseline_append hd rest _ L T s hline (Or.inr rfl)
  have hN : L.length + 1 ≤ ('(' :: (L ++ ')' :: rest)).length := by
    simp only [List.length_cons, List.length_append]; omega
  have hin : parseline ('(' :: (L ++ ')' :: rest)).length (L ++ ')' :: rest) =
      .ok (T.shift (')' :: rest), s ++ ')' :: rest) := by
    rw [parseline_fuel _ _ hN _ (by rw [he]; exact fun hc => by cases hc), he]
  -- `parseblock`
  have hpeek : peek (s ++ ')' :: rest) [')'] = (true, ')' :: rest) := by
    rw [peek_append hdws, peek_of_skipws_nil hs, hs]; rfl
  have hredir : parseredirs (('(' :: (L ++ ')' :: rest)).length + 1)
      (T.shift (')' :: rest)) (skipws rest) =
      .ok (.redir (T.shift (')' :: rest)) f [] [.O_WRONLY, .O_CREATE, .O_TRUNC] 1, []) := by
    rw [hrest]
    have := parseredirs_step .gt g2 f [] hg2 hf rfl (('(' :: (L ++ ')' :: rest)).length)
      (T.shift (')' :: rest))
    simp only [RedirOp.text, List.cons_append, List.nil_append] at this
    rw [this]
    simp only [List.length_cons, List.append_nil]
    rfl
  have hblock : parseexec (parseline ('(' :: (L ++ ')' :: rest)).length)
      (('(' :: (L ++ ')' :: rest)).length + 1) ('(' :: (L ++ ')' :: rest)) =
      .ok (.redir (T.shift (')' :: rest)) f [] [.O_WRONLY, .O_CREATE, .O_TRUNC] 1, []) := by
    have hp1 : peek ('(' :: (L ++ ')' :: rest)) ['('] = (true, '(' :: (L ++ ')' :: rest)) := rfl
    have hg : gettoken ('(' :: (L ++ ')' :: rest)) =
        ⟨'(', '(' :: (L ++ ')' :: rest), L ++ ')' :: rest, skipws (L ++ ')' :: rest)⟩ :=
      gettoken_sym (by rfl) _
    have hg' : gettoken (')' :: rest) = ⟨')', ')' :: rest, rest, skipws rest⟩ :=
      gettoken_sym (by rfl) _
    simp only [parseexec, hp1, if_true, parseblock, Bool.not_true, Bool.false_eq_true, if_false,
      hg, parseline_skipws, hin, hpeek, hg', hredir]
  have hpipe := parsepipe_stop _ _ _ _ _ hblock rfl
  have hlin := parseline_stop _ _ _ _ hpipe rfl rfl
  have hnn : noNUL ('(' :: (L ++ ')' :: rest)) = true := by
    rw [← hr]
    simp only [noNUL_cons, noNUL_append, hL, noNUL_blank g1 hg1, noNUL_blank g2 hg2,
      noNUL_word hf, Bool.and_true, Bool.true_and]
    rfl
  simp only [parseTree, parsecmd_of_parseline _ _ hnn hlin, Res.map, Cmd.resolve, resolve_shift]
  have : spanText (f, []) = f := by simpa using spanText_append f []
  rw [this]

/-- C9, an instance: `(cmd1; cmd2) > out.txt`. -/
theorem redirect_after_group_witness :
    parseTree ('(' :: "cmd1; cmd2".toList ++ ')' :: " ".toList ++ '>' :: " ".toList ++
        "out.txt".toList) =
      .ok (.redir (.list (.exec ["cmd1".toList]) (.exec ["cmd2".toList])) "out.txt".toList
        [.O_WRONLY, .O_CREATE, .O_TRUNC] 1) :=
  redirect_after_group "cmd1; cmd2".toList "out.txt".toList " ".toList " ".toList
    (.list (.exec [("cmd1; cmd2".toList, "; cmd2".toList)]) (.exec [("cmd2".toList, [])]))
    (by decide) (by decide) (by decide) (by decide) (by decide)

theorem skipws_suffix (s : List Char) : skipws s <:+ s := by
  induction s with
  | nil => exact List.suffix_refl _
  | cons c s ih =>
    by_cases h : strchr whitespace c = true
    · rw [skipws_cons_ws h]; exact List.IsSuffix.trans ih (List.suffix_cons _ _)
    · simp only [Bool.not_eq_true] at h
      rw [skipws_cons h]

theorem skipword_suffix (s : List Char) : skipword s <:+ s := by
  induction s with
  | nil => exact List.suffix_refl _
  | cons c s ih =>
    by_cases h : wordChar c = true
    · rw [skipword_cons_word h]; exact List.IsSuffix.trans ih (List.suffix_cons _ _)
    · simp only [Bool.not_eq_true] at h
      rw [skipword_cons_stop h]

/-- The text skipped by `skipword` is made of word characters and stops in
front of a character that is none. -/
theorem skipword_split (s : List Char) :
    ∃ w, s = w ++ skipword s ∧ w.all wordChar = true ∧ wordChar (deref (skipword s)) = false := by
  induction s with
  | nil => exact ⟨[], rfl, rfl, rfl⟩
  | cons c s ih =>
    by_cases h : wordChar c = true
    · obtain ⟨w, hw1, hw2, hw3⟩ := ih
      refine ⟨c :: w, ?_, ?_, ?_⟩
      · rw [skipword_cons_word h, List.cons_append, ← hw1]
      · simp only [List.all_cons, h, hw2, Bool.and_self]
      · rw [skipword_cons_word h]; exact hw3
    · simp only [Bool.not_eq_true] at h
      refine ⟨[], ?_, rfl, ?_⟩
      · rw [skipword_cons_stop h]; rfl
      · rw [skipword_cons_stop h]; exact h

/-- The four shapes of a token that is not the end of the line. -/
theorem gettoken_cases (s : List Char) (c : Char) (s1 : List Char) (hs : skipws s = c :: s1) :
    (['|', '(', ')', ';', '&', '<'].contains c = true ∧
        gettoken s = ⟨c, c :: s1, s1, skipws s1⟩) ∨
    (c = '>' ∧ ∃ s2, s1 = '>' :: s2 ∧ gettoken s = ⟨'+', c :: s1, s2, skipws s2⟩) ∨
    (c = '>' ∧ (deref s1 == '>') = false ∧ gettoken s = ⟨'>', c :: s1, s1, skipws s1⟩) ∨
    (wordChar c = true ∧
        gettoken s = ⟨'a', c :: s1, skipword (c :: s1), skipws (skipword (c :: s1))⟩) := by
  have hws := skipws_head hs
  have hn : (c == NUL) = false := ne_NUL_of_strchr hws
  by_cases h1 : (c == '|' || c == '(' || c == ')' || c == ';' || c == '&' || c == '<') = true
  · left
    refine ⟨?_, ?_⟩
    · simpa [List.contains_cons, Bool.or_assoc] using h1
    · simp only [gettoken, hs, deref, List.headD_cons, hn, Bool.false_eq_true, if_false, h1,
        if_true, List.tail_cons]
  · right
    by_cases h2 : (c == '>') = true
    · have hc : c = '>' := by simpa using h2
      by_cases h3 : (deref s1 == '>') = true
      · left
        refine ⟨hc, ?_⟩
        cases s1 with
        | nil => simp [deref, NUL] at h3
        | cons x xs =>
          have hx : x = '>' := by simpa [deref] using h3
          subst hx
          refine ⟨xs, rfl, ?_⟩
          simp only [gettoken, hs, deref, List.headD_cons, hn, Bool.false_eq_true, if_false, h1,
            h2, if_true, List.tail_cons, beq_self_eq_true]
      · right; left
        simp only [Bool.not_eq_true] at h3
        refine ⟨hc, h3, ?_⟩
        simp only [gettoken, hs, deref, List.headD_cons, hn, Bool.false_eq_true, if_false, h1,
          h2, if_true, List.tail_cons]
        simp only [deref] at h3
        simp only [h3, Bool.false_eq_true, if_false, hc]
    · right; right
      refine ⟨?_, ?_⟩
      · simp only [Bool.not_eq_true, Bool.or_eq_false_iff] at h1 h2
        obtain ⟨⟨⟨⟨⟨a1, a2⟩, a3⟩, a4⟩, a5⟩, a6⟩ := h1
        have hwc := not_contains_of_strchr hws
        simp only [wordChar, hws, hwc, Bool.not_false, Bool.true_and, strchr, hn, Bool.false_or,
          symbols, List.contains_cons, List.contains_nil, Bool.or_false, a1, a2, a3, a4, a5, a6,
          h2, Bool.or_self]
      · simp only [gettoken, hs, deref, List.headD_cons, hn, Bool.false_eq_true, if_false, h1, h2]

theorem gettoken_nil_of_skipws {s : List Char} (hs : skipws s = []) :
    gettoken s = ⟨NUL, [], [], []⟩ := by
  simp only [gettoken, hs, deref, List.headD_nil, beq_self_eq_true, if_true]
  rfl

theorem gettoken_q (s : List Char) : (gettoken s).q = skipws s := by
  cases hs : skipws s with
  | nil => rw [gettoken_nil_of_skipws hs]
  | cons c s1 =>
    rcases gettoken_cases s c s1 hs with ⟨_, h⟩ | ⟨_, s2, _, h⟩ | ⟨_, _, h⟩ | ⟨_, h⟩ <;> rw [h]

theorem gettoken_ps (s : List Char) : (gettoken s).ps = skipws (gettoken s).eq := by
  cases hs : skipws s with
  | nil => rw [gettoken_nil_of_skipws hs]; rfl
  | cons c s1 =>
    rcases gettoken_cases s c s1 hs with ⟨_, h⟩ | ⟨_, s2, _, h⟩ | ⟨_, _, h⟩ | ⟨_, h⟩ <;> rw [h]

theorem gettoken_ret_ne_NUL {s : List Char} (hs : skipws s ≠ []) : (gettoken s).ret ≠ NUL := by
  obtain ⟨c, s1, hs0⟩ := List.exists_cons_of_ne_nil hs
  have hn : (c == NUL) = false := ne_NUL_of_strchr (skipws_head hs0)
  rcases gettoken_cases s c s1 hs0 with ⟨_, h⟩ | ⟨_, s2, _, h⟩ | ⟨_, _, h⟩ | ⟨_, h⟩
  · rw [h]; simpa using hn
  · rw [h]; show ('+' : Char) ≠ NUL; decide
  · rw [h]; show ('>' : Char) ≠ NUL; decide
  · rw [h]; show ('a' : Char) ≠ NUL; decide

theorem skipws_ne_nil_of_ret {s : List Char} (h : (gettoken s).ret ≠ NUL) : skipws s ≠ [] := by
  intro hs
  rw [gettoken_nil_of_skipws hs] at h
  exact h rfl

/-- A token that is not the end of the line has at least one character. -/
theorem gettoken_eq_lt {s : List Char} (hs : skipws s ≠ []) :
    (gettoken s).eq.length < (skipws s).length := by
  obtain ⟨c, s1, hs0⟩ := List.exists_cons_of_ne_nil hs
  rcases gettoken_cases s c s1 hs0 with ⟨_, h⟩ | ⟨_, s2, hs2, h⟩ | ⟨_, _, h⟩ | ⟨hw, h⟩
  · rw [h, hs0]; simp
  · rw [h, hs0, hs2]; simp only [List.length_cons]; omega
  · rw [h, hs0]; simp
  · rw [h, hs0, skipword_cons_word hw]
    have := (skipword_suffix s1).length_le
    simp only [List.length_cons]; omega

theorem gettoken_eq_suffix (s : List Char) : (gettoken s).eq <:+ skipws s := by
  cases hs : skipws s with
  | nil => rw [gettoken_nil_of_skipws hs]
  | cons c s1 =>
    rcases gettoken_cases s c s1 hs with ⟨_, h⟩ | ⟨_, s2, hs2, h⟩ | ⟨_, _, h⟩ | ⟨hw, h⟩
    · rw [h]; exact List.suffix_cons _ _
    · rw [h, hs2]; exact List.IsSuffix.trans (List.suffix_cons _ _) (List.suffix_cons _ _)
    · rw [h]; exact List.suffix_cons _ _
    · rw [h]; exact skipword_suffix _

theorem gettoken_ps_suffix (s : List Char) : (gettoken s).ps <:+ s := by
  rw [gettoken_ps]
  exact ((skipws_suffix _).trans (gettoken_eq_suffix s)).trans (skipws_suffix s)

/-- The cursor strictly advances over a token that is not the end of the line. -/
theorem gettoken_ps_lt {s : List Char} (hs : skipws s ≠ []) :
    (gettoken s).ps.length < s.length := by
  have h1 := gettoken_eq_lt hs
  have h2 := (skipws_suffix s).length_le
  have h3 := (skipws_suffix (gettoken s).eq).length_le
  rw [gettoken_ps]; omega

/-- The token is a word exactly when the return value is the letter a: then
the characters from `q` to `eq` form a word that cannot be made longer. -/
theorem gettoken_word_shape {s : List Char} (h : (gettoken s).ret = 'a') :
    ∃ w, isWord w = true ∧ (gettoken s).q = w ++ (gettoken s).eq ∧
      wordChar (deref (gettoken s).eq) = false := by
  have hne : skipws s ≠ [] := skipws_ne_nil_of_ret (by rw [h]; decide)
  obtain ⟨c, s1, hs0⟩ := List.exists_cons_of_ne_nil hne
  have hn : (c == NUL) = false := ne_NUL_of_strchr (skipws_head hs0)
  rcases gettoken_cases s c s1 hs0 with ⟨hc, hg⟩ | ⟨_, s2, _, hg⟩ | ⟨_, _, hg⟩ | ⟨hw, hg⟩
  · rw [hg] at h
    simp only at h
    subst h
    exact absurd hc (by decide)
  · rw [hg] at h; exact absurd (show ('+' : Char) = 'a' from h) (by decide)
  · rw [hg] at h; exact absurd (show ('>' : Char) = 'a' from h) (by decide)
  · obtain ⟨w, hw1, hw2, hw3⟩ := skipword_split (c :: s1)
    rw [hg]
    refine ⟨w, ?_, hw1, hw3⟩
    cases w with
    | nil =>
      have hl := congrArg List.length hw1
      rw [skipword_cons_word hw] at hl
      have := (skipword_suffix s1).length_le
      simp only [List.nil_append, List.length_cons] at hl
      omega
    | cons a w => simp only [isWord, hw2, Bool.and_true]; rfl

/-! ## The cursor only moves forward -/

theorem peek_suffix (s toks : List Char) : (peek s toks).2 <:+ s := skipws_suffix s

theorem gettoken_peek_suffix (s toks : List Char) : (gettoken (peek s toks).2).ps <:+ s :=
  (gettoken_ps_suffix _).trans (skipws_suffix s)

/-- After a successful look ahead the next token is not the end of the line,
so reading it strictly advances the cursor. -/
theorem gettoken_peek_lt {s toks : List Char} (h : (peek s toks).1 = true) :
    (gettoken (peek s toks).2).ps.length < s.length := by
  have hne := skipws_ne_nil_of_peek h
  have hne' : skipws (skipws s) ≠ [] := by rw [skipws_idem]; exact hne
  have h1 := gettoken_ps_lt hne'
  have h2 := (skipws_suffix s).length_le
  rw [peek_snd]; omega

theorem parseredirs_suffix : ∀ (n : Nat) (cmd : Cmd) (s : List Char) (c : Cmd) (s1 : List Char),
    parseredirs n cmd s = .ok (c, s1) → s1 <:+ s := by
  intro n
  induction n with
  | zero => intro cmd s c s1 h; simp [parseredirs] at h
  | succ n ih =>
    intro cmd s c s1 h
    have hch : (gettoken (gettoken (peek s ['<', '>']).2).ps).ps <:+ s :=
      (gettoken_ps_suffix _).trans (gettoken_peek_suffix s _)
    simp only [parseredirs] at h
    split_ifs at h
    · exact (ih _ _ _ _ h).trans hch
    · exact (ih _ _ _ _ h).trans hch
    · exact (ih _ _ _ _ h).trans hch
    · exact (ih _ _ _ _ h).trans hch
    · simp only [Res.ok.injEq, Prod.mk.injEq] at h
      rw [← h.2]; exact peek_suffix s _

theorem parseexecLoop_suffix :
    ∀ (n : Nat) (ret : Cmd) (argc : Nat) (s : List Char) (c : Cmd) (s1 : List Char),
    parseexecLoop n ret argc s = .ok (c, s1) → s1 <:+ s := by
  intro n
  induction n with
  | zero => intro ret argc s c s1 h; simp [parseexecLoop] at h
  | succ n ih =>
    intro ret argc s c s1 h
    have hch : (gettoken (peek s ['|', ')', '&', ';']).2).ps <:+ s := gettoken_peek_suffix s _
    simp only [parseexecLoop] at h
    split_ifs at h
    · simp only [Res.ok.injEq, Prod.mk.injEq] at h
      rw [← h.2]; exact hch
    · cases hres : parseredirs (n + 1)
          (ret.pushArg ((gettoken (peek s ['|', ')', '&', ';']).2).q,
            (gettoken (peek s ['|', ')', '&', ';']).2).eq))
          (gettoken (peek s ['|', ')', '&', ';']).2).ps with
      | ok a =>
        obtain ⟨r2, s2⟩ := a
        rw [hres] at h
        exact ((ih _ _ _ _ _ h).trans (parseredirs_suffix _ _ _ _ _ hres)).trans hch
      | panic msg => rw [hres] at h; cases h
      | nofuel => rw [hres] at h; cases h
    · simp only [Res.ok.injEq, Prod.mk.injEq] at h
      rw [← h.2]; exact peek_suffix s _

theorem parseblock_suffix (pl : List Char → Res (Cmd × List Char)) (hpl : ReturnsSuffix pl)
    (n : Nat) (s : List Char) (c : Cmd) (s1 : List Char)
    (h : parseblock pl n s = .ok (c, s1)) : s1 <:+ s := by
  simp only [parseblock] at h
  split_ifs at h
  cases hres : pl (gettoken (peek s ['(']).2).ps with
  | ok a =>
    obtain ⟨c2, s2⟩ := a
    rw [hres] at h
    simp only at h
    split_ifs at h
    exact (((parseredirs_suffix _ _ _ _ _ h).trans (gettoken_peek_suffix s2 _)).trans
      (hpl _ _ _ hres)).trans (gettoken_peek_suffix s _)
  | panic msg => rw [hres] at h; cases h
  | nofuel => rw [hres] at h; cases h

theorem parseexec_suffix (pl : List Char → Res (Cmd × List Char)) (hpl : ReturnsSuffix pl)
    (n : Nat) (s : List Char) (c : Cmd) (s1 : List Char)
    (h : parseexec pl n s = .ok (c, s1)) : s1 <:+ s := by
  simp only [parseexec] at h
  split_ifs at h
  · exact (parseblock_suffix pl hpl n _ c s1 h).trans (peek_suffix s _)
  · cases hres : parseredirs n (.exec []) (peek s ['(']).2 with
    | ok a =>
      obtain ⟨r2, s2⟩ := a
      rw [hres] at h
      exact ((parseexecLoop_suffix _ _ _ _ _ _ h).trans
        (parseredirs_suffix _ _ _ _ _ hres)).trans (peek_suffix s _)
    | panic msg => rw [hres] at h; cases h
    | nofuel => rw [hres] at h; cases h

theorem parsepipe_suffix (pl : List Char → Res (Cmd × List Char)) (hpl : ReturnsSuffix pl) :
    ∀ (n : Nat) (s : List Char) (c : Cmd) (s1 : List Char),
    parsepipe pl n s = .ok (c, s1) → s1 <:+ s := by
  intro n
  induction n with
  | zero => intro s c s1 h; simp [parsepipe] at h
  | succ n ih =>
    intro s c s1 h
    rw [parsepipe] at h
    cases hres : parseexec pl (n + 1) s with
    | ok a =>
      obtain ⟨c1, s2⟩ := a
      rw [hres] at h
      have h2 := parseexec_suffix pl hpl _ _ _ _ hres
      simp only at h
      split_ifs at h
      · cases hres2 : parsepipe pl n (gettoken (peek s2 ['|']).2).ps with
        | ok b =>
          obtain ⟨c3, s3⟩ := b
          rw [hres2] at h
          simp only [Res.ok.injEq, Prod.mk.injEq] at h
          rw [← h.2]
          exact ((ih _ _ _ hres2).trans (gettoken_peek_suffix s2 _)).trans h2
        | panic msg => rw [hres2] at h; cases h
        | nofuel => rw [hres2] at h; cases h
      · simp only [Res.ok.injEq, Prod.mk.injEq] at h
        rw [← h.2]; exact (peek_suffix s2 _).trans h2
    | panic msg => rw [hres] at h; cases h
    | nofuel => rw [hres] at h; cases h

theorem parselineBack_suffix : ∀ (n : Nat) (cmd : Cmd) (s : List Char) (c : Cmd) (s1 : List Char),
    parselineBack n cmd s = .ok (c, s1) → s1 <:+ s := by
  intro n
  induction n with
  | zero => intro cmd s c s1 h; simp [parselineBack] at h
  | succ n ih =>
    intro cmd s c s1 h
    simp only [parselineBack] at h
    split_ifs at h
    · exact (ih _ _ _ _ h).trans (gettoken_peek_suffix s _)
    · simp only [Res.ok.injEq, Prod.mk.injEq] at h
      rw [← h.2]; exact peek_suffix s _

theorem parseline_suffix : ∀ (n : Nat), ReturnsSuffix (parseline n) := by
  intro n
  induction n with
  | zero => intro s c s1 h; simp [parseline] at h
  | succ n ih =>
    intro s c s1 h
    rw [parseline] at h
    cases hres : parsepipe (parseline n) (n + 1) s with
    | ok a =>
      obtain ⟨c1, s2⟩ := a
      rw [hres] at h
      have h2 := parsepipe_suffix _ ih _ _ _ _ hres
      simp only at h
      cases hres2 : parselineBack (n + 1) c1 s2 with
      | ok b =>
        obtain ⟨c3, s3⟩ := b
        rw [hres2] at h
        have h3 := parselineBack_suffix _ _ _ _ _ hres2
        simp only at h
        split_ifs at h
        · cases hres3 : parseline n (gettoken (peek s3 [';']).2).ps with
          | ok e =>
            obtain ⟨c4, s4⟩ := e
            rw [hres3] at h
            simp only [Res.ok.injEq, Prod.mk.injEq] at h
            rw [← h.2]
            exact (((ih _ _ _ hres3).trans (gettoken_peek_suffix s3 _)).trans h3).trans h2
          | panic msg => rw [hres3] at h; cases h
          | nofuel => rw [hres3] at h; cases h
        · simp only [Res.ok.injEq, Prod.mk.injEq] at h
          rw [← h.2]; exact ((peek_suffix s3 _).trans h3).trans h2
      | panic msg => rw [hres2] at h; cases h
      | nofuel => rw [hres2] at h; cases h
    | panic msg => rw [hres] at h; cases h
    | nofuel => rw [hres] at h; cases h

/-! ## The fuel is enough -/

theorem parseredirs_total : ∀ (n : Nat) (cmd : Cmd) (s : List Char),
    s.length < n → parseredirs n cmd s ≠ .nofuel := by
  intro n
  induction n with
  | zero => intro cmd s h; omega
  | succ n ih =>
    intro cmd s hn
    simp only [parseredirs]
    by_cases hp : (peek s ['<', '>']).1 = true
    · have h1 := gettoken_peek_lt hp
      have h2 := (gettoken_ps_suffix (gettoken (peek s ['<', '>']).2).ps).length_le
      have hlt : (gettoken (gettoken (peek s ['<', '>']).2).ps).ps.length < n := by omega
      simp only [hp, if_true]
      split_ifs
      · exact fun hc => by cases hc
      · exact ih _ _ hlt
      · exact ih _ _ hlt
      · exact ih _ _ hlt
      · exact ih _ _ hlt
    · simp only [hp, Bool.false_eq_true, if_false]
      exact fun hc => by cases hc

theorem parseexecLoop_total : ∀ (n : Nat) (ret : Cmd) (argc : Nat) (s : List Char),
    s.length < n → parseexecLoop n ret argc s ≠ .nofuel := by
  intro n
  induction n with
  | zero => intro ret argc s h; omega
  | succ n ih =>
    intro ret argc s hn
    simp only [parseexecLoop]
    split_ifs with h1 h2 h3 h4
    · exact fun hc => by cases hc
    · exact fun hc => by cases hc
    · exact fun hc => by cases hc
    · have hne : skipws (peek s ['|', ')', '&', ';']).2 ≠ [] := by
        apply skipws_ne_nil_of_ret
        simpa using h2
      have hlt := gettoken_ps_lt hne
      have hle := (peek_suffix s ['|', ')', '&', ';']).length_le
      cases hres : parseredirs (n + 1)
          (ret.pushArg ((gettoken (peek s ['|', ')', '&', ';']).2).q,
            (gettoken (peek s ['|', ')', '&', ';']).2).eq))
          (gettoken (peek s ['|', ')', '&', ';']).2).ps with
      | ok a =>
        obtain ⟨r2, s2⟩ := a
        have := (parseredirs_suffix _ _ _ _ _ hres).length_le
        exact ih _ _ _ (by omega)
      | panic msg => exact fun hc => by cases hc
      | nofuel => exact absurd hres (parseredirs_total _ _ _ (by omega))
    · exact fun hc => by cases hc

theorem parseblock_total (pl : List Char → Res (Cmd × List Char)) (hsuf : ReturnsSuffix pl)
    (n : Nat) (s : List Char) (htot : TotalBelow pl s.length) (hn : s.length < n) :
    parseblock pl n s ≠ .nofuel := by
  simp only [parseblock]
  split_ifs with h1
  · exact fun hc => by cases hc
  · have hp : (peek s ['(']).1 = true := by simpa using h1
    have hlt := gettoken_peek_lt hp
    cases hres : pl (gettoken (peek s ['(']).2).ps with
    | ok a =>
      obtain ⟨c2, s2⟩ := a
      have h2 := (hsuf _ _ _ hres).length_le
      simp only
      split_ifs
      · exact fun hc => by cases hc
      · have h3 := (gettoken_peek_suffix s2 [')']).length_le
        exact parseredirs_total _ _ _ (by omega)
    | panic msg => exact fun hc => by cases hc
    | nofuel => exact absurd hres (htot _ hlt)

theorem parseexec_total (pl : List Char → Res (Cmd × List Char)) (hsuf : ReturnsSuffix pl)
    (n : Nat) (s : List Char) (htot : TotalBelow pl s.length) (hn : s.length < n) :
    parseexec pl n s ≠ .nofuel := by
  have hle := (peek_suffix s ['(']).length_le
  simp only [parseexec]
  split_ifs
  · exact parseblock_total pl hsuf n _ (fun s' hs' => htot s' (by omega)) (by omega)
  · cases hres : parseredirs n (.exec []) (peek s ['(']).2 with
    | ok a =>
      obtain ⟨r2, s2⟩ := a
      have := (parseredirs_suffix _ _ _ _ _ hres).length_le
      exact parseexecLoop_total _ _ _ _ (by omega)
    | panic msg => exact fun hc => by cases hc
    | nofuel => exact absurd hres (parseredirs_total _ _ _ (by omega))

theorem parsepipe_total (pl : List Char → Res (Cmd × List Char)) (hsuf : ReturnsSuffix pl) :
    ∀ (n : Nat) (s : List Char), TotalBelow pl s.length → s.length < n →
    parsepipe pl n s ≠ .nofuel := by
  intro n
  induction n with
  | zero => intro s _ h; omega
  | succ n ih =>
    intro s htot hn
    rw [parsepipe]
    cases hres : parseexec pl (n + 1) s with
    | ok a =>
      obtain ⟨c1, s2⟩ := a
      have h2 := (parseexec_suffix pl hsuf _ _ _ _ hres).length_le
      simp only
      split_ifs with hp
      · have hlt := gettoken_peek_lt hp
        cases hres2 : parsepipe pl n (gettoken (peek s2 ['|']).2).ps with
        | ok b => exact fun hc => by cases hc
        | panic msg => exact fun hc => by cases hc
        | nofuel =>
          exact absurd hres2 (ih _ (fun s' hs' => htot s' (by omega)) (by omega))
      · exact fun hc => by cases hc
    | panic msg => exact fun hc => by cases hc
    | nofuel => exact absurd hres (parseexec_total pl hsuf _ _ htot hn)

theorem parselineBack_total : ∀ (n : Nat) (cmd : Cmd) (s : List Char),
    s.length < n → parselineBack n cmd s ≠ .nofuel := by
  intro n
  induction n with
  | zero => intro cmd s h; omega
  | succ n ih =>
    intro cmd s hn
    simp only [parselineBack]
    split_ifs with hp
    · have hlt := gettoken_peek_lt hp
      exact ih _ _ (by omega)
    · exact fun hc => by cases hc

/-- With more fuel than the text has characters `parseline` does not run out
of fuel. -/
theorem parseline_total : ∀ (n : Nat) (s : List Char), s.length < n → parseline n s ≠ .nofuel := by
  intro n
  induction n with
  | zero => intro s h; omega
  | succ n ih =>
    intro s hn
    have htot : TotalBelow (parseline n) s.length := fun s' hs' => ih s' (by omega)
    rw [parseline]
    cases hres : parsepipe (parseline n) (n + 1) s with
    | ok a =>
      obtain ⟨c1, s2⟩ := a
      have h2 := (parsepipe_suffix _ (parseline_suffix n) _ _ _ _ hres).length_le
      simp only
      cases hres2 : parselineBack (n + 1) c1 s2 with
      | ok b =>
        obtain ⟨c3, s3⟩ := b
        have h3 := (parselineBack_suffix _ _ _ _ _ hres2).length_le
        simp only
        split_ifs with hp
        · have hlt := gettoken_peek_lt hp
          cases hres3 : parseline n (gettoken (peek s3 [';']).2).ps with
          | ok e => exact fun hc => by cases hc
          | panic msg => exact fun hc => by cases hc
          | nofuel => exact absurd hres3 (ih _ (by omega))
        · exact fun hc => by cases hc
      | panic msg => exact fun hc => by cases hc
      | nofuel => exact absurd hres2 (parselineBack_total _ _ _ (by omega))
    | panic msg => exact fun hc => by cases hc
    | nofuel => exact absurd hres (parsepipe_total _ (parseline_suffix n) _ _ htot hn)

theorem parsecmd_total (buf : List Char) : parsecmd buf ≠ .nofuel := by
  have h := parseline_total ((cstr buf).length + 1) (cstr buf) (by omega)
  simp only [parsecmd]
  cases hres : parseline ((cstr buf).length + 1) (cstr buf) with
  | ok a =>
    simp only
    split_ifs <;> exact fun hc => by cases hc
  | panic msg => exact fun hc => by cases hc
  | nofuel => exact absurd hres h

/-! ## The tokens of a line -/

theorem lexF_fuel : ∀ (n m : Nat) (s : List Char), s.length ≤ n → s.length ≤ m →
    lexF n s = lexF m s := by
  intro n
  induction n with
  | zero =>
    intro m s hn _
    have hs : s = [] := List.length_eq_zero.mp (by omega)
    subst hs
    cases m with
    | zero => rfl
    | succ m => rfl
  | succ n ih =>
    intro m s hn hm
    cases m with
    | zero =>
      have hs : s = [] := List.length_eq_zero.mp (by omega)
      subst hs
      rfl
    | succ m =>
      simp only [lexF]
      by_cases hr : ((gettoken s).ret == NUL) = true
      · simp only [hr, if_true]
      · simp only [hr, if_false, Bool.false_eq_true]
        have hne : skipws s ≠ [] := skipws_ne_nil_of_ret (by simpa using hr)
        have hlt := gettoken_ps_lt hne
        rw [ih m _ (by omega) (by omega)]

theorem lex_of_skipws_nil {s : List Char} (hs : skipws s = []) : lex s = [] := by
  unfold lex
  cases h : s.length with
  | zero => rfl
  | succ n => simp only [lexF, gettoken_nil_of_skipws hs, beq_self_eq_true, if_true]

theorem lex_step {s : List Char} (hs : skipws s ≠ []) :
    lex s = ((gettoken s).ret, spanText ((gettoken s).q, (gettoken s).eq)) ::
      lex (gettoken s).ps := by
  have hlt := gettoken_ps_lt hs
  have hr : ((gettoken s).ret == NUL) = false := by simpa using gettoken_ret_ne_NUL hs
  unfold lex
  obtain ⟨n, hn⟩ : ∃ n, s.length = n + 1 := ⟨s.length - 1, by omega⟩
  rw [hn]
  simp only [lexF, hr, Bool.false_eq_true, if_false]
  rw [lexF_fuel n (gettoken s).ps.length _ (by omega) (le_refl _)]

theorem lex_skipws (s : List Char) : lex (skipws s) = lex s := by
  by_cases hs : skipws s = []
  · rw [lex_of_skipws_nil hs, lex_of_skipws_nil (by rw [skipws_idem]; exact hs)]
  · rw [lex_step hs, lex_step (by rw [skipws_idem]; exact hs), gettoken_skipws]

theorem kinds_of_skipws_nil {s : List Char} (hs : skipws s = []) : kinds s = [] := by
  simp only [kinds, lex_of_skipws_nil hs, List.map_nil]

theorem kinds_step {s : List Char} (hs : skipws s ≠ []) :
    kinds s = (gettoken s).ret :: kinds (gettoken s).ps := by
  simp only [kinds, lex_step hs, List.map_cons]

theorem kinds_skipws (s : List Char) : kinds (skipws s) = kinds s := by
  simp only [kinds, lex_skipws]

theorem kinds_peek (s toks : List Char) : kinds (peek s toks).2 = kinds s := kinds_skipws s

/-- The token read after a successful look ahead starts with a character of
the set looked for. -/
theorem peek_true_cases {s toks : List Char} (h : (peek s toks).1 = true) :
    ∃ c s1, skipws s = c :: s1 ∧ toks.contains c = true ∧
      kinds s = (gettoken s).ret :: kinds (gettoken s).ps := by
  obtain ⟨c, s1, hs, hc, _⟩ := peek_fst_true h
  exact ⟨c, s1, hs, hc, kinds_step (by rw [hs]; exact List.cons_ne_nil _ _)⟩

theorem gettoken_ret_sym {s : List Char} {c : Char} {s1 : List Char} (hs : skipws s = c :: s1)
    (hc : ['|', '(', ')', ';', '&', '<'].contains c = true) : (gettoken s).ret = c := by
  rcases gettoken_cases s c s1 hs with ⟨_, h⟩ | ⟨h1, _⟩ | ⟨h1, _⟩ | ⟨hw, _⟩
  · rw [h]
  · subst h1; exact absurd hc (by decide)
  · subst h1; exact absurd hc (by decide)
  · have := wordChar_sym hw
    simp only [List.contains_cons, List.contains_nil, Bool.or_false, Bool.or_eq_true,
      beq_iff_eq] at hc
    rcases hc with h | h | h | h | h | h <;> subst h <;> exact absurd this (by decide)

theorem gettoken_ret_redir {s : List Char} {c : Char} {s1 : List Char} (hs : skipws s = c :: s1)
    (hc : ['<', '>'].contains c = true) :
    (gettoken s).ret = '<' ∨ (gettoken s).ret = '>' ∨ (gettoken s).ret = '+' := by
  rcases gettoken_cases s c s1 hs with ⟨h0, h⟩ | ⟨_, _, _, h⟩ | ⟨_, _, h⟩ | ⟨hw, _⟩
  · rw [h]
    simp only [List.contains_cons, List.contains_nil, Bool.or_false, Bool.or_eq_true,
      beq_iff_eq] at hc
    rcases hc with h | h
    · left; exact h
    · subst h; exact absurd h0 (by decide)
  · rw [h]; right; right; rfl
  · rw [h]; right; left; rfl
  · have := wordChar_sym hw
    simp only [List.contains_cons, List.contains_nil, Bool.or_false, Bool.or_eq_true,
      beq_iff_eq] at hc
    rcases hc with h | h <;> subst h <;> exact absurd this (by decide)

/-! ## Good runs of tokens -/

theorem redirScan_append : ∀ (w1 w2 : List Char) (b : Bool), redirScan b w1 = true →
    redirScan b (w1 ++ w2) = redirScan false w2 := by
  intro w1
  induction w1 with
  | nil =>
    intro w2 b h
    cases b with
    | false => rfl
    | true => simp [redirScan] at h
  | cons k ks ih =>
    intro w2 b h
    cases b with
    | false =>
      simp only [redirScan, Bool.false_eq_true, if_false] at h
      simp only [List.cons_append, redirScan, Bool.false_eq_true, if_false]
      exact ih w2 _ h
    | true =>
      simp only [redirScan, if_true, Bool.and_eq_true] at h
      simp only [List.cons_append, redirScan, if_true, h.1, Bool.true_and]
      exact ih w2 _ h.2

theorem pscan_append : ∀ (w1 w2 : List Char) (d e : Nat), pscan d w1 = some e →
    pscan d (w1 ++ w2) = pscan e w2 := by
  intro w1
  induction w1 with
  | nil =>
    intro w2 d e h
    simp only [pscan, Option.some.injEq] at h
    subst h; rfl
  | cons k ks ih =>
    intro w2 d e h
    simp only [pscan] at h
    simp only [List.cons_append, pscan]
    split_ifs at h ⊢ <;> exact ih w2 _ _ h

theorem GoodTrace_nil : GoodTrace [] := ⟨rfl, fun _ => rfl⟩

theorem GoodTrace_append {w1 w2 : List Char} (h1 : GoodTrace w1) (h2 : GoodTrace w2) :
    GoodTrace (w1 ++ w2) :=
  ⟨by rw [redirScan_append w1 w2 false h1.1]; exact h2.1,
   fun d => by rw [pscan_append w1 w2 d d (h1.2 d)]; exact h2.2 d⟩

/-- A single token that is neither a redirection operator nor a parenthesis. -/
theorem GoodTrace_one {k : Char} (h1 : (k == '<' || k == '>' || k == '+') = false)
    (h2 : (k == '(') = false) (h3 : (k == ')') = false) : GoodTrace [k] := by
  refine ⟨?_, fun d => ?_⟩
  · simp only [redirScan, Bool.false_eq_true, if_false, h1, Bool.not_false]
  · simp only [pscan, h2, h3, Bool.false_eq_true, if_false]

/-- A redirection operator and the word after it. -/
theorem GoodTrace_redir {k : Char} (h : k = '<' ∨ k = '>' ∨ k = '+') : GoodTrace [k, 'a'] := by
  rcases h with h | h | h <;> subst h <;> exact ⟨rfl, fun _ => rfl⟩

/-- A good run in parentheses, followed by a good run. -/
theorem GoodTrace_block {w1 w2 : List Char} (h1 : GoodTrace w1) (h2 : GoodTrace w2) :
    GoodTrace ('(' :: (w1 ++ ')' :: w2)) := by
  refine ⟨?_, fun d => ?_⟩
  · have : redirScan false ('(' :: (w1 ++ ')' :: w2)) = redirScan false (w1 ++ ')' :: w2) := rfl
    rw [this, redirScan_append w1 _ false h1.1]
    exact h2.1
  · have : pscan d ('(' :: (w1 ++ ')' :: w2)) = pscan (d + 1) (w1 ++ ')' :: w2) := rfl
    rw [this, pscan_append w1 _ (d + 1) (d + 1) (h1.2 _)]
    exact h2.2 d

theorem Traced_refl (s : List Char) : Traced s s := ⟨[], rfl, GoodTrace_nil⟩

theorem Traced_trans {s s1 s2 : List Char} (h1 : Traced s s1) (h2 : Traced s1 s2) :
    Traced s s2 := by
  obtain ⟨w1, e1, g1⟩ := h1
  obtain ⟨w2, e2, g2⟩ := h2
  exact ⟨w1 ++ w2, by rw [e1, e2, List.append_assoc], GoodTrace_append g1 g2⟩

theorem Traced_peek (s toks : List Char) : Traced s (peek s toks).2 :=
  ⟨[], by rw [kinds_peek]; rfl, GoodTrace_nil⟩

/-- Reading, after a successful look ahead, a token that is neither a
redirection operator nor a parenthesis. -/
theorem Traced_sym {s toks : List Char} (h : (peek s toks).1 = true)
    (htoks : ∀ c, toks.contains c = true → ['|', ';', '&'].contains c = true) :
    Traced s (gettoken (peek s toks).2).ps := by
  obtain ⟨c, s1, hs, hc, hk⟩ := peek_true_cases h
  have hc' := htoks c hc
  have hsym : ['|', '(', ')', ';', '&', '<'].contains c = true := by
    simp only [List.contains_cons, List.contains_nil, Bool.or_false, Bool.or_eq_true,
      beq_iff_eq] at hc' ⊢
    rcases hc' with h | h | h <;> simp [h]
  have hret := gettoken_ret_sym hs hsym
  refine ⟨[c], ?_, ?_⟩
  · rw [peek_snd, gettoken_skipws, hk, hret]; rfl
  · simp only [List.contains_cons, List.contains_nil, Bool.or_false, Bool.or_eq_true,
      beq_iff_eq] at hc'
    rcases hc' with h | h | h <;> subst h <;> exact GoodTrace_one rfl rfl rfl

/-! ## Every parsing function reads a good run of tokens -/

theorem Traced_word {s : List Char} (h : (gettoken s).ret = 'a') : Traced s (gettoken s).ps := by
  have hne : skipws s ≠ [] := skipws_ne_nil_of_ret (by rw [h]; decide)
  exact ⟨['a'], by rw [kinds_step hne, h]; rfl, GoodTrace_one rfl rfl rfl⟩

theorem Traced_eof {s : List Char} (h : (gettoken s).ret = NUL) : Traced s (gettoken s).ps := by
  have hs : skipws s = [] := by
    by_contra hne
    exact gettoken_ret_ne_NUL hne h
  refine ⟨[], ?_, GoodTrace_nil⟩
  rw [kinds_of_skipws_nil hs, gettoken_nil_of_skipws hs]
  rfl

theorem Traced_of_skipws {s s1 : List Char} (h : Traced (skipws s) s1) : Traced s s1 := by
  obtain ⟨w, e, g⟩ := h
  exact ⟨w, by rw [← kinds_skipws, e], g⟩

/-- A redirection operator and its file word. -/
theorem Traced_redir {s : List Char} (h : (peek s ['<', '>']).1 = true)
    (hf : (gettoken (gettoken (peek s ['<', '>']).2).ps).ret = 'a') :
    Traced s (gettoken (gettoken (peek s ['<', '>']).2).ps).ps := by
  obtain ⟨c, s1, hs, hc, hk⟩ := peek_true_cases h
  have hret := gettoken_ret_redir hs hc
  have hne : skipws (gettoken (peek s ['<', '>']).2).ps ≠ [] :=
    skipws_ne_nil_of_ret (by rw [hf]; decide)
  refine ⟨[(gettoken s).ret, 'a'], ?_, GoodTrace_redir hret⟩
  rw [hk]
  simp only [peek_snd, gettoken_skipws] at hne hf ⊢
  rw [kinds_step hne, hf]
  rfl

theorem parseredirs_traced : ∀ (n : Nat) (cmd : Cmd) (s : List Char) (c : Cmd) (s1 : List Char),
    parseredirs n cmd s = .ok (c, s1) → Traced s s1 := by
  intro n
  induction n with
  | zero => intro cmd s c s1 h; simp [parseredirs] at h
  | succ n ih =>
    intro cmd s c s1 h
    simp only [parseredirs] at h
    by_cases hp : (peek s ['<', '>']).1 = true
    · simp only [hp, if_true] at h
      by_cases hf : ((gettoken (gettoken (peek s ['<', '>']).2).ps).ret != 'a') = true
      · simp only [hf, if_true] at h
        cases h
      · simp only [hf, if_false, Bool.false_eq_true] at h
        have hf' : (gettoken (gettoken (peek s ['<', '>']).2).ps).ret = 'a' := by
          simpa using hf
        have ht := Traced_redir hp hf'
        split_ifs at h <;> exact Traced_trans ht (ih _ _ _ _ h)
    · simp only [hp, if_false, Bool.false_eq_true, Res.ok.injEq, Prod.mk.injEq] at h
      rw [← h.2]; exact Traced_peek s _

theorem parseexecLoop_traced :
    ∀ (n : Nat) (ret : Cmd) (argc : Nat) (s : List Char) (c : Cmd) (s1 : List Char),
    parseexecLoop n ret argc s = .ok (c, s1) → Traced s s1 := by
  intro n
  induction n with
  | zero => intro ret argc s c s1 h; simp [parseexecLoop] at h
  | succ n ih =>
    intro ret argc s c s1 h
    simp only [parseexecLoop] at h
    split_ifs at h with h1 h2 h3 h4
    · simp only [Res.ok.injEq, Prod.mk.injEq] at h
      rw [← h.2]
      exact Traced_of_skipws (Traced_eof (by simpa using h2))
    · have hw : (gettoken (peek s ['|', ')', '&', ';']).2).ret = 'a' := by simpa using h3
      have ht : Traced s (gettoken (peek s ['|', ')', '&', ';']).2).ps :=
        Traced_of_skipws (Traced_word hw)
      cases hres : parseredirs (n + 1)
          (ret.pushArg ((gettoken (peek s ['|', ')', '&', ';']).2).q,
            (gettoken (peek s ['|', ')', '&', ';']).2).eq))
          (gettoken (peek s ['|', ')', '&', ';']).2).ps with
      | ok a =>
        obtain ⟨r2, s2⟩ := a
        rw [hres] at h
        exact Traced_trans ht (Traced_trans (parseredirs_traced _ _ _ _ _ hres) (ih _ _ _ _ _ h))
      | panic msg => rw [hres] at h; cases h
      | nofuel => rw [hres] at h; cases h
    · simp only [Res.ok.injEq, Prod.mk.injEq] at h
      rw [← h.2]; exact Traced_peek s _

theorem kinds_paren {s : List Char} {p : Char} (hp : p = '(' ∨ p = ')')
    (h : (peek s [p]).1 = true) : kinds s = p :: kinds (gettoken (peek s [p]).2).ps := by
  obtain ⟨c, s1, hs, hc, hk⟩ := peek_true_cases h
  have hcp : c = p := by simpa using hc
  subst hcp
  have hsym : ['|', '(', ')', ';', '&', '<'].contains c = true := by
    rcases hp with h | h <;> subst h <;> rfl
  rw [hk, gettoken_ret_sym hs hsym, peek_snd, gettoken_skipws]

theorem parseblock_traced (pl : List Char → Res (Cmd × List Char)) (hpl : TracesOK pl)
    (n : Nat) (s : List Char) (c : Cmd) (s1 : List Char)
    (h : parseblock pl n s = .ok (c, s1)) : Traced s s1 := by
  simp only [parseblock] at h
  split_ifs at h with h1
  have hp1 : (peek s ['(']).1 = true := by simpa using h1
  cases hres : pl (gettoken (peek s ['(']).2).ps with
  | ok a =>
    obtain ⟨c2, s2⟩ := a
    rw [hres] at h
    simp only at h
    split_ifs at h with h2
    have hp2 : (peek s2 [')']).1 = true := by simpa using h2
    obtain ⟨w1, e1, g1⟩ := hpl _ _ _ hres
    obtain ⟨w2, e2, g2⟩ := parseredirs_traced _ _ _ _ _ h
    refine ⟨'(' :: (w1 ++ ')' :: w2), ?_, GoodTrace_block g1 g2⟩
    rw [kinds_paren (Or.inl rfl) hp1, e1, kinds_paren (Or.inr rfl) hp2, e2]
    simp
  | panic msg => rw [hres] at h; cases h
  | nofuel => rw [hres] at h; cases h

theorem parseexec_traced (pl : List Char → Res (Cmd × List Char)) (hpl : TracesOK pl)
    (n : Nat) (s : List Char) (c : Cmd) (s1 : List Char)
    (h : parseexec pl n s = .ok (c, s1)) : Traced s s1 := by
  simp only [parseexec] at h
  split_ifs at h
  · exact Traced_of_skipws (parseblock_traced pl hpl n _ c s1 h)
  · cases hres : parseredirs n (.exec []) (peek s ['(']).2 with
    | ok a =>
      obtain ⟨r2, s2⟩ := a
      rw [hres] at h
      exact Traced_of_skipws (Traced_trans (parseredirs_traced _ _ _ _ _ hres)
        (parseexecLoop_traced _ _ _ _ _ _ h))
    | panic msg => rw [hres] at h; cases h
    | nofuel => rw [hres] at h; cases h

theorem parsepipe_traced (pl : List Char → Res (Cmd × List Char)) (hpl : TracesOK pl) :
    ∀ (n : Nat) (s : List Char) (c : Cmd) (s1 : List Char),
    parsepipe pl n s = .ok (c, s1) → Traced s s1 := by
  intro n
  induction n with
  | zero => intro s c s1 h; simp [parsepipe] at h
  | succ n ih =>
    intro s c s1 h
    rw [parsepipe] at h
    cases hres : parseexec pl (n + 1) s with
    | ok a =>
      obtain ⟨c1, s2⟩ := a
      rw [hres] at h
      have h2 := parseexec_traced pl hpl _ _ _ _ hres
      simp only at h
      split_ifs at h with hp
      · cases hres2 : parsepipe pl n (gettoken (peek s2 ['|']).2).ps with
        | ok b =>
          obtain ⟨c3, s3⟩ := b
          rw [hres2] at h
          simp only [Res.ok.injEq, Prod.mk.injEq] at h
          rw [← h.2]
          exact Traced_trans h2 (Traced_trans (Traced_sym hp (by intro c hc; simp at hc; simp [hc]))
            (ih _ _ _ hres2))
        | panic msg => rw [hres2] at h; cases h
        | nofuel => rw [hres2] at h; cases h
      · simp only [Res.ok.injEq, Prod.mk.injEq] at h
        rw [← h.2]; exact Traced_trans h2 (Traced_peek s2 _)
    | panic msg => rw [hres] at h; cases h
    | nofuel => rw [hres] at h; cases h

theorem parselineBack_traced : ∀ (n : Nat) (cmd : Cmd) (s : List Char) (c : Cmd) (s1 : List Char),
    parselineBack n cmd s = .ok (c, s1) → Traced s s1 := by
  intro n
  induction n with
  | zero => intro cmd s c s1 h; simp [parselineBack] at h
  | succ n ih =>
    intro cmd s c s1 h
    simp only [parselineBack] at h
    split_ifs at h with hp
    · exact Traced_trans (Traced_sym hp (by intro c hc; simp at hc; simp [hc])) (ih _ _ _ _ h)
    · simp only [Res.ok.injEq, Prod.mk.injEq] at h
      rw [← h.2]; exact Traced_peek s _

theorem parseline_traced : ∀ (n : Nat), TracesOK (parseline n) := by
  intro n
  induction n with
  | zero => intro s c s1 h; simp [parseline] at h
  | succ n ih =>
    intro s c s1 h
    rw [parseline] at h
    cases hres : parsepipe (parseline n) (n + 1) s with
    | ok a =>
      obtain ⟨c1, s2⟩ := a
      rw [hres] at h
      have h2 := parsepipe_traced _ ih _ _ _ _ hres
      simp only at h
      cases hres2 : parselineBack (n + 1) c1 s2 with
      | ok b =>
        obtain ⟨c3, s3⟩ := b
        rw [hres2] at h
        have h3 := parselineBack_traced _ _ _ _ _ hres2
        simp only at h
        split_ifs at h with hp
        · cases hres3 : parseline n (gettoken (peek s3 [';']).2).ps with
          | ok e =>
            obtain ⟨c4, s4⟩ := e
            rw [hres3] at h
            simp only [Res.ok.injEq, Prod.mk.injEq] at h
            rw [← h.2]
            exact Traced_trans h2 (Traced_trans h3
              (Traced_trans (Traced_sym hp (by intro c hc; simp at hc; simp [hc]))
                (ih _ _ _ hres3)))
          | panic msg => rw [hres3] at h; cases h
          | nofuel => rw [hres3] at h; cases h
        · simp only [Res.ok.injEq, Prod.mk.injEq] at h
          rw [← h.2]; exact Traced_trans h2 (Traced_trans h3 (Traced_peek s3 _))
      | panic msg => rw [hres2] at h; cases h
      | nofuel => rw [hres2] at h; cases h
    | panic msg => rw [hres] at h; cases h
    | nofuel => rw [hres] at h; cases h

/-- What `parsecmd buf = .ok T` says about `parseline`. -/
theorem parseline_of_parsecmd {buf : List Char} {T : Cmd} (h : parsecmd buf = .ok T) :
    ∃ s1, skipws s1 = [] ∧ parseline ((cstr buf).length + 1) (cstr buf) = .ok (T, s1) := by
  simp only [parsecmd] at h
  cases hres : parseline ((cstr buf).length + 1) (cstr buf) with
  | ok a =>
    obtain ⟨c, s⟩ := a
    rw [hres] at h
    simp only [peek_snd] at h
    by_cases hk : skipws s = []
    · simp only [hk, bne_self_eq_false, Bool.false_eq_true, if_false, Res.ok.injEq] at h
      subst h
      exact ⟨s, hk, rfl⟩
    · have : (skipws s != []) = true := by simpa using hk
      simp only [this, if_true] at h
      cases h
  | panic msg => rw [hres] at h; cases h
  | nofuel => rw [hres] at h; cases h

/-- The tokens of an accepted line form a good run. -/
theorem parsecmd_traced {buf : List Char} {T : Cmd} (h : parsecmd buf = .ok T) :
    GoodTrace (kinds (cstr buf)) := by
  obtain ⟨s1, hs1, hl⟩ := parseline_of_parsecmd h
  obtain ⟨w, e, g⟩ := parseline_traced _ _ _ _ hl
  rw [kinds_of_skipws_nil hs1, List.append_nil] at e
  rw [e]; exact g

/-! ## Parentheses: characters and tokens -/

theorem not_paren_of_ws {c : Char} (h : strchr whitespace c = true) :
    (c == '(') = false ∧ (c == ')') = false := by
  simp only [strchr, whitespace, List.contains_cons, List.contains_nil, Bool.or_false,
    Bool.or_eq_true, beq_iff_eq] at h
  rcases h with h | h | h | h | h | h <;> subst h <;> exact ⟨rfl, rfl⟩

theorem not_paren_of_wordChar {c : Char} (h : wordChar c = true) :
    (c == '(') = false ∧ (c == ')') = false := by
  have hc := not_contains_of_strchr (wordChar_sym h)
  simp only [symbols, List.contains_cons, List.contains_nil, Bool.or_false,
    Bool.or_eq_false_iff] at hc
  exact ⟨hc.2.2.2.2.2.1, hc.2.2.2.2.2.2⟩

theorem pscan_cons_other {c : Char} (h : (c == '(') = false ∧ (c == ')') = false) (d : Nat)
    (s : List Char) : pscan d (c :: s) = pscan d s := by
  simp only [pscan, h.1, h.2, Bool.false_eq_true, if_false]

theorem pscan_skipws (d : Nat) (s : List Char) : pscan d (skipws s) = pscan d s := by
  induction s with
  | nil => rfl
  | cons c s ih =>
    by_cases h : strchr whitespace c = true
    · rw [skipws_cons_ws h, ih, pscan_cons_other (not_paren_of_ws h)]
    · simp only [Bool.not_eq_true] at h
      rw [skipws_cons h]

theorem pscan_skipword (d : Nat) (s : List Char) : pscan d (skipword s) = pscan d s := by
  induction s with
  | nil => rfl
  | cons c s ih =>
    by_cases h : wordChar c = true
    · rw [skipword_cons_word h, ih, pscan_cons_other (not_paren_of_wordChar h)]
    · simp only [Bool.not_eq_true] at h
      rw [skipword_cons_stop h]

/-- Scanning the characters of a text for parentheses is scanning its tokens. -/
theorem pscan_kinds : ∀ (n : Nat) (s : List Char), s.length ≤ n →
    ∀ d, pscan d s = pscan d (kinds s) := by
  intro n
  induction n with
  | zero =>
    intro s hs d
    have : s = [] := List.length_eq_zero.mp (by omega)
    subst this; rfl
  | succ n ih =>
    intro s hs d
    cases h0 : skipws s with
    | nil => rw [kinds_of_skipws_nil h0, ← pscan_skipws, h0]
    | cons c s1 =>
      have hne : skipws s ≠ [] := by rw [h0]; exact List.cons_ne_nil _ _
      have hle := (skipws_suffix s).length_le
      rw [h0] at hle
      simp only [List.length_cons] at hle
      rw [kinds_step hne, ← pscan_skipws d s, h0]
      rcases gettoken_cases s c s1 h0 with ⟨_, hg⟩ | ⟨hc, s2, hs2, hg⟩ | ⟨hc, _, hg⟩ | ⟨hw, hg⟩
      · rw [hg]
        simp only [kinds_skipws]
        simp only [pscan]
        split_ifs <;> first | rfl | exact ih s1 (by omega) _
      · rw [hg, hc, hs2]
        simp only [kinds_skipws]
        have h1 : pscan d ('>' :: '>' :: s2) = pscan d s2 := rfl
        have h2 : ∀ ks, pscan d ('+' :: ks) = pscan d ks := fun _ => rfl
        rw [h1, h2]
        exact ih s2 (by rw [hs2] at hle; simp only [List.length_cons] at hle; omega) _
      · rw [hg, hc]
        simp only [kinds_skipws]
        have h1 : pscan d ('>' :: s1) = pscan d s1 := rfl
        have h2 : ∀ ks, pscan d ('>' :: ks) = pscan d ks := fun _ => rfl
        rw [h1, h2]
        exact ih s1 (by omega) _
      · rw [hg]
        simp only [kinds_skipws]
        have h2 : ∀ ks, pscan d ('a' :: ks) = pscan d ks := fun _ => rfl
        rw [h2, ← pscan_skipword d (c :: s1)]
        have := (skipword_suffix s1).length_le
        exact ih _ (by rw [skipword_cons_word hw]; omega) _

/-- A successful scan from depth `d` to depth `e`: the counts of the two
parentheses differ by `e - d`, and no prefix closes more than `d` above what it
opens. -/
theorem pscan_counts : ∀ (l : List Char) (d e : Nat), pscan d l = some e →
    d + l.count '(' = e + l.count ')' ∧
      ∀ k, (l.take k).count ')' ≤ d + (l.take k).count '(' := by
  intro l
  induction l with
  | nil =>
    intro d e h
    simp only [pscan, Option.some.injEq] at h
    subst h
    simp
  | cons c l ih =>
    intro d e h
    simp only [pscan] at h
    by_cases h1 : (c == '(') = true
    · have hc : c = '(' := by simpa using h1
      subst hc
      simp only [beq_self_eq_true, if_true] at h
      obtain ⟨i1, i2⟩ := ih _ _ h
      refine ⟨?_, fun k => ?_⟩
      · simp only [List.count_cons_self]
        rw [List.count_cons_of_ne (by decide)]
        omega
      · cases k with
        | zero => simp
        | succ k =>
          have := i2 k
          simp only [List.take_succ_cons, List.count_cons_self]
          rw [List.count_cons_of_ne (by decide)]
          omega
    · by_cases h2 : (c == ')') = true
      · have hc : c = ')' := by simpa using h2
        subst hc
        simp only [Bool.not_eq_true] at h1
        simp only [h1, Bool.false_eq_true, if_false, beq_self_eq_true, if_true] at h
        by_cases hd : d = 0
        · simp only [hd, if_true] at h
          cases h
        · simp only [hd, if_false] at h
          obtain ⟨i1, i2⟩ := ih _ _ h
          refine ⟨?_, fun k => ?_⟩
          · simp only [List.count_cons_self]
            rw [List.count_cons_of_ne (by decide)]
            omega
          · cases k with
            | zero => simp
            | succ k =>
              have := i2 k
              simp only [List.take_succ_cons, List.count_cons_self]
              rw [List.count_cons_of_ne (by decide)]
              omega
      · simp only [Bool.not_eq_true] at h1 h2
        simp only [h1, h2, Bool.false_eq_true, if_false] at h
        obtain ⟨i1, i2⟩ := ih _ _ h
        have n1 : '(' ≠ c := by
          intro hc; subst hc; simp at h1
        have n2 : ')' ≠ c := by
          intro hc; subst hc; simp at h2
        refine ⟨?_, fun k => ?_⟩
        · rw [List.count_cons_of_ne n1, List.count_cons_of_ne n2]
          exact i1
        · cases k with
          | zero => simp
          | succ k =>
            simp only [List.take_succ_cons]
            rw [List.count_cons_of_ne n1, List.count_cons_of_ne n2]
            exact i2 k

theorem mem_spans_pushArg (a : Span) : ∀ (c : Cmd) (sp : Span),
    sp ∈ (c.pushArg a).spans → sp = a ∨ sp ∈ c.spans := by
  intro c
  induction c with
  | exec argv =>
    intro sp h
    simp only [Cmd.pushArg, Cmd.spans, List.mem_append, List.mem_singleton] at h
    rcases h with h | h
    · exact Or.inr h
    · exact Or.inl h
  | redir c f ef m fd ih =>
    intro sp h
    simp only [Cmd.pushArg, Cmd.spans, List.mem_append, List.mem_singleton] at h ⊢
    rcases h with h | h
    · rcases ih sp h with h | h
      · exact Or.inl h
      · exact Or.inr (Or.inl h)
    · exact Or.inr (Or.inr h)
  | pipe l r _ _ => intro sp h; exact Or.inr h
  | list l r _ _ => intro sp h; exact Or.inr h
  | back c _ => intro sp h; exact Or.inr h

/-- The span of a word token read inside the line is a word of the line. -/
theorem WordSpan_token {L s : List Char} (hs : s <:+ L) (h : (gettoken s).ret = 'a') :
    WordSpan L ((gettoken s).q, (gettoken s).eq) := by
  obtain ⟨w, hw, hq, hstop⟩ := gettoken_word_shape h
  refine ⟨w, hw, hq, ?_, hstop⟩
  show (gettoken s).q <:+ L
  rw [gettoken_q]
  exact (skipws_suffix s).trans hs

theorem SpansIn_redir {L : List Char} {cmd : Cmd} {f ef : List Char} {m : Mode} {fd : Nat}
    (h1 : SpansIn L cmd) (h2 : WordSpan L (f, ef)) : SpansIn L (.redir cmd f ef m fd) := by
  intro sp hsp
  simp only [Cmd.spans, List.mem_append, List.mem_singleton] at hsp
  rcases hsp with h | h
  · exact h1 sp h
  · rw [h]; exact h2

theorem SpansIn_pushArg {L : List Char} {cmd : Cmd} {a : Span}
    (h1 : SpansIn L cmd) (h2 : WordSpan L a) : SpansIn L (cmd.pushArg a) := by
  intro sp hsp
  rcases mem_spans_pushArg a cmd sp hsp with h | h
  · rw [h]; exact h2
  · exact h1 sp h

theorem SpansIn_two {L : List Char} {l r : Cmd} (h1 : SpansIn L l) (h2 : SpansIn L r) :
    SpansIn L (.pipe l r) ∧ SpansIn L (.list l r) := by
  constructor <;>
  · intro sp hsp
    simp only [Cmd.spans, List.mem_append] at hsp
    rcases hsp with h | h
    · exact h1 sp h
    · exact h2 sp h

theorem parseredirs_spans (L : List Char) :
    ∀ (n : Nat) (cmd : Cmd) (s : List Char) (c : Cmd) (s1 : List Char),
    s <:+ L → SpansIn L cmd → parseredirs n cmd s = .ok (c, s1) → SpansIn L c := by
  intro n
  induction n with
  | zero => intro cmd s c s1 _ _ h; simp [parseredirs] at h
  | succ n ih =>
    intro cmd s c s1 hs hcmd h
    simp only [parseredirs] at h
    by_cases hp : (peek s ['<', '>']).1 = true
    · simp only [hp, if_true] at h
      have ht : (gettoken (peek s ['<', '>']).2).ps <:+ L := (gettoken_peek_suffix s _).trans hs
      have hf : (gettoken (gettoken (peek s ['<', '>']).2).ps).ps <:+ L :=
        (gettoken_ps_suffix _).trans ht
      by_cases hr : ((gettoken (gettoken (peek s ['<', '>']).2).ps).ret != 'a') = true
      · simp only [hr, if_true] at h
        cases h
      · simp only [hr, if_false, Bool.false_eq_true] at h
        have hw := WordSpan_token ht (by simpa using hr)
        split_ifs at h
        · exact ih _ _ _ _ hf (SpansIn_redir hcmd hw) h
        · exact ih _ _ _ _ hf (SpansIn_redir hcmd hw) h
        · exact ih _ _ _ _ hf (SpansIn_redir hcmd hw) h
        · exact ih _ _ _ _ hf hcmd h
    · simp only [hp, if_false, Bool.false_eq_true, Res.ok.injEq, Prod.mk.injEq] at h
      rw [← h.1]; exact hcmd

theorem parseexecLoop_spans (L : List Char) :
    ∀ (n : Nat) (ret : Cmd) (argc : Nat) (s : List Char) (c : Cmd) (s1 : List Char),
    s <:+ L → SpansIn L ret → parseexecLoop n ret argc s = .ok (c, s1) → SpansIn L c := by
  intro n
  induction n with
  | zero => intro ret argc s c s1 _ _ h; simp [parseexecLoop] at h
  | succ n ih =>
    intro ret argc s c s1 hs hret h
    simp only [parseexecLoop] at h
    split_ifs at h with h1 h2 h3 h4
    · simp only [Res.ok.injEq, Prod.mk.injEq] at h
      rw [← h.1]; exact hret
    · have hpk : (peek s ['|', ')', '&', ';']).2 <:+ L := (peek_suffix s _).trans hs
      have ht : (gettoken (peek s ['|', ')', '&', ';']).2).ps <:+ L :=
        (gettoken_peek_suffix s _).trans hs
      have hw := WordSpan_token hpk (by simpa using h3)
      cases hres : parseredirs (n + 1)
          (ret.pushArg ((gettoken (peek s ['|', ')', '&', ';']).2).q,
            (gettoken (peek s ['|', ')', '&', ';']).2).eq))
          (gettoken (peek s ['|', ')', '&', ';']).2).ps with
      | ok a =>
        obtain ⟨r2, s2⟩ := a
        rw [hres] at h
        exact ih _ _ _ _ _ ((parseredirs_suffix _ _ _ _ _ hres).trans ht)
          (parseredirs_spans L _ _ _ _ _ ht (SpansIn_pushArg hret hw) hres) h
      | panic msg => rw [hres] at h; cases h
      | nofuel => rw [hres] at h; cases h
    · simp only [Res.ok.injEq, Prod.mk.injEq] at h
      rw [← h.1]; exact hret

theorem parseblock_spans (L : List Char) (pl : List Char → Res (Cmd × List Char))
    (hsuf : ReturnsSuffix pl) (hpl : BuildsSpans L pl)
    (n : Nat) (s : List Char) (c : Cmd) (s1 : List Char) (hs : s <:+ L)
    (h : parseblock pl n s = .ok (c, s1)) : SpansIn L c := by
  simp only [parseblock] at h
  split_ifs at h
  have ht : (gettoken (peek s ['(']).2).ps <:+ L := (gettoken_peek_suffix s _).trans hs
  cases hres : pl (gettoken (peek s ['(']).2).ps with
  | ok a =>
    obtain ⟨c2, s2⟩ := a
    rw [hres] at h
    simp only at h
    split_ifs at h
    have hs2 : s2 <:+ L := (hsuf _ _ _ hres).trans ht
    exact parseredirs_spans L _ _ _ _ _ ((gettoken_peek_suffix s2 _).trans hs2)
      (hpl _ _ _ ht hres) h
  | panic msg => rw [hres] at h; cases h
  | nofuel => rw [hres] at h; cases h

theorem SpansIn_exec_nil (L : List Char) : SpansIn L (.exec []) := by
  intro sp h; simp [Cmd.spans] at h

theorem parseexec_spans (L : List Char) (pl : List Char → Res (Cmd × List Char))
    (hsuf : ReturnsSuffix pl) (hpl : BuildsSpans L pl)
    (n : Nat) (s : List Char) (c : Cmd) (s1 : List Char) (hs : s <:+ L)
    (h : parseexec pl n s = .ok (c, s1)) : SpansIn L c := by
  have hpk : (peek s ['(']).2 <:+ L := (peek_suffix s _).trans hs
  simp only [parseexec] at h
  split_ifs at h
  · exact parseblock_spans L pl hsuf hpl n _ c s1 hpk h
  · cases hres : parseredirs n (.exec []) (peek s ['(']).2 with
    | ok a =>
      obtain ⟨r2, s2⟩ := a
      rw [hres] at h
      exact parseexecLoop_spans L _ _ _ _ _ _ ((parseredirs_suffix _ _ _ _ _ hres).trans hpk)
        (parseredirs_spans L _ _ _ _ _ hpk (SpansIn_exec_nil L) hres) h
    | panic msg => rw [hres] at h; cases h
    | nofuel => rw [hres] at h; cases h

theorem parsepipe_spans (L : List Char) (pl : List Char → Res (Cmd × List Char))
    (hsuf : ReturnsSuffix pl) (hpl : BuildsSpans L pl) :
    ∀ (n : Nat) (s : List Char) (c : Cmd) (s1 : List Char), s <:+ L →
    parsepipe pl n s = .ok (c, s1) → SpansIn L c := by
  intro n
  induction n with
  | zero => intro s c s1 _ h; simp [parsepipe] at h
  | succ n ih =>
    intro s c s1 hs h
    rw [parsepipe] at h
    cases hres : parseexec pl (n + 1) s with
    | ok a =>
      obtain ⟨c1, s2⟩ := a
      rw [hres] at h
      have h2 : s2 <:+ L := (parseexec_suffix pl hsuf _ _ _ _ hres).trans hs
      have hc1 := parseexec_spans L pl hsuf hpl _ _ _ _ hs hres
      simp only at h
      split_ifs at h
      · cases hres2 : parsepipe pl n (gettoken (peek s2 ['|']).2).ps with
        | ok b =>
          obtain ⟨c3, s3⟩ := b
          rw [hres2] at h
          simp only [Res.ok.injEq, Prod.mk.injEq] at h
          rw [← h.1]
          exact (SpansIn_two hc1 (ih _ _ _ ((gettoken_peek_suffix s2 _).trans h2) hres2)).1
        | panic msg => rw [hres2] at h; cases h
        | nofuel => rw [hres2] at h; cases h
      · simp only [Res.ok.injEq, Prod.mk.injEq] at h
        rw [← h.1]; exact hc1
    | panic msg => rw [hres] at h; cases h
    | nofuel => rw [hres] at h; cases h

theorem parselineBack_spans (L : List Char) :
    ∀ (n : Nat) (cmd : Cmd) (s : List Char) (c : Cmd) (s1 : List Char),
    SpansIn L cmd → parselineBack n cmd s = .ok (c, s1) → SpansIn L c := by
  intro n
  induction n with
  | zero => intro cmd s c s1 _ h; simp [parselineBack] at h
  | succ n ih =>
    intro cmd s c s1 hcmd h
    simp only [parselineBack] at h
    split_ifs at h
    · exact ih (.back cmd) _ _ _ (fun sp hsp => hcmd sp hsp) h
    · simp only [Res.ok.injEq, Prod.mk.injEq] at h
      rw [← h.1]; exact hcmd

theorem parseline_spans (L : List Char) : ∀ (n : Nat), BuildsSpans L (parseline n) := by
  intro n
  induction n with
  | zero => intro s c s1 _ h; simp [parseline] at h
  | succ n ih =>
    intro s c s1 hs h
    rw [parseline] at h
    cases hres : parsepipe (parseline n) (n + 1) s with
    | ok a =>
      obtain ⟨c1, s2⟩ := a
      rw [hres] at h
      have h2 : s2 <:+ L := (parsepipe_suffix _ (parseline_suffix n) _ _ _ _ hres).trans hs
      have hc1 := parsepipe_spans L _ (parseline_suffix n) ih _ _ _ _ hs hres
      simp only at h
      cases hres2 : parselineBack (n + 1) c1 s2 with
      | ok b =>
        obtain ⟨c3, s3⟩ := b
        rw [hres2] at h
        have h3 : s3 <:+ L := (parselineBack_suffix _ _ _ _ _ hres2).trans h2
        have hc3 := parselineBack_spans L _ _ _ _ _ hc1 hres2
        simp only at h
        split_ifs at h
        · cases hres3 : parseline n (gettoken (peek s3 [';']).2).ps with
          | ok e =>
            obtain ⟨c4, s4⟩ := e
            rw [hres3] at h
            simp only [Res.ok.injEq, Prod.mk.injEq] at h
            rw [← h.1]
            exact (SpansIn_two hc3 (ih _ _ _ ((gettoken_peek_suffix s3 _).trans h3) hres3)).2
          | panic msg => rw [hres3] at h; cases h
          | nofuel => rw [hres3] at h; cases h
        · simp only [Res.ok.injEq, Prod.mk.injEq] at h
          rw [← h.1]; exact hc3
      | panic msg => rw [hres2] at h; cases h
      | nofuel => rw [hres2] at h; cases h
    | panic msg => rw [hres] at h; cases h
    | nofuel => rw [hres] at h; cases h

/-- The spans of an accepted line are words of the line. -/
theorem parsecmd_spans {buf : List Char} {T : Cmd} (h : parsecmd buf = .ok T) :
    SpansIn (cstr buf) T := by
  obtain ⟨s1, _, hl⟩ := parseline_of_parsecmd h
  exact parseline_spans (cstr buf) _ _ _ _ (List.suffix_refl _) hl

/-! ## The buffer after `nulterminate` -/

theorem pokeNUL_length (es : Nat) (p b : List Char) : (pokeNUL es p b).length = b.length := by
  simp [pokeNUL]

theorem pokeNUL_get_ne (es : Nat) (p b : List Char) (i : Nat) (h : i ≠ es - p.length) :
    (pokeNUL es p b)[i]? = b[i]? := by
  simp only [pokeNUL]
  exact List.getElem?_set_ne (Ne.symm h)

theorem pokeNUL_get_eq (es : Nat) (p b : List Char) (h : es - p.length < b.length) :
    (pokeNUL es p b)[es - p.length]? = some NUL := by
  simp only [pokeNUL]
  rw [List.getElem?_set_self h]

theorem pokeNUL_keeps (es : Nat) (p b : List Char) (i : Nat) (h : b[i]? = some NUL) :
    (pokeNUL es p b)[i]? = some NUL := by
  by_cases hi : i = es - p.length
  · subst hi
    have hlt : es - p.length < b.length := by
      rcases List.getElem?_eq_some.mp h with ⟨hl, _⟩
      exact hl
    exact pokeNUL_get_eq es p b hlt
  · rw [pokeNUL_get_ne es p b i hi]; exact h

theorem nulterminateArgs_length (es : Nat) : ∀ (as : List Span) (b : List Char),
    (nulterminateArgs es as b).length = b.length := by
  intro as
  induction as with
  | nil => intro b; rfl
  | cons a as ih => intro b; simp only [nulterminateArgs, ih, pokeNUL_length]

theorem nulterminateArgs_get_ne (es : Nat) (i : Nat) : ∀ (as : List Span) (b : List Char),
    (∀ sp ∈ as, i ≠ es - sp.2.length) → (nulterminateArgs es as b)[i]? = b[i]? := by
  intro as
  induction as with
  | nil => intro b _; rfl
  | cons a as ih =>
    intro b h
    simp only [nulterminateArgs]
    rw [ih _ (fun sp hsp => h sp (List.mem_cons_of_mem _ hsp)),
      pokeNUL_get_ne es a.2 b i (h a (List.mem_cons_self _ _))]

theorem nulterminateArgs_keeps (es : Nat) (i : Nat) : ∀ (as : List Span) (b : List Char),
    b[i]? = some NUL → (nulterminateArgs es as b)[i]? = some NUL := by
  intro as
  induction as with
  | nil => intro b h; exact h
  | cons a as ih =>
    intro b h
    simp only [nulterminateArgs]
    exact ih _ (pokeNUL_keeps es a.2 b i h)

theorem nulterminateArgs_get_eq (es : Nat) : ∀ (as : List Span) (b : List Char) (sp : Span),
    sp ∈ as → es - sp.2.length < b.length →
    (nulterminateArgs es as b)[es - sp.2.length]? = some NUL := by
  intro as
  induction as with
  | nil => intro b sp h; simp at h
  | cons a as ih =>
    intro b sp h hlt
    simp only [nulterminateArgs]
    rcases List.mem_cons.mp h with h | h
    · subst h
      exact nulterminateArgs_keeps es _ as _ (pokeNUL_get_eq es sp.2 b hlt)
    · exact ih _ sp h (by rw [pokeNUL_length]; exact hlt)

theorem nulterminate_length (es : Nat) : ∀ (c : Cmd) (b : List Char),
    (nulterminate es c b).length = b.length := by
  intro c
  induction c with
  | exec argv => intro b; exact nulterminateArgs_length es argv b
  | redir c f ef m fd ih => intro b; simp only [nulterminate, pokeNUL_length, ih]
  | pipe l r ihl ihr => intro b; simp only [nulterminate, ihl, ihr]
  | list l r ihl ihr => intro b; simp only [nulterminate, ihl, ihr]
  | back c ih => intro b; simp only [nulterminate, ih]

/-- A place that is the end of no span keeps its character. -/
theorem nulterminate_get_ne (es : Nat) (i : Nat) : ∀ (c : Cmd) (b : List Char),
    (∀ sp ∈ c.spans, i ≠ es - sp.2.length) → (nulterminate es c b)[i]? = b[i]? := by
  intro c
  induction c with
  | exec argv => intro b h; exact nulterminateArgs_get_ne es i argv b h
  | redir c f ef m fd ih =>
    intro b h
    simp only [Cmd.spans, List.mem_append, List.mem_singleton] at h
    simp only [nulterminate]
    rw [pokeNUL_get_ne es ef _ i (h (f, ef) (Or.inr rfl)), ih b (fun sp hsp => h sp (Or.inl hsp))]
  | pipe l r ihl ihr =>
    intro b h
    simp only [Cmd.spans, List.mem_append] at h
    simp only [nulterminate]
    rw [ihr _ (fun sp hsp => h sp (Or.inr hsp)), ihl _ (fun sp hsp => h sp (Or.inl hsp))]
  | list l r ihl ihr =>
    intro b h
    simp only [Cmd.spans, List.mem_append] at h
    simp only [nulterminate]
    rw [ihr _ (fun sp hsp => h sp (Or.inr hsp)), ihl _ (fun sp hsp => h sp (Or.inl hsp))]
  | back c ih => intro b h; exact ih b h

theorem nulterminate_keeps (es : Nat) (i : Nat) : ∀ (c : Cmd) (b : List Char),
    b[i]? = some NUL → (nulterminate es c b)[i]? = some NUL := by
  intro c
  induction c with
  | exec argv => intro b h; exact nulterminateArgs_keeps es i argv b h
  | redir c f ef m fd ih => intro b h; exact pokeNUL_keeps es ef _ i (ih b h)
  | pipe l r ihl ihr => intro b h; exact ihr _ (ihl b h)
  | list l r ihl ihr => intro b h; exact ihr _ (ihl b h)
  | back c ih => intro b h; exact ih b h

/-- The end of every span holds a NUL afterwards. -/
theorem nulterminate_get_eq (es : Nat) : ∀ (c : Cmd) (b : List Char) (sp : Span),
    sp ∈ c.spans → es - sp.2.length < b.length →
    (nulterminate es c b)[es - sp.2.length]? = some NUL := by
  intro c
  induction c with
  | exec argv => intro b sp h hlt; exact nulterminateArgs_get_eq es argv b sp h hlt
  | redir c f ef m fd ih =>
    intro b sp h hlt
    simp only [Cmd.spans, List.mem_append, List.mem_singleton] at h
    simp only [nulterminate]
    rcases h with h | h
    · exact pokeNUL_keeps es ef _ _ (ih b sp h hlt)
    · subst h
      exact pokeNUL_get_eq es ef _ (by rw [nulterminate_length]; exact hlt)
  | pipe l r ihl ihr =>
    intro b sp h hlt
    simp only [Cmd.spans, List.mem_append] at h
    simp only [nulterminate]
    rcases h with h | h
    · exact nulterminate_keeps es _ r _ (ihl b sp h hlt)
    · exact ihr _ sp h (by rw [nulterminate_length]; exact hlt)
  | list l r ihl ihr =>
    intro b sp h hlt
    simp only [Cmd.spans, List.mem_append] at h
    simp only [nulterminate]
    rcases h with h | h
    · exact nulterminate_keeps es _ r _ (ihl b sp h hlt)
    · exact ihr _ sp h (by rw [nulterminate_length]; exact hlt)
  | back c ih => intro b sp h hlt; exact ih b sp h hlt

/-- Reading a C string by index: the characters of `w`, then a NUL. -/
theorem cstr_drop_eq : ∀ (w X : List Char) (o : Nat),
    (∀ j (hj : j < w.length), X[o + j]? = some w[j]) → X[o + w.length]? = some NUL →
    noNUL w = true → cstr (X.drop o) = w := by
  intro w
  induction w with
  | nil =>
    intro X o _ h _
    simp only [List.length_nil, Nat.add_zero] at h
    obtain ⟨hl, he⟩ := List.getElem?_eq_some.mp h
    rw [List.drop_eq_getElem_cons hl, he]
    simp [cstr]
  | cons a w ih =>
    intro X o h1 h2 hn
    have h0 := h1 0 (by simp)
    simp only [Nat.add_zero, List.getElem_cons_zero] at h0
    obtain ⟨hl, he⟩ := List.getElem?_eq_some.mp h0
    rw [noNUL_cons, Bool.and_eq_true] at hn
    have ha : (a == NUL) = false := by simpa using hn.1
    rw [List.drop_eq_getElem_cons hl, he]
    simp only [cstr, ha, Bool.false_eq_true, if_false, List.cons.injEq, true_and]
    apply ih X (o + 1) _ _ hn.2
    · intro j hj
      have := h1 (j + 1) (by simp only [List.length_cons]; omega)
      simp only [List.getElem_cons_succ] at this
      rw [← this]
      congr 1
      omega
    · rw [← h2]
      congr 1
      simp only [List.length_cons]
      omega

/-- Where a word span lies in the line. -/
theorem WordSpan_split {L : List Char} {sp : Span} (h : WordSpan L sp) :
    ∃ pre w, isWord w = true ∧ sp.1 = w ++ sp.2 ∧ L = pre ++ w ++ sp.2 ∧
      off L sp.1 = pre.length ∧ off L sp.2 = pre.length + w.length ∧
      wordChar (deref sp.2) = false := by
  obtain ⟨w, hw, hq, ⟨pre, hpre⟩, hstop⟩ := h
  refine ⟨pre, w, hw, hq, ?_, ?_, ?_, hstop⟩
  · rw [List.append_assoc, ← hq, hpre]
  · simp only [off, ← hpre, List.length_append]; omega
  · simp only [off, ← hpre, hq, List.length_append]; omega

theorem word_getElem {w : List Char} (hw : isWord w = true) (j : Nat) (hj : j < w.length) :
    wordChar w[j] = true := by
  simp only [isWord, Bool.and_eq_true, List.all_eq_true] at hw
  exact hw.2 _ (List.getElem_mem hj)

/-- The end of a word span of the line is not inside any word span of the
line. -/
theorem span_end_outside {L : List Char} {sp sp' : Span} (h : WordSpan L sp)
    (h' : WordSpan L sp') :
    ¬(off L sp'.1 ≤ off L sp.2 ∧ off L sp.2 < off L sp'.2) := by
  obtain ⟨pre, w, hw, hq, hL, o1, o2, hstop⟩ := WordSpan_split h
  obtain ⟨pre', w', hw', hq', hL', o1', o2', hstop'⟩ := WordSpan_split h'
  intro ⟨hle, hlt⟩
  rw [o1', o2] at hle
  rw [o2, o2'] at hlt
  -- the character of the line at the end of `sp` is a character of `w'`
  obtain ⟨j, hj⟩ : ∃ j, pre.length + w.length = pre'.length + j := ⟨_, (Nat.add_sub_cancel' hle).symm⟩
  have hjlt : j < w'.length := by omega
  have e1 : L[pre.length + w.length]? = some w'[j] := by
    rw [hj, hL', List.append_assoc, List.getElem?_append_right (by omega)]
    simp only [Nat.add_sub_cancel_left]
    rw [List.getElem?_append_left hjlt, List.getElem?_eq_getElem hjlt]
  have e2 : L[pre.length + w.length]? = sp.2[0]? := by
    rw [hL, List.getElem?_append_right (by simp)]
    simp
  rw [e1] at e2
  cases hsp : sp.2 with
  | nil => rw [hsp] at e2; simp at e2
  | cons d r =>
    rw [hsp] at e2 hstop
    simp only [List.getElem?_cons_zero, Option.some.injEq] at e2
    have := word_getElem hw' j hjlt
    rw [e2] at this
    simp only [deref, List.headD_cons] at hstop
    rw [hstop] at this
    cases this

/-! ## C strings -/

theorem noNUL_cstr (buf : List Char) : noNUL (cstr buf) = true := by
  induction buf with
  | nil => rfl
  | cons c s ih =>
    by_cases hc : (c == NUL) = true
    · simp only [cstr, hc, if_true]; rfl
    · simp only [Bool.not_eq_true] at hc
      simp only [cstr, hc, Bool.false_eq_true, if_false, noNUL_cons, ih, Bool.and_true]
      simp [bne, hc]

/-- A buffer that holds a NUL is its C string, the NUL, and the rest. -/
theorem cstr_split (buf : List Char) (h : NUL ∈ buf) : ∃ rest, buf = cstr buf ++ NUL :: rest := by
  induction buf with
  | nil => simp at h
  | cons c s ih =>
    by_cases hc : (c == NUL) = true
    · have : c = NUL := by simpa using hc
      subst this
      exact ⟨s, by simp [cstr]⟩
    · simp only [Bool.not_eq_true] at hc
      have hne : NUL ≠ c := by
        intro e
        rw [← e] at hc
        simp at hc
      rcases List.mem_cons.mp h with h | h
      · exact absurd h hne
      · obtain ⟨rest, hr⟩ := ih h
        refine ⟨rest, ?_⟩
        simp only [cstr, hc, Bool.false_eq_true, if_false, List.cons_append]
        rw [← hr]

theorem mem_noNUL {s : List Char} (h : noNUL s = true) {c : Char} (hc : c ∈ s) :
    (c == NUL) = false := by
  simp only [noNUL, List.all_eq_true, bne_iff_ne, ne_eq] at h
  simpa using h c hc

theorem off_suffix {L p : List Char} (h : p <:+ L) : off L p + p.length = L.length := by
  obtain ⟨pre, rfl⟩ := h
  simp only [off, List.length_append]
  omega

/-- A character at which a word stops, if it is not the NUL, is whitespace or
an operator character. -/
theorem stop_char {d : Char} (hd : wordChar d = false) (hn : (d == NUL) = false) :
    whitespace.contains d = true ∨ symbols.contains d = true := by
  simp only [wordChar, strchr, hn, Bool.false_or, Bool.and_eq_false_iff,
    Bool.not_eq_false'] at hd
  exact hd

theorem word_chars {w : List Char} (hw : isWord w = true) :
    w ≠ [] ∧ ∀ c ∈ w, whitespace.contains c = false ∧ symbols.contains c = false ∧ c ≠ NUL := by
  constructor
  · intro e
    rw [e] at hw
    simp [isWord] at hw
  · intro c hc
    simp only [isWord, Bool.and_eq_true, List.all_eq_true] at hw
    have h := hw.2 c hc
    refine ⟨not_contains_of_strchr (wordChar_ws h), not_contains_of_strchr (wordChar_sym h), ?_⟩
    have := ne_NUL_of_strchr (wordChar_ws h)
    simpa using this

/-- The text between two pointers of the line, by offsets. -/
theorem drop_take_off {L q e w : List Char} (hq : q <:+ L) (hw : q = w ++ e) :
    (L.drop (off L q)).take (off L e - off L q) = w := by
  obtain ⟨pre, rfl⟩ := hq
  subst hw
  have h1 : off (pre ++ (w ++ e)) (w ++ e) = pre.length := by
    simp only [off, List.length_append]; omega
  have h2 : off (pre ++ (w ++ e)) e = pre.length + w.length := by
    simp only [off, List.length_append]; omega
  rw [h1, h2, List.drop_left, Nat.add_sub_cancel_left, List.take_left]

/-! ## The claims about the tokenizer and about termination -/

/-- C15: the extent of an operator token.  When the next character that is
not whitespace is one of `|`, `(`, `)`, `;`, `&`, `<`, the function `gettoken`
returns that character as the class of the token, and the token is that one
character.  When it is `>` and the character right after it is not `>`, the
class is `>` and the token is one character; when the character right after
it is `>` too, the class is `+` (the source writes `>>` so) and the token is
the two characters.  So `>>>` reads as `+` then `>`, and `> >` as `>` then
`>`. -/
theorem gettoken_operator_extent (s : List Char) (c : Char) (s1 : List Char)
    (hs : skipws s = c :: s1) :
    (['|', '(', ')', ';', '&', '<'].contains c = true →
      (gettoken s).ret = c ∧ (gettoken s).q = c :: s1 ∧ (gettoken s).eq = s1 ∧
        (gettoken s).extent = 1) ∧
    (c = '>' → (deref s1 == '>') = false →
      (gettoken s).ret = '>' ∧ (gettoken s).q = c :: s1 ∧ (gettoken s).eq = s1 ∧
        (gettoken s).extent = 1) ∧
    (c = '>' → ∀ s2, s1 = '>' :: s2 →
      (gettoken s).ret = '+' ∧ (gettoken s).q = c :: s1 ∧ (gettoken s).eq = s2 ∧
        (gettoken s).extent = 2) ∧
    lex ">>>".toList = [('+', ">>".toList), ('>', ">".toList)] ∧
    lex "> >".toList = [('>', ">".toList), ('>', ">".toList)] := by
  refine ⟨?_, ?_, ?_, by decide, by decide⟩
  · intro hc
    rw [← gettoken_skipws, hs, gettoken_sym hc]
    simp [Token.extent]
  · intro hc hn
    subst hc
    rw [← gettoken_skipws, hs, gettoken_gt s1 hn]
    simp [Token.extent]
  · intro hc s2 h2
    subst hc
    subst h2
    rw [← gettoken_skipws, hs, gettoken_gtgt]
    refine ⟨rfl, rfl, rfl, ?_⟩
    simp only [Token.extent, List.length_cons]
    omega

/-- C15, an instance: in ` >> x` the token is `>>`, two characters long. -/
theorem gettoken_operator_extent_witness :
    (gettoken " >> x".toList).ret = '+' ∧ (gettoken " >> x".toList).q = ">> x".toList ∧
      (gettoken " >> x".toList).eq = " x".toList ∧ (gettoken " >> x".toList).extent = 2 :=
  (gettoken_operator_extent " >> x".toList '>' "> x".toList (by decide)).2.2.1 rfl
    " x".toList rfl

/-- C16: the span of a word token.  For a cursor `s` inside the line (the C
string of the buffer), when `gettoken` returns a word (`a`): the pointers `q`
and `eq` lie inside the line, `q` is not before the cursor, `q` is strictly
before `eq`; the text from `q` to `eq` is not empty, is the part of the line
between the two offsets, and holds no whitespace, no operator character and no
NUL; the span cannot be made longer (`eq` is the end of the line, or the
character there is whitespace or an operator character); and the cursor
returned lies inside the line, not before `eq`, and is at the end of the line
or at a character that is not whitespace. -/
theorem gettoken_word_span (buf s : List Char) (hs : s <:+ cstr buf)
    (h : (gettoken s).ret = 'a') :
    ((gettoken s).q <:+ cstr buf ∧ (gettoken s).eq <:+ cstr buf ∧
      (gettoken s).ps <:+ cstr buf) ∧
    (off (cstr buf) s ≤ off (cstr buf) (gettoken s).q ∧
      off (cstr buf) (gettoken s).q < off (cstr buf) (gettoken s).eq ∧
      off (cstr buf) (gettoken s).eq ≤ off (cstr buf) (gettoken s).ps ∧
      off (cstr buf) (gettoken s).ps ≤ (cstr buf).length) ∧
    (∃ w, (gettoken s).q = w ++ (gettoken s).eq ∧ w ≠ [] ∧
      (∀ c ∈ w, whitespace.contains c = false ∧ symbols.contains c = false ∧ c ≠ NUL) ∧
      ((cstr buf).drop (off (cstr buf) (gettoken s).q)).take
        (off (cstr buf) (gettoken s).eq - off (cstr buf) (gettoken s).q) = w) ∧
    ((gettoken s).eq = [] ∨ whitespace.contains (deref (gettoken s).eq) = true ∨
      symbols.contains (deref (gettoken s).eq) = true) ∧
    ((gettoken s).ps = [] ∨ whitespace.contains (deref (gettoken s).ps) = false) := by
  have hne : skipws s ≠ [] := skipws_ne_nil_of_ret (by rw [h]; decide)
  have hq : (gettoken s).q <:+ cstr buf := by
    rw [gettoken_q]; exact (skipws_suffix s).trans hs
  have heq0 : (gettoken s).eq <:+ (gettoken s).q := by
    rw [gettoken_q]; exact gettoken_eq_suffix s
  have heq : (gettoken s).eq <:+ cstr buf := heq0.trans hq
  have hps0 : (gettoken s).ps <:+ (gettoken s).eq := by
    rw [gettoken_ps]; exact skipws_suffix _
  have hps : (gettoken s).ps <:+ cstr buf := hps0.trans heq
  have hlt := gettoken_eq_lt hne
  rw [← gettoken_q] at hlt
  have l1 := (skipws_suffix s).length_le
  rw [← gettoken_q] at l1
  have l2 := hps0.length_le
  have o1 := off_suffix hs
  have o2 := off_suffix hq
  have o3 := off_suffix heq
  have o4 := off_suffix hps
  obtain ⟨w, hw, hqw, hstop⟩ := gettoken_word_shape h
  refine ⟨⟨hq, heq, hps⟩, ⟨by omega, by omega, by omega, by omega⟩,
    ⟨w, hqw, (word_chars hw).1, (word_chars hw).2, drop_take_off hq hqw⟩, ?_, ?_⟩
  · cases he : (gettoken s).eq with
    | nil => exact Or.inl rfl
    | cons d r =>
      right
      rw [he] at hstop heq
      have hd : d ∈ cstr buf := heq.subset (List.mem_cons_self _ _)
      exact stop_char hstop (mem_noNUL (noNUL_cstr buf) hd)
  · cases hp : (gettoken s).ps with
    | nil => exact Or.inl rfl
    | cons d r =>
      right
      have := gettoken_ps s
      rw [hp] at this
      exact not_contains_of_strchr (skipws_head this.symm)

/-- C16, an instance: the word `ab` in the line `  ab c`, read from the
start of the line. -/
theorem gettoken_word_span_witness :
    (gettoken "  ab c".toList).q = "ab c".toList ∧
    (gettoken "  ab c".toList).eq = " c".toList ∧
    (gettoken "  ab c".toList).ps = "c".toList ∧
    off (cstr "  ab c\x00".toList) (gettoken "  ab c".toList).q <
      off (cstr "  ab c\x00".toList) (gettoken "  ab c".toList).eq :=
  ⟨rfl, rfl, rfl,
    (gettoken_word_span "  ab c\x00".toList "  ab c".toList ⟨[], rfl⟩ rfl).2.1.2.1⟩

/-- C17: parsing ends.  For every buffer `parsecmd` ends with a tree or with
a parse failure: the fuel it starts with, one more than the length of the
line, is never used up.  The reason is that fuel is spent only after the
cursor has moved on.  Each of `parseline`, `parseredirs`, the loop of
`parseexec` and the loop of `parseline` ends on any text shorter than its
fuel; `parsepipe`, `parseblock` and `parseexec` end on a text shorter than
their fuel even when the `parseline` they are given ends only on texts
strictly shorter than theirs, so they call it only after the cursor has
advanced; and a token read after a successful look ahead, or any token other
than the end of input, leaves a strictly shorter text.  The tree is a value
of an inductive type, and `nulterminate` is a function defined by recursion
on it, which leaves the buffer as long as it was. -/
theorem parsing_terminates :
    (∀ buf, (∃ T, parsecmd buf = .ok T) ∨ (∃ msg, parsecmd buf = .panic msg)) ∧
    (∀ n s, s.length < n → parseline n s ≠ .nofuel) ∧
    (∀ n cmd s, s.length < n → parseredirs n cmd s ≠ .nofuel) ∧
    (∀ n ret argc s, s.length < n → parseexecLoop n ret argc s ≠ .nofuel) ∧
    (∀ n cmd s, s.length < n → parselineBack n cmd s ≠ .nofuel) ∧
    (∀ pl n s, ReturnsSuffix pl → TotalBelow pl s.length → s.length < n →
      parsepipe pl n s ≠ .nofuel ∧ parseblock pl n s ≠ .nofuel ∧
        parseexec pl n s ≠ .nofuel) ∧
    (∀ s toks, (peek s toks).1 = true → (gettoken (peek s toks).2).ps.length < s.length) ∧
    (∀ s, (gettoken s).ret ≠ NUL → (gettoken s).ps.length < s.length) ∧
    (∀ es T b, (nulterminate es T b).length = b.length) := by
  refine ⟨?_, parseline_total, parseredirs_total, parseexecLoop_total, parselineBack_total,
    ?_, ?_, ?_, nulterminate_length⟩
  · intro buf
    cases h : parsecmd buf with
    | ok T => exact Or.inl ⟨T, rfl⟩
    | panic msg => exact Or.inr ⟨msg, rfl⟩
    | nofuel => exact absurd h (parsecmd_total buf)
  · intro pl n s hsuf htot hn
    exact ⟨parsepipe_total pl hsuf n s htot hn, parseblock_total pl hsuf n s htot hn,
      parseexec_total pl hsuf n s htot hn⟩
  · intro s toks h
    exact gettoken_peek_lt h
  · intro s h
    exact gettoken_ps_lt (skipws_ne_nil_of_ret h)

/-! ## Redirections without a file, and parentheses -/

/-- In `parseredirs`, an operator followed by a token that is not a word. -/
theorem parseredirs_missing (n : Nat) (cmd : Cmd) (s : List Char)
    (hp : (peek s ['<', '>']).1 = true)
    (hf : (gettoken (gettoken (peek s ['<', '>']).2).ps).ret ≠ 'a') :
    parseredirs (n + 1) cmd s = .panic "missing file for redirection" := by
  have hf2 : ((gettoken (gettoken (peek s ['<', '>']).2).ps).ret != 'a') = true := by
    simpa using hf
  simp only [parseredirs, hp, hf2, if_true]

/-- A line that starts with a redirection operator without a file. -/
theorem parsecmd_missing_file (g : List Char) (op : RedirOp) (rest : List Char)
    (hg : blank g = true) (hrest : noNUL rest = true) (hf : (gettoken rest).ret ≠ 'a')
    (hgt : op = .gt → (deref rest == '>') = false) :
    parsecmd (g ++ (op.text ++ rest)) = .panic "missing file for redirection" := by
  have hop : noNUL op.text = true := by cases op <;> rfl
  have hb : noNUL (g ++ (op.text ++ rest)) = true := by
    rw [noNUL_append, noNUL_append, noNUL_blank g hg, hop, hrest]; rfl
  apply parsecmd_panic_of_parseexec _ _ hb
  generalize (g ++ (op.text ++ rest)).length = n
  have hsk : skipws (g ++ (op.text ++ rest)) = op.text ++ rest := by
    rw [skipws_blank_append _ _ hg]
    cases op <;> rfl
  have hparen : (peek (g ++ (op.text ++ rest)) ['(']).1 = false := by
    rw [← peek_skipws, hsk]
    cases op <;> rfl
  have hredir : (peek (op.text ++ rest) ['<', '>']).1 = true := by cases op <;> rfl
  have hps : (gettoken (peek (op.text ++ rest) ['<', '>']).2).ps = skipws rest := by
    cases op with
    | lt => rfl
    | gt =>
      show (gettoken (skipws ('>' :: rest))).ps = skipws rest
      rw [gettoken_skipws, gettoken_gt rest (hgt rfl)]
    | gtgt => rfl
  have hm := parseredirs_missing n (.exec []) (op.text ++ rest) hredir
    (by rw [hps, gettoken_skipws]; exact hf)
  simp only [parseexec, hparen, Bool.false_eq_true, if_false, peek_snd, hsk, hm]

/-- In `parseblock`, the text of the block is not followed by `)`. -/
theorem parseblock_missing (pl : List Char → Res (Cmd × List Char)) (n : Nat) (s : List Char)
    (cmd : Cmd) (s1 : List Char) (hp : (peek s ['(']).1 = true)
    (hpl : pl (gettoken (peek s ['(']).2).ps = .ok (cmd, s1))
    (hclose : (peek s1 [')']).1 = false) :
    parseblock pl n s = .panic "syntax - missing )" := by
  simp only [parseblock, hp, hpl, hclose, Bool.not_true, Bool.not_false, Bool.false_eq_true,
    if_false, if_true]

/-- In `parsecmd`, `parseline` returns before the end of the line. -/
theorem parsecmd_leftovers (b : List Char) (cmd : Cmd) (s1 : List Char)
    (hpl : parseline ((cstr b).length + 1) (cstr b) = .ok (cmd, s1)) (hs1 : skipws s1 ≠ []) :
    parsecmd b = .panic "syntax" := by
  have : ((peek s1 []).2 != []) = true := by
    rw [peek_snd]
    simpa using hs1
  simp only [parsecmd, hpl, this, if_true]

/-- The parentheses of an accepted line are balanced. -/
theorem parsecmd_balanced {buf : List Char} {T : Cmd} (h : parsecmd buf = .ok T) :
    (cstr buf).count '(' = (cstr buf).count ')' ∧
      ∀ k, ((cstr buf).take k).count ')' ≤ ((cstr buf).take k).count '(' := by
  have hg := (parsecmd_traced h).2 0
  rw [← pscan_kinds _ _ (Nat.le_refl _)] at hg
  have := pscan_counts _ 0 0 hg
  simp only [Nat.zero_add] at this
  exact this

/-! ## The claims about parse errors -/

/-- C12 (amended): every line that `parsecmd` accepts has balanced
parentheses: as many `(` as `)`, and no prefix with more `)` than `(`.  A
line with an unclosed `(` or an unmatched `)` is refused: by `parseblock` with
`syntax - missing )` when the text of a block is not followed by `)`, by
`parsecmd` with the error for leftover input when `parseline` returns before
the end of the line, or with the error that the parser meets first; in every
case it is refused. -/
theorem accepted_lines_balanced (buf : List Char) (h : ∃ T, parsecmd buf = .ok T) :
    (cstr buf).count '(' = (cstr buf).count ')' ∧
    (∀ k, ((cstr buf).take k).count ')' ≤ ((cstr buf).take k).count '(') ∧
    (∀ pl n s cmd s1, (peek s ['(']).1 = true →
      pl (gettoken (peek s ['(']).2).ps = .ok (cmd, s1) → (peek s1 [')']).1 = false →
      parseblock pl n s = .panic "syntax - missing )") ∧
    (∀ b cmd s1, parseline ((cstr b).length + 1) (cstr b) = .ok (cmd, s1) →
      skipws s1 ≠ [] → parsecmd b = .panic "syntax") ∧
    (∀ b, ((cstr b).count '(' ≠ (cstr b).count ')' ∨
        ∃ k, ((cstr b).take k).count '(' < ((cstr b).take k).count ')') →
      ∃ msg, parsecmd b = .panic msg) := by
  obtain ⟨T, hT⟩ := h
  refine ⟨(parsecmd_balanced hT).1, (parsecmd_balanced hT).2, parseblock_missing,
    parsecmd_leftovers, ?_⟩
  intro b hb
  cases hp : parsecmd b with
  | ok T2 =>
    exfalso
    rcases hb with hb | ⟨k, hk⟩
    · exact hb (parsecmd_balanced hp).1
    · exact absurd ((parsecmd_balanced hp).2 k) (by omega)
  | panic msg => exact ⟨msg, rfl⟩
  | nofuel => exact absurd hp (parsecmd_total b)

/-- C12, an instance: `(a; (b)) | c` is accepted. -/
theorem accepted_lines_balanced_witness :
    (cstr "(a; (b)) | c".toList).count '(' = (cstr "(a; (b)) | c".toList).count ')' :=
  (accepted_lines_balanced "(a; (b)) | c".toList ⟨_, rfl⟩).1

/-- C12, the counterexample to the claim as written: `a (` has a `(` that is
never closed and is refused with the plain `syntax` error of `parseexec`, and
`> )` has a `)` without a `(` and is refused with the error of
`parseredirs`; `( a` and `a )` fail as the claim says. -/
theorem unbalanced_other_errors :
    parsecmd "a (".toList = .panic "syntax" ∧
    parsecmd "a (".toList ≠ .panic "syntax - missing )" ∧
    parsecmd "> )".toList = .panic "missing file for redirection" ∧
    parsecmd "( a".toList = .panic "syntax - missing )" ∧
    parsecmd "a )".toList = .panic "syntax" := by
  decide

/-! ## The claim about `nulterminate` -/

/-- The buffer and its C string agree in front of the NUL. -/
theorem buf_get_cstr {buf : List Char} {i : Nat} (hi : i < (cstr buf).length)
    (hterm : NUL ∈ buf) : buf[i]? = (cstr buf)[i]? := by
  obtain ⟨rest, hr⟩ := cstr_split buf hterm
  conv_lhs => rw [hr]
  exact List.getElem?_append_left hi

theorem cstr_length_lt {buf : List Char} (hterm : NUL ∈ buf) :
    (cstr buf).length < buf.length := by
  obtain ⟨rest, hr⟩ := cstr_split buf hterm
  conv_rhs => rw [hr]
  simp

/-- A word span is what `gettoken` reads at its start. -/
theorem gettoken_of_WordSpan {L : List Char} {sp : Span} (h : WordSpan L sp) :
    (gettoken sp.1).ret = 'a' ∧ (gettoken sp.1).q = sp.1 ∧ (gettoken sp.1).eq = sp.2 := by
  obtain ⟨w, hw, hq, _, hstop⟩ := h
  rw [hq, gettoken_word w sp.2 hw hstop]
  exact ⟨rfl, rfl, rfl⟩

/-- Reading a word of the tree from the buffer that `nulterminate` leaves. -/
theorem cstrAt_nulterminate {buf : List Char} {T : Cmd} (hterm : NUL ∈ buf)
    (hT : SpansIn (cstr buf) T) {sp : Span} (hsp : sp ∈ T.spans) :
    cstrAt (cstr buf).length (nulterminate (cstr buf).length T buf) sp.1 = spanText sp := by
  obtain ⟨pre, w, hw, hq, hL, o1, o2, hstop⟩ := WordSpan_split (hT sp hsp)
  have hlen : (cstr buf).length = pre.length + w.length + sp.2.length := by
    conv_lhs => rw [hL]
    simp only [List.length_append]
  have e1 : (cstr buf).length - sp.1.length = pre.length := o1
  have e2 : (cstr buf).length - sp.2.length = pre.length + w.length := o2
  have htxt : spanText sp = w := by
    have := spanText_append w sp.2
    rw [← hq] at this
    exact this
  rw [htxt]
  simp only [cstrAt, e1]
  apply cstr_drop_eq w _ pre.length _ _ (noNUL_word hw)
  · intro j hj
    rw [nulterminate_get_ne]
    · rw [buf_get_cstr (by omega) hterm]
      conv_lhs => rw [hL]
      rw [List.append_assoc, List.getElem?_append_right (by omega)]
      simp only [Nat.add_sub_cancel_left]
      rw [List.getElem?_append_left hj, List.getElem?_eq_getElem hj]
    · intro sp' hsp' he
      apply span_end_outside (hT sp' hsp') (hT sp hsp)
      have : off (cstr buf) sp'.2 = pre.length + j := he.symm
      rw [this, o1, o2]
      omega
  · have := nulterminate_get_eq (cstr buf).length T buf sp hsp
      (by have := cstr_length_lt hterm; omega)
    rw [e2] at this
    exact this

/-- C13: the round trip of word spans.  Let `parsecmd` accept the line of a
NUL-terminated buffer with the tree `T`, and let `nulterminate` write its
terminators into the buffer.  Then for every argument of an `exec` node and
every file of a `redir` node of `T`: the NUL-terminated string read in the
written buffer at the start of its span is the text of the span; that text is
the part of the unmodified line between the offsets of the two pointers of the
span; `gettoken`, called at the start of the span, returns a word with exactly
this span; and the place where its terminator is written lies inside no span
of the tree.  The buffer keeps its length. -/
theorem nulterminate_round_trip (buf : List Char) (T : Cmd) (sp : Span)
    (hterm : NUL ∈ buf) (h : parsecmd buf = .ok T) (hsp : sp ∈ T.spans) :
    cstrAt (cstr buf).length (nulterminate (cstr buf).length T buf) sp.1 = spanText sp ∧
    spanText sp = ((cstr buf).drop (off (cstr buf) sp.1)).take
      (off (cstr buf) sp.2 - off (cstr buf) sp.1) ∧
    (sp.1 <:+ cstr buf ∧ (gettoken sp.1).ret = 'a' ∧ (gettoken sp.1).q = sp.1 ∧
      (gettoken sp.1).eq = sp.2) ∧
    (∀ sp2 ∈ T.spans, ¬(off (cstr buf) sp2.1 ≤ off (cstr buf) sp.2 ∧
      off (cstr buf) sp.2 < off (cstr buf) sp2.2)) ∧
    (nulterminate (cstr buf).length T buf).length = buf.length := by
  have hT := parsecmd_spans h
  have hw := hT sp hsp
  obtain ⟨w, hw1, hq, hsuf, hstop⟩ := hw
  have htxt : spanText sp = w := by
    have := spanText_append w sp.2
    rw [← hq] at this
    exact this
  refine ⟨cstrAt_nulterminate hterm hT hsp, ?_, ⟨hsuf, gettoken_of_WordSpan (hT sp hsp)⟩, ?_,
    nulterminate_length _ _ _⟩
  · rw [htxt, drop_take_off hsuf hq]
  · intro sp2 hsp2
    exact span_end_outside (hT sp hsp) (hT sp2 hsp2)

/-- C13, an instance: the file `c` of `ab >c d`, read back from the buffer
`ab\0>c\0d\0` that `nulterminate` leaves. -/
theorem nulterminate_round_trip_witness :
    cstrAt 7 (nulterminate 7
      (.redir (.exec [("ab >c d".toList, " >c d".toList), ("d".toList, [])])
        "c d".toList " d".toList [.O_WRONLY, .O_CREATE, .O_TRUNC] 1)
      "ab >c d\x00".toList) "c d".toList = "c".toList :=
  (nulterminate_round_trip "ab >c d\x00".toList
    (.redir (.exec [("ab >c d".toList, " >c d".toList), ("d".toList, [])])
      "c d".toList " d".toList [.O_WRONLY, .O_CREATE, .O_TRUNC] 1)
    ("c d".toList, " d".toList) (by decide) (by decide) (by decide)).1

/-! ## Lines with no word -/

theorem redirsText_head (rs : List RedirText) :
    redirsText rs = [] ∨ ∃ c tl, redirsText rs = c :: tl ∧ ['<', '>'].contains c = true := by
  cases rs with
  | nil => exact Or.inl rfl
  | cons r rs =>
    right
    cases hop : r.op <;> simp [redirsText, hop, RedirOp.text]

theorem skipws_redirsText (rs : List RedirText) : skipws (redirsText rs) = redirsText rs := by
  rcases redirsText_head rs with h | ⟨c, tl, h, hc⟩
  · rw [h]; rfl
  · rw [h]
    apply skipws_cons
    simp only [List.contains_cons, List.contains_nil, Bool.or_false, Bool.or_eq_true,
      beq_iff_eq] at hc
    rcases hc with e | e <;> subst e <;> rfl

theorem redirsText_stop (rs : List RedirText) : wordChar (deref (redirsText rs)) = false := by
  rcases redirsText_head rs with h | ⟨c, tl, h, hc⟩
  · rw [h]; rfl
  · rw [h]
    simp only [List.contains_cons, List.contains_nil, Bool.or_false, Bool.or_eq_true,
      beq_iff_eq] at hc
    rcases hc with e | e <;> subst e <;> rfl

theorem blank_stop (g tl : List Char) (hg : blank g = true)
    (htl : wordChar (deref tl) = false) : wordChar (deref (g ++ tl)) = false := by
  cases g with
  | nil => exact htl
  | cons c g =>
    simp only [blank, List.all_cons, Bool.and_eq_true] at hg
    simp only [List.cons_append, deref, List.headD_cons, wordChar, strchr, hg.1, Bool.or_true,
      Bool.not_true, Bool.false_and]

theorem noNUL_redirsText (rs : List RedirText) (hwf : ∀ r ∈ rs, r.wf = true) :
    noNUL (redirsText rs) = true := by
  induction rs with
  | nil => rfl
  | cons r rs ih =>
    have h := hwf r (List.mem_cons_self _ _)
    simp only [RedirText.wf, Bool.and_eq_true] at h
    have hop : noNUL r.op.text = true := by cases r.op <;> rfl
    simp only [redirsText, noNUL_append, hop, noNUL_blank _ h.1.1, noNUL_word h.1.2,
      noNUL_blank _ h.2, ih (fun x hx => hwf x (List.mem_cons_of_mem _ hx)), Bool.and_self]

/-- The function `parseredirs` on a run of redirections that ends the line. -/
theorem parseredirs_redirsText : ∀ (rs : List RedirText), (∀ r ∈ rs, r.wf = true) →
    ∀ (m : Nat) (ret : Cmd), (redirsText rs).length < m →
    ∃ c, parseredirs m ret (redirsText rs) = .ok (c, []) ∧
      c.resolve = wrapFiles rs ret.resolve := by
  intro rs
  induction rs with
  | nil =>
    intro _ m ret hm
    obtain ⟨m, rfl⟩ : ∃ k, m = k + 1 := ⟨m - 1, by omega⟩
    exact ⟨ret, rfl, rfl⟩
  | cons r rs ih =>
    intro hwf m ret hm
    obtain ⟨m, rfl⟩ : ∃ k, m = k + 1 := ⟨m - 1, by omega⟩
    have h := hwf r (List.mem_cons_self _ _)
    simp only [RedirText.wf, Bool.and_eq_true] at h
    have htl := blank_stop r.after (redirsText rs) h.2 (redirsText_stop rs)
    have hlen : (redirsText rs).length < m := by
      have hop : 0 < r.op.text.length := by cases r.op <;> simp [RedirOp.text]
      simp only [redirsText, List.length_append] at hm
      omega
    obtain ⟨c, hc, hres⟩ := ih (fun x hx => hwf x (List.mem_cons_of_mem _ hx)) m
      (.redir ret (r.file ++ (r.after ++ redirsText rs)) (r.after ++ redirsText rs)
        r.op.mode r.op.fd) hlen
    refine ⟨c, ?_, ?_⟩
    · simp only [redirsText]
      rw [parseredirs_step r.op r.gap r.file _ h.1.1 h.1.2 htl m ret,
        skipws_blank_append _ _ h.2, skipws_redirsText]
      exact hc
    · rw [hres]
      simp only [Cmd.resolve, wrapFiles, spanText_append]

/-- A line of redirections only is a pipeline of one command without words. -/
theorem ParsesPipe_redirsText (rs : List RedirText) (hwf : ∀ r ∈ rs, r.wf = true) :
    ParsesPipe (redirsText rs) [] (wrapFiles rs (.exec [])) := by
  intro pl n hn
  obtain ⟨n, rfl⟩ : ∃ k, n = k + 1 := ⟨n - 1, by omega⟩
  rw [List.append_nil] at hn ⊢
  obtain ⟨c, hc, hres⟩ := parseredirs_redirsText rs hwf (n + 1) (.exec []) hn
  have hparen : (peek (redirsText rs) ['(']).1 = false := by
    rcases redirsText_head rs with h | ⟨d, tl, h, hd⟩
    · rw [h]; rfl
    · rw [h]
      simp only [List.contains_cons, List.contains_nil, Bool.or_false, Bool.or_eq_true,
        beq_iff_eq] at hd
      rcases hd with e | e <;> subst e <;> rfl
  have hexec : parseexec pl (n + 1) (redirsText rs) = .ok (c, []) := by
    simp only [parseexec, hparen, Bool.false_eq_true, if_false, peek_snd, skipws_redirsText, hc]
    rfl
  exact ⟨c, parsepipe_stop pl n _ _ c hexec rfl, hres⟩

theorem resolve_exec_nil {c : Cmd} (h : c.resolve = .exec []) : c = .exec [] := by
  cases c with
  | exec argv =>
    simp only [Cmd.resolve, Tree.exec.injEq, List.map_eq_nil_iff] at h
    rw [h]
  | redir c f ef m fd => simp [Cmd.resolve] at h
  | pipe l r => simp [Cmd.resolve] at h
  | list l r => simp [Cmd.resolve] at h
  | back c => simp [Cmd.resolve] at h

/-- C14: a line without a word.  A line of whitespace only (the empty line
too) is accepted by `parsecmd` with the tree `exec` of no arguments.  A line of
redirections only, with any whitespace before, between and after the operators
and the files, is accepted with the `exec` of no arguments wrapped in the
`redir` nodes of the redirections, the first one innermost; `> out` is such a
line.  And `runcmd` on an `exec` of no arguments makes no call at all, so
none of `exec`, and ends the process with `exit(1)`. -/
theorem empty_command_accepted :
    (∀ s, blank s = true → parsecmd s = .ok (.exec [])) ∧
    (∀ pre rs, blank pre = true → (∀ r ∈ rs, RedirText.wf r = true) →
      parseTree (pre ++ redirsText rs) = .ok (wrapFiles rs (.exec []))) ∧
    parsecmd [] = .ok (.exec []) ∧
    parseTree "> out".toList =
      .ok (.redir (.exec []) "out".toList [.O_WRONLY, .O_CREATE, .O_TRUNC] 1) ∧
    (∀ os k, runcmd os (.exec []) k = ⟨[], .exit 1⟩) := by
  have hline : ∀ pre rs, blank pre = true → (∀ r ∈ rs, RedirText.wf r = true) →
      ParsesLine (pre ++ redirsText rs) (wrapFiles rs (.exec [])) := by
    intro pre rs hpre hwf
    have h := ParsesLine_pipe _ [] _ rfl (ParsesPipe_redirsText rs hwf)
    rw [List.append_nil] at h
    exact ParsesLine_blank pre _ _ hpre h
  refine ⟨?_, ?_, by decide, by decide, fun _ _ => rfl⟩
  · intro s hs
    have h := hline s [] hs (fun _ hr => absurd hr (List.not_mem_nil _))
    simp only [redirsText, List.append_nil, wrapFiles] at h
    obtain ⟨c, hc, hres⟩ := h (s.length + 1) (by omega)
    rw [resolve_exec_nil hres] at hc
    exact parsecmd_of_parseline s _ (noNUL_blank s hs) hc
  · intro pre rs hpre hwf
    apply parseTree_of_ParsesLine _ _ _ (hline pre rs hpre hwf)
    rw [noNUL_append, noNUL_blank pre hpre, noNUL_redirsText rs hwf]
    rfl

/-! ## The job table -/

theorem get_after_front (pre : List Int) (x : Int) (tl : List Int) :
    (pre ++ x :: tl)[pre.length + 1]? = tl[0]? := by
  rw [List.getElem?_append_right (by omega)]
  simp

theorem get_at_front (pre : List Int) (x : Int) (tl : List Int) :
    (pre ++ x :: tl)[pre.length]? = some x := by
  rw [List.getElem?_append_right (by omega)]
  simp

theorem set_at_front (pre : List Int) (x v : Int) (tl : List Int) :
    (pre ++ x :: tl).set pre.length v = pre ++ v :: tl := by
  induction pre with
  | nil => rfl
  | cons a pre ih => simp only [List.cons_append, List.length_cons, List.set_cons_succ, ih]

theorem writeAt_front (pre : List Int) (x v : Int) (tl : List Int) :
    writeAt (pre ++ x :: tl) (pre.length : Int) v = some (pre ++ v :: tl) := by
  have h : (0 : Int) ≤ (pre.length : Int) ∧
      ((pre.length : Int)).toNat < (pre ++ x :: tl).length := by
    constructor
    · omega
    · simp only [Int.toNat_ofNat, List.length_append, List.length_cons]; omega
  unfold writeAt
  rw [if_pos h, Int.toNat_ofNat, set_at_front]

/-- The shift loop moves `k` entries one place down. -/
theorem pollShift_spec : ∀ (k : Nat) (pre : List Int) (x : Int) (tl : List Int),
    k ≤ tl.length →
    pollShift k pre.length (pre ++ x :: tl) = some (pre ++ (tl.take k ++ (x :: tl).drop k)) := by
  intro k
  induction k with
  | zero => intro pre x tl _; simp [pollShift]
  | succ k ih =>
    intro pre x tl hk
    cases tl with
    | nil => simp at hk
    | cons y tl =>
      simp only [List.length_cons] at hk
      have hw := writeAt_front pre x y (y :: tl)
      simp only [pollShift, get_after_front, List.getElem?_cons_zero, hw]
      have := ih (pre ++ [y]) y tl (by omega)
      simp only [List.length_append, List.length_singleton, List.append_assoc,
        List.singleton_append] at this
      rw [this]
      simp

theorem mainShift_eq : ∀ (k j : Nat) (jobs : List Int), mainShift k j jobs = pollShift k j jobs := by
  intro k
  induction k with
  | zero => intro j jobs; rfl
  | succ k ih =>
    intro j jobs
    simp only [mainShift, pollShift, ih]

theorem mainRemoveLoop_eq (pid : Int) (t : JobTable) : ∀ (k i : Nat),
    mainRemoveLoop pid t k i = pollRemoveLoop pid t k i := by
  intro k
  induction k with
  | zero => intro i; rfl
  | succ k ih =>
    intro i
    simp only [mainRemoveLoop, pollRemoveLoop, ih, mainShift_eq]

theorem mainRemove_eq (pid : Int) (t : JobTable) : mainRemove pid t = pollRemove pid t :=
  mainRemoveLoop_eq pid t _ _

theorem seq_of_split {t : JobTable} {pre rest : List Int} {k : Nat}
    (hj : t.jobs = pre ++ rest) (hc : t.job_count = (pre.length : Int) + k) :
    t.seq = pre ++ rest.take k := by
  have : t.job_count.toNat = pre.length + k := by omega
  simp only [JobTable.seq, this, hj, List.take_append]

/-- The search loop of the removal, from the index `pre.length` on. -/
theorem pollRemoveLoop_spec (pid : Int) (t : JobTable) : ∀ (k : Nat) (pre rest : List Int),
    t.jobs = pre ++ rest → pid ∉ pre → t.job_count = (pre.length : Int) + k →
    k ≤ rest.length →
    ∃ t1, pollRemoveLoop pid t k pre.length = some t1 ∧ t1.seq = t.seq.erase pid ∧
      t1.jobs.length = t.jobs.length ∧ (pid ∈ t.seq → t1.job_count = t.job_count - 1) ∧
      (pid ∉ t.seq → t1 = t) := by
  intro k
  induction k with
  | zero =>
    intro pre rest hj hp hc _
    have hseq : t.seq = pre := by
      rw [seq_of_split hj hc]; simp
    refine ⟨t, rfl, ?_, rfl, ?_, fun _ => rfl⟩
    · rw [hseq, List.erase_of_not_mem hp]
    · intro h
      rw [hseq] at h
      exact absurd h hp
  | succ k ih =>
    intro pre rest hj hp hc hk
    cases rest with
    | nil => simp at hk
    | cons x rest =>
      simp only [List.length_cons] at hk
      have hseq : t.seq = pre ++ x :: rest.take k := by
        rw [seq_of_split hj hc]; rfl
      have hget : t.jobs[pre.length]? = some x := by rw [hj]; exact get_at_front pre x rest
      by_cases hx : x = pid
      · subst hx
        have hrounds : (t.job_count - 1 - (pre.length : Int)).toNat = k := by omega
        have hshift := pollShift_spec k pre x rest (by omega)
        refine ⟨⟨pre ++ (rest.take k ++ (x :: rest).drop k), t.job_count - 1⟩, ?_, ?_, ?_,
          fun _ => rfl, ?_⟩
        · simp only [pollRemoveLoop, hget, beq_self_eq_true, if_true, hrounds]
          rw [hj, hshift]
        · have hn : (t.job_count - 1).toNat = pre.length + k := by omega
          have hlen : (rest.take k).length = k := by
            rw [List.length_take]; omega
          rw [hseq, List.erase_append_right _ hp, List.erase_cons_head]
          simp only [JobTable.seq, hn, List.take_append]
          rw [List.take_left' hlen]
        · rw [hj]
          simp only [List.length_append, List.length_take, List.length_drop, List.length_cons]
          omega
        · intro h
          rw [hseq] at h
          exact absurd (List.mem_append_right _ (List.mem_cons_self _ _)) h
      · have hne : (x == pid) = false := by simpa using hx
        have hp2 : pid ∉ pre ++ [x] := by
          simp only [List.mem_append, List.mem_singleton, not_or]
          exact ⟨hp, fun e => hx e.symm⟩
        obtain ⟨t1, h1, h2⟩ := ih (pre ++ [x]) rest (by rw [hj]; simp) hp2
          (by simp only [List.length_append, List.length_singleton]; omega) (by omega)
        refine ⟨t1, ?_, h2⟩
        simp only [pollRemoveLoop, hget, hne, Bool.false_eq_true, if_false]
        simp only [List.length_append, List.length_singleton] at h1
        exact h1

/-- The removal of a pid from a table with `0 ≤ job_count ≤ NPROC`. -/
theorem pollRemove_spec (pid : Int) (t : JobTable) (h0 : 0 ≤ t.job_count)
    (hN : t.job_count ≤ t.jobs.length) :
    ∃ t1, pollRemove pid t = some t1 ∧ t1.seq = t.seq.erase pid ∧
      t1.jobs.length = t.jobs.length ∧ (pid ∈ t.seq → t1.job_count = t.job_count - 1) ∧
      (pid ∉ t.seq → t1 = t) := by
  have := pollRemoveLoop_spec pid t t.job_count.toNat [] t.jobs rfl (List.not_mem_nil _)
    (by simp only [List.length_nil]; omega) (by omega)
  exact this

/-- After a removal the count is still between 0 and the length of the array. -/
theorem pollRemove_bounds (pid : Int) (t t1 : JobTable) (h0 : 0 ≤ t.job_count)
    (hN : t.job_count ≤ t.jobs.length) (h : pollRemove pid t = some t1) :
    0 ≤ t1.job_count ∧ t1.job_count ≤ t1.jobs.length ∧ t1.jobs.length = t.jobs.length := by
  obtain ⟨t2, h2, hseq, hlen, hin, hout⟩ := pollRemove_spec pid t h0 hN
  rw [h2] at h
  cases h
  by_cases hp : pid ∈ t.seq
  · have hc := hin hp
    have hpos : 0 < t.job_count.toNat := by
      cases hn : t.job_count.toNat with
      | zero => simp [JobTable.seq, hn] at hp
      | succ n => omega
    omega
  · rw [hout hp]
    exact ⟨h0, hN, rfl⟩

/-! ## Registration of jobs -/

/-- The registration when the table is not full. -/
theorem add_job_spec (NPROC : Nat) (pid : Int) (t : JobTable) (hlen : t.jobs.length = NPROC)
    (h0 : 0 ≤ t.job_count) (hlt : t.job_count < NPROC) :
    ∃ t1, add_job NPROC pid t = some t1 ∧ t1.seq = t.seq ++ [pid] ∧
      t1.job_count = t.job_count + 1 ∧ t1.jobs.length = NPROC := by
  have hn : t.job_count.toNat < t.jobs.length := by omega
  have hw : (0 : Int) ≤ t.job_count ∧ t.job_count.toNat < t.jobs.length := ⟨h0, hn⟩
  refine ⟨⟨t.jobs.set t.job_count.toNat pid, t.job_count + 1⟩, ?_, ?_, rfl, ?_⟩
  · unfold add_job writeAt
    rw [if_pos hlt, if_pos hw]
  · obtain ⟨pre, x, tl, hj, hpl⟩ : ∃ pre x tl, t.jobs = pre ++ x :: tl ∧
        pre.length = t.job_count.toNat := by
      refine ⟨t.jobs.take t.job_count.toNat, t.jobs[t.job_count.toNat],
        t.jobs.drop (t.job_count.toNat + 1), ?_, ?_⟩
      · rw [← List.drop_eq_getElem_cons hn, List.take_append_drop]
      · rw [List.length_take]; omega
    have hc : (t.job_count + 1).toNat = pre.length + 1 := by omega
    simp only [JobTable.seq, hc]
    rw [← hpl, hj, set_at_front, List.take_append, List.take_left' rfl]
    simp
  · simp only [List.length_set, hlen]

/-- A full table is left as it is. -/
theorem add_job_full (NPROC : Nat) (pid : Int) (t : JobTable) (h : t.job_count = NPROC) :
    add_job NPROC pid t = some t := by
  unfold add_job
  rw [if_neg (by omega)]

/-- Every operation keeps the count between 0 and `NPROC` and stays inside
the array. -/
theorem run_bounds (NPROC : Nat) (op : JobOp) (t : JobTable) (hlen : t.jobs.length = NPROC)
    (h0 : 0 ≤ t.job_count) (hN : t.job_count ≤ NPROC) :
    ∃ t1, op.run NPROC t = some t1 ∧ t1.jobs.length = NPROC ∧ 0 ≤ t1.job_count ∧
      t1.job_count ≤ NPROC := by
  have hN2 : t.job_count ≤ t.jobs.length := by omega
  cases op with
  | add pid =>
    by_cases hlt : t.job_count < NPROC
    · obtain ⟨t1, h1, _, h3, h4⟩ := add_job_spec NPROC pid t hlen h0 hlt
      exact ⟨t1, h1, h4, by omega, by omega⟩
    · exact ⟨t, add_job_full NPROC pid t (by omega), hlen, h0, hN⟩
  | reapPoll pid =>
    obtain ⟨t1, h1, _⟩ := pollRemove_spec pid t h0 hN2
    obtain ⟨b1, b2, b3⟩ := pollRemove_bounds pid t t1 h0 hN2 h1
    exact ⟨t1, h1, by omega, b1, by omega⟩
  | reapMain pid =>
    obtain ⟨t1, h1, _⟩ := pollRemove_spec pid t h0 hN2
    obtain ⟨b1, b2, b3⟩ := pollRemove_bounds pid t t1 h0 hN2 h1
    exact ⟨t1, (mainRemove_eq pid t).trans h1, by omega, b1, by omega⟩

theorem runOps_bounds (NPROC : Nat) : ∀ (ops : List JobOp) (t : JobTable),
    t.jobs.length = NPROC → 0 ≤ t.job_count → t.job_count ≤ NPROC →
    ∃ t1, runOps NPROC ops t = some t1 ∧ t1.jobs.length = NPROC ∧ 0 ≤ t1.job_count ∧
      t1.job_count ≤ NPROC := by
  intro ops
  induction ops with
  | nil => intro t hlen h0 hN; exact ⟨t, rfl, hlen, h0, hN⟩
  | cons op ops ih =>
    intro t hlen h0 hN
    obtain ⟨t1, h1, a1, a2, a3⟩ := run_bounds NPROC op t hlen h0 hN
    obtain ⟨t2, h2, b⟩ := ih t1 a1 a2 a3
    refine ⟨t2, ?_, b⟩
    simp only [runOps, h1, h2]

/-! ## The claims about the job table -/

/-- C18: reaping removes a job by value.  For a job table with
`0 ≤ job_count ≤ NPROC` and any pid, the removal code of
`poll_background_jobs` and the removal code of the foreground wait loop of
`main` both end inside the array with the same table: its sequence of jobs is
the old one with the first occurrence of the pid deleted and all other entries
in their order; when the pid occurs, `job_count` is one less; when it does not
occur, the table and `job_count` are unchanged.  This is the table that
`poll_background_jobs` leaves when `wait_noblock` hands it the pid, and that
the wait loop of `main` leaves when `wait_noblock` hands it the pid and then
the foreground child. -/
theorem reap_removes_by_value (t : JobTable) (pid : Int) (h0 : 0 ≤ t.job_count)
    (hN : t.job_count ≤ t.jobs.length) :
    ∃ t1, pollRemove pid t = some t1 ∧ mainRemove pid t = some t1 ∧
      t1.seq = t.seq.erase pid ∧ t1.jobs.length = t.jobs.length ∧
      (pid ∈ t.seq → t1.job_count = t.job_count - 1 ∧
        ∃ a b, t.seq = a ++ pid :: b ∧ pid ∉ a ∧ t1.seq = a ++ b) ∧
      (pid ∉ t.seq → t1 = t) ∧
      (0 < pid → poll_background_jobs [pid] t = some t1) ∧
      (∀ child_pid, 0 < pid → pid ≠ child_pid →
        foregroundWait child_pid [pid, child_pid] t = some t1) := by
  obtain ⟨t1, h1, hseq, hlen, hin, hout⟩ := pollRemove_spec pid t h0 hN
  have h2 : mainRemove pid t = some t1 := (mainRemove_eq pid t).trans h1
  refine ⟨t1, h1, h2, hseq, hlen, ?_, hout, ?_, ?_⟩
  · intro hp
    refine ⟨hin hp, ?_⟩
    obtain ⟨a, b, ha, hab, he⟩ := List.exists_erase_eq hp
    exact ⟨a, b, hab, ha, by rw [hseq, he]⟩
  · intro hpos
    have : (pid > 0) = True := by simpa using hpos
    simp only [poll_background_jobs, this, if_true, h1]
  · intro child_pid hpos hne
    have hpos2 : (pid > 0) = True := by simpa using hpos
    have hne2 : (pid == child_pid) = false := by simpa using hne
    simp only [foregroundWait, hne2, Bool.false_eq_true, if_false, hpos2, if_true, h2,
      beq_self_eq_true]

/-- C18, an instance: pid 7 is reaped from the jobs 5, 7, 9. -/
theorem reap_removes_by_value_witness :
    ∃ t1, pollRemove 7 ⟨[5, 7, 9, 0], 3⟩ = some t1 ∧ mainRemove 7 ⟨[5, 7, 9, 0], 3⟩ = some t1 ∧
      t1.seq = [5, 9] := by
  obtain ⟨t1, h1, h2, h3, _⟩ := reap_removes_by_value ⟨[5, 7, 9, 0], 3⟩ 7 (by decide) (by decide)
  exact ⟨t1, h1, h2, h3⟩

/-- C19 (amended): registering a background job.  For a job table with
`0 ≤ job_count`: when `job_count < NPROC`, `add_job(pid)` writes inside
the array and yields the old sequence with the pid appended at the end, and
`job_count` one more; when the table is full (`job_count = NPROC`) it leaves the
table as it is and the pid is not registered.  Every sequence of `add_job`s
and removals, starting from the empty table, stays inside the array and keeps
`0 ≤ job_count ≤ NPROC`. -/
theorem add_job_appends (NPROC : Nat) (t : JobTable) (pid : Int) (hlen : t.jobs.length = NPROC)
    (h0 : 0 ≤ t.job_count) :
    (t.job_count < NPROC →
      ∃ t1, add_job NPROC pid t = some t1 ∧ t1.seq = t.seq ++ [pid] ∧
        t1.job_count = t.job_count + 1 ∧ t1.jobs.length = NPROC) ∧
    (t.job_count = NPROC → add_job NPROC pid t = some t) ∧
    (∀ ops, ∃ t1, runOps NPROC ops (emptyTable NPROC) = some t1 ∧ t1.jobs.length = NPROC ∧
      0 ≤ t1.job_count ∧ t1.job_count ≤ NPROC) := by
  refine ⟨add_job_spec NPROC pid t hlen h0, add_job_full NPROC pid t, ?_⟩
  intro ops
  exact runOps_bounds NPROC ops (emptyTable NPROC) (by simp [emptyTable]) (Int.le_refl _)
    (by simp [emptyTable])

/-- C19, an instance: the first job registered in a table of 64 entries. -/
theorem add_job_appends_witness :
    ∃ t1, add_job 64 3 (emptyTable 64) = some t1 ∧ t1.seq = [3] ∧ t1.job_count = 1 := by
  obtain ⟨t1, h1, h2, h3, _⟩ :=
    (add_job_appends 64 (emptyTable 64) 3 (by decide) (by decide)).1 (by decide)
  exact ⟨t1, h1, h2, h3⟩

/-- C19, the counterexample to the claim as written: with `NPROC = 64` (the
value in xv6) and a table that holds 64 jobs, `add_job(7)` changes nothing:
the sequence is not the old one with 7 appended, and `job_count` is not one
more.  Such a table comes from the empty one by 64 registrations: of the
pids 1 to 65, registered in this order, the table holds 1 to 64. -/
theorem add_job_full_table_drops :
    add_job 64 7 ⟨List.replicate 64 1, 64⟩ = some ⟨List.replicate 64 1, 64⟩ ∧
    JobTable.seq ⟨List.replicate 64 1, 64⟩ ≠ JobTable.seq ⟨List.replicate 64 1, 64⟩ ++ [7] ∧
    (runOps 64 ((List.range 65).map fun i => JobOp.add (i + 1)) (emptyTable 64)).map
      JobTable.seq = some ((List.range 64).map fun i => ((i : Int) + 1)) := by
  refine ⟨rfl, ?_, by decide⟩
  intro h
  have := congrArg List.length h
  simp [JobTable.seq] at this

/-! ## Tokens of a text with whitespace put in -/

theorem skipws_append_ne {s : List Char} (hs : skipws s ≠ []) (t : List Char) :
    skipws (s ++ t) = skipws s ++ t := by
  induction s with
  | nil => exact absurd rfl hs
  | cons a s ih =>
    by_cases ha : strchr whitespace a = true
    · rw [skipws_cons_ws ha] at hs
      rw [List.cons_append, skipws_cons_ws ha, skipws_cons_ws ha, ih hs]
    · simp only [Bool.not_eq_true] at ha
      rw [List.cons_append, skipws_cons ha, skipws_cons ha]; rfl

theorem skipws_append_nil {s : List Char} (hs : skipws s = []) (t : List Char) :
    skipws (s ++ t) = skipws t := by
  induction s with
  | nil => rfl
  | cons a s ih =>
    by_cases ha : strchr whitespace a = true
    · rw [skipws_cons_ws ha] at hs
      rw [List.cons_append, skipws_cons_ws ha, ih hs]
    · simp only [Bool.not_eq_true] at ha
      rw [skipws_cons ha] at hs
      cases hs

theorem ws_char_facts {d : Char} (hd : whitespace.contains d = true) :
    strchr whitespace d = true ∧ wordChar d = false ∧ (d == '>') = false := by
  simp only [whitespace, List.contains_cons, List.contains_nil, Bool.or_false, Bool.or_eq_true,
    beq_iff_eq] at hd
  rcases hd with h | h | h | h | h <;> subst h <;> decide

/-- The token read in front of a whitespace character is the token read
without it. -/
theorem gettoken_append_ws {d : Char} (hd : whitespace.contains d = true)
    (r s : List Char) (hs : skipws s ≠ []) :
    gettoken (s ++ d :: r) =
      ⟨(gettoken s).ret, (gettoken s).q ++ d :: r, (gettoken s).eq ++ d :: r,
        skipws ((gettoken s).eq ++ d :: r)⟩ := by
  obtain ⟨hdws, hdw, hdgt⟩ := ws_char_facts hd
  obtain ⟨c, s1, hs0⟩ := List.exists_cons_of_ne_nil hs
  have hsk : skipws (s ++ d :: r) = c :: (s1 ++ d :: r) := by
    rw [skipws_append_ne hs, hs0]; rfl
  have hword : skipword (c :: (s1 ++ d :: r)) = skipword (c :: s1) ++ d :: r := by
    rw [← List.cons_append, skipword_append_stop hdw]
  have hcn : (c == NUL) = false := ne_NUL_of_strchr (skipws_head hs0)
  simp only [gettoken, hsk, hs0, deref, List.headD_cons, List.tail_cons, hcn,
    Bool.false_eq_true, if_false]
  by_cases h1 : (c == '|' || c == '(' || c == ')' || c == ';' || c == '&' || c == '<') = true
  · simp only [h1, if_true]
    rfl
  · simp only [h1, if_false]
    by_cases h2 : (c == '>') = true
    · simp only [h2, if_true]
      cases s1 with
      | nil =>
        have h3 : (NUL == '>') = false := by decide
        simp only [List.nil_append, List.headD_cons, hdgt, List.headD_nil, h3,
          Bool.false_eq_true, if_false, List.tail_cons]
        rfl
      | cons x xs =>
        simp only [List.cons_append, List.headD_cons, List.tail_cons]
        by_cases h3 : (x == '>') = true
        · simp only [h3, if_true]
          rfl
        · simp only [h3, if_false]
          rfl
    · simp only [h2, if_false, hword]
      rfl

theorem lex_nil_iff (s : List Char) : lex s = [] ↔ skipws s = [] := by
  constructor
  · intro h
    by_contra hne
    rw [lex_step hne] at h
    cases h
  · exact lex_of_skipws_nil

/-- Whitespace put between two texts: the tokens are those of the first
followed by those of the second. -/
theorem lex_append_ws {d : Char} (hd : whitespace.contains d = true) (r : List Char) :
    ∀ (n : Nat) (a : List Char), a.length ≤ n → lex (a ++ d :: r) = lex a ++ lex r := by
  intro n
  induction n with
  | zero =>
    intro a ha
    have : a = [] := List.length_eq_zero.mp (by omega)
    subst this
    rw [List.nil_append, ← lex_skipws, skipws_cons_ws (ws_char_facts hd).1, lex_skipws]
    rfl
  | succ n ih =>
    intro a ha
    by_cases hs : skipws a = []
    · rw [lex_of_skipws_nil hs, ← lex_skipws, skipws_append_nil hs,
        skipws_cons_ws (ws_char_facts hd).1, lex_skipws]
      rfl
    · have hne : skipws (a ++ d :: r) ≠ [] := by
        rw [skipws_append_ne hs]
        obtain ⟨c, s1, hs0⟩ := List.exists_cons_of_ne_nil hs
        rw [hs0]; exact List.cons_ne_nil _ _
      have hlt := gettoken_eq_lt hs
      have hle := (skipws_suffix a).length_le
      rw [lex_step hne, lex_step hs, gettoken_append_ws hd r a hs]
      simp only [List.cons_append]
      rw [lex_skipws, ih _ (by omega), gettoken_ps, lex_skipws]
      have := spanText_shift ((gettoken a).q, (gettoken a).eq) (d :: r)
      simp only at this
      rw [this]

/-- Whitespace put in at a place that is not inside a token leaves the tokens
as they are. -/
theorem lex_insert (a b g : List Char) (hg : blank g = true) (hb : tokenBoundary a b = true) :
    lex (a ++ (g ++ b)) = lex (a ++ b) := by
  have hb2 : lex (a ++ b) = lex a ++ lex b := by simpa [tokenBoundary] using hb
  cases g with
  | nil => rfl
  | cons d g =>
    simp only [blank, List.all_cons, Bool.and_eq_true] at hg
    rw [hb2, List.cons_append, lex_append_ws hg.1 _ _ a (Nat.le_refl _), ← lex_skipws (g ++ b),
      skipws_blank_append _ _ (by simpa [blank] using hg.2), lex_skipws]

theorem lex_Spaced {s s2 : List Char} (h : Spaced s s2) : lex s2 = lex s := by
  induction h with
  | refl => rfl
  | ins a b g _ hg hb ih => rw [lex_insert a b g hg hb, ih]

theorem noNUL_Spaced {s s2 : List Char} (h : Spaced s s2) (hs : noNUL s = true) :
    noNUL s2 = true := by
  induction h with
  | refl => exact hs
  | ins a b g _ hg _ ih =>
    simp only [noNUL_append, Bool.and_eq_true] at ih ⊢
    exact ⟨ih.1, noNUL_blank g hg, ih.2⟩

/-! ## The parser sees only the tokens -/

theorem spanText_head {s : List Char} {c : Char} {s1 : List Char} (hs : skipws s = c :: s1) :
    ∃ w, spanText ((gettoken s).q, (gettoken s).eq) = c :: w := by
  have hlt := gettoken_eq_lt (s := s) (by rw [hs]; exact List.cons_ne_nil _ _)
  rw [hs] at hlt
  simp only [spanText, gettoken_q, hs, List.length_cons] at hlt ⊢
  obtain ⟨k, hk⟩ : ∃ k, s1.length + 1 - (gettoken s).eq.length = k + 1 :=
    ⟨s1.length - (gettoken s).eq.length, by omega⟩
  rw [hk, List.take_succ_cons]
  exact ⟨_, rfl⟩

theorem deref_skipws_congr {s s2 : List Char} (h : lex s = lex s2) :
    deref (skipws s) = deref (skipws s2) := by
  cases hs : skipws s with
  | nil =>
    have : skipws s2 = [] := (lex_nil_iff s2).mp (by rw [← h]; exact lex_of_skipws_nil hs)
    rw [this]
  | cons c s1 =>
    have hne : skipws s ≠ [] := by rw [hs]; exact List.cons_ne_nil _ _
    have hne2 : skipws s2 ≠ [] := by
      intro e
      rw [lex_of_skipws_nil e] at h
      exact hne ((lex_nil_iff s).mp h)
    obtain ⟨c2, s3, hs2⟩ := List.exists_cons_of_ne_nil hne2
    rw [lex_step hne, lex_step hne2] at h
    simp only [List.cons.injEq, Prod.mk.injEq] at h
    obtain ⟨w, hw⟩ := spanText_head hs
    obtain ⟨w2, hw2⟩ := spanText_head hs2
    rw [hw, hw2] at h
    simp only [List.cons.injEq] at h
    rw [hs2, h.1.2.1]
    rfl

theorem peek_congr {s s2 : List Char} (h : lex s = lex s2) (toks : List Char) :
    (peek s toks).1 = (peek s2 toks).1 ∧ lex (peek s toks).2 = lex (peek s2 toks).2 := by
  constructor
  · simp only [peek, deref_skipws_congr h]
  · rw [peek_snd, peek_snd, lex_skipws, lex_skipws]; exact h

theorem gettoken_congr {s s2 : List Char} (h : lex s = lex s2) :
    (gettoken s).ret = (gettoken s2).ret ∧
    spanText ((gettoken s).q, (gettoken s).eq) = spanText ((gettoken s2).q, (gettoken s2).eq) ∧
    lex (gettoken s).ps = lex (gettoken s2).ps := by
  by_cases hs : skipws s = []
  · have hs2 : skipws s2 = [] := (lex_nil_iff s2).mp (by rw [← h]; exact lex_of_skipws_nil hs)
    rw [gettoken_nil_of_skipws hs, gettoken_nil_of_skipws hs2]
    exact ⟨rfl, rfl, rfl⟩
  · have hne2 : skipws s2 ≠ [] := by
      intro e
      rw [lex_of_skipws_nil e] at h
      exact hs ((lex_nil_iff s).mp h)
    rw [lex_step hs, lex_step hne2] at h
    simp only [List.cons.injEq, Prod.mk.injEq] at h
    exact ⟨h.1.1, h.1.2, h.2⟩

theorem SameOut_ok {c c2 : Cmd} {s s2 : List Char} (h1 : c.resolve = c2.resolve)
    (h2 : lex s = lex s2) : SameOut (.ok (c, s)) (.ok (c2, s2)) := ⟨h1, h2⟩

theorem SameOut_panic (m : String) : SameOut (.panic m) (.panic m) := rfl

theorem SameOut_nofuel : SameOut .nofuel .nofuel := trivial

theorem SameOut_cases {r r2 : Res (Cmd × List Char)} (h : SameOut r r2) :
    (∃ c s c2 s2, r = .ok (c, s) ∧ r2 = .ok (c2, s2) ∧ c.resolve = c2.resolve ∧
      lex s = lex s2) ∨
    (∃ m, r = .panic m ∧ r2 = .panic m) ∨ (r = .nofuel ∧ r2 = .nofuel) := by
  cases r with
  | ok a =>
    obtain ⟨c, s⟩ := a
    cases r2 with
    | ok b =>
      obtain ⟨c2, s2⟩ := b
      exact Or.inl ⟨c, s, c2, s2, rfl, rfl, h.1, h.2⟩
    | panic m => exact absurd h id
    | nofuel => exact absurd h id
  | panic m =>
    cases r2 with
    | ok b => exact absurd h id
    | panic m2 =>
      have : m = m2 := h
      subst this
      exact Or.inr (Or.inl ⟨m, rfl, rfl⟩)
    | nofuel => exact absurd h id
  | nofuel =>
    cases r2 with
    | ok b => exact absurd h id
    | panic m2 => exact absurd h id
    | nofuel => exact Or.inr (Or.inr ⟨rfl, rfl⟩)

theorem parseredirs_sim : ∀ (n : Nat) (cmd cmd2 : Cmd) (s s2 : List Char),
    cmd.resolve = cmd2.resolve → lex s = lex s2 →
    SameOut (parseredirs n cmd s) (parseredirs n cmd2 s2) := by
  intro n
  induction n with
  | zero => intro _ _ _ _ _ _; exact SameOut_nofuel
  | succ n ih =>
    intro cmd cmd2 s s2 hc hl
    obtain ⟨hp1, hp2⟩ := peek_congr hl ['<', '>']
    obtain ⟨ht1, _, ht3⟩ := gettoken_congr hp2
    obtain ⟨hf1, hf2, hf3⟩ := gettoken_congr ht3
    simp only [parseredirs]
    rw [hp1, ht1, hf1]
    split_ifs
    · exact SameOut_panic _
    · exact ih _ _ _ _ (by simp only [Cmd.resolve, hc, hf2]) hf3
    · exact ih _ _ _ _ (by simp only [Cmd.resolve, hc, hf2]) hf3
    · exact ih _ _ _ _ (by simp only [Cmd.resolve, hc, hf2]) hf3
    · exact ih _ _ _ _ hc hf3
    · exact SameOut_ok hc hp2

theorem parseexecLoop_sim : ∀ (n : Nat) (ret ret2 : Cmd) (argc : Nat) (s s2 : List Char),
    ret.resolve = ret2.resolve → lex s = lex s2 →
    SameOut (parseexecLoop n ret argc s) (parseexecLoop n ret2 argc s2) := by
  intro n
  induction n with
  | zero => intro _ _ _ _ _ _ _; exact SameOut_nofuel
  | succ n ih =>
    intro ret ret2 argc s s2 hc hl
    obtain ⟨hp1, hp2⟩ := peek_congr hl ['|', ')', '&', ';']
    obtain ⟨ht1, ht2, ht3⟩ := gettoken_congr hp2
    simp only [parseexecLoop]
    rw [hp1, ht1]
    split_ifs
    · exact SameOut_ok hc ht3
    · exact SameOut_panic _
    · exact SameOut_panic _
    · have h := parseredirs_sim (n + 1)
        (ret.pushArg ((gettoken (peek s ['|', ')', '&', ';']).2).q,
          (gettoken (peek s ['|', ')', '&', ';']).2).eq))
        (ret2.pushArg ((gettoken (peek s2 ['|', ')', '&', ';']).2).q,
          (gettoken (peek s2 ['|', ')', '&', ';']).2).eq))
        _ _ (by rw [resolve_pushArg, resolve_pushArg, hc, ht2]) ht3
      rcases SameOut_cases h with ⟨c, t, c2, t2, e1, e2, hr, hlx⟩ | ⟨m, e1, e2⟩ | ⟨e1, e2⟩
      · rw [e1, e2]; exact ih _ _ _ _ _ hr hlx
      · rw [e1, e2]; exact SameOut_panic _
      · rw [e1, e2]; exact SameOut_nofuel
    · exact SameOut_ok hc hp2

theorem parseblock_sim (pl pl2 : List Char → Res (Cmd × List Char)) (hsim : Sim pl pl2)
    (n : Nat) (s s2 : List Char) (hl : lex s = lex s2) :
    SameOut (parseblock pl n s) (parseblock pl2 n s2) := by
  obtain ⟨hp1, hp2⟩ := peek_congr hl ['(']
  obtain ⟨_, _, ht3⟩ := gettoken_congr hp2
  simp only [parseblock]
  rw [hp1]
  split_ifs
  · exact SameOut_panic _
  · rcases SameOut_cases (hsim _ _ ht3) with
      ⟨c, t, c2, t2, e1, e2, hr, hlx⟩ | ⟨m, e1, e2⟩ | ⟨e1, e2⟩
    · rw [e1, e2]
      obtain ⟨hq1, hq2⟩ := peek_congr hlx [')']
      obtain ⟨_, _, hu3⟩ := gettoken_congr hq2
      simp only
      rw [hq1]
      split_ifs
      · exact SameOut_panic _
      · exact parseredirs_sim n _ _ _ _ hr hu3
    · rw [e1, e2]; exact SameOut_panic _
    · rw [e1, e2]; exact SameOut_nofuel

theorem parseexec_sim (pl pl2 : List Char → Res (Cmd × List Char)) (hsim : Sim pl pl2)
    (n : Nat) (s s2 : List Char) (hl : lex s = lex s2) :
    SameOut (parseexec pl n s) (parseexec pl2 n s2) := by
  obtain ⟨hp1, hp2⟩ := peek_congr hl ['(']
  simp only [parseexec]
  rw [hp1]
  split_ifs
  · exact parseblock_sim pl pl2 hsim n _ _ hp2
  · rcases SameOut_cases (parseredirs_sim n (.exec []) (.exec []) _ _ rfl hp2) with
      ⟨c, t, c2, t2, e1, e2, hr, hlx⟩ | ⟨m, e1, e2⟩ | ⟨e1, e2⟩
    · rw [e1, e2]; exact parseexecLoop_sim n _ _ 0 _ _ hr hlx
    · rw [e1, e2]; exact SameOut_panic _
    · rw [e1, e2]; exact SameOut_nofuel

theorem parsepipe_sim (pl pl2 : List Char → Res (Cmd × List Char)) (hsim : Sim pl pl2) :
    ∀ (n : Nat) (s s2 : List Char), lex s = lex s2 →
    SameOut (parsepipe pl n s) (parsepipe pl2 n s2) := by
  intro n
  induction n with
  | zero => intro _ _ _; exact SameOut_nofuel
  | succ n ih =>
    intro s s2 hl
    rw [parsepipe, parsepipe]
    rcases SameOut_cases (parseexec_sim pl pl2 hsim (n + 1) s s2 hl) with
      ⟨c, t, c2, t2, e1, e2, hr, hlx⟩ | ⟨m, e1, e2⟩ | ⟨e1, e2⟩
    · rw [e1, e2]
      obtain ⟨hq1, hq2⟩ := peek_congr hlx ['|']
      obtain ⟨_, _, hu3⟩ := gettoken_congr hq2
      simp only
      rw [hq1]
      split_ifs
      · rcases SameOut_cases (ih _ _ hu3) with
          ⟨c3, t3, c4, t4, e3, e4, hr2, hlx2⟩ | ⟨m, e3, e4⟩ | ⟨e3, e4⟩
        · rw [e3, e4]; exact SameOut_ok (by simp only [Cmd.resolve, hr, hr2]) hlx2
        · rw [e3, e4]; exact SameOut_panic _
        · rw [e3, e4]; exact SameOut_nofuel
      · exact SameOut_ok hr hq2
    · rw [e1, e2]; exact SameOut_panic _
    · rw [e1, e2]; exact SameOut_nofuel

theorem parselineBack_sim : ∀ (n : Nat) (cmd cmd2 : Cmd) (s s2 : List Char),
    cmd.resolve = cmd2.resolve → lex s = lex s2 →
    SameOut (parselineBack n cmd s) (parselineBack n cmd2 s2) := by
  intro n
  induction n with
  | zero => intro _ _ _ _ _ _; exact SameOut_nofuel
  | succ n ih =>
    intro cmd cmd2 s s2 hc hl
    obtain ⟨hp1, hp2⟩ := peek_congr hl ['&']
    obtain ⟨_, _, ht3⟩ := gettoken_congr hp2
    simp only [parselineBack]
    rw [hp1]
    split_ifs
    · exact ih _ _ _ _ (by simp only [Cmd.resolve, hc]) ht3
    · exact SameOut_ok hc hp2

theorem parseline_sim : ∀ (n : Nat), Sim (parseline n) (parseline n) := by
  intro n
  induction n with
  | zero => intro _ _ _; exact SameOut_nofuel
  | succ n ih =>
    intro s s2 hl
    rw [parseline, parseline]
    rcases SameOut_cases (parsepipe_sim _ _ ih (n + 1) s s2 hl) with
      ⟨c, t, c2, t2, e1, e2, hr, hlx⟩ | ⟨m, e1, e2⟩ | ⟨e1, e2⟩
    · rw [e1, e2]
      simp only
      rcases SameOut_cases (parselineBack_sim (n + 1) c c2 t t2 hr hlx) with
        ⟨c3, t3, c4, t4, e3, e4, hr2, hlx2⟩ | ⟨m, e3, e4⟩ | ⟨e3, e4⟩
      · rw [e3, e4]
        obtain ⟨hq1, hq2⟩ := peek_congr hlx2 [';']
        obtain ⟨_, _, hu3⟩ := gettoken_congr hq2
        simp only
        rw [hq1]
        split_ifs
        · rcases SameOut_cases (ih _ _ hu3) with
            ⟨c5, t5, c6, t6, e5, e6, hr3, hlx3⟩ | ⟨m, e5, e6⟩ | ⟨e5, e6⟩
          · rw [e5, e6]; exact SameOut_ok (by simp only [Cmd.resolve, hr2, hr3]) hlx3
          · rw [e5, e6]; exact SameOut_panic _
          · rw [e5, e6]; exact SameOut_nofuel
        · exact SameOut_ok hr2 hq2
      · rw [e3, e4]; exact SameOut_panic _
      · rw [e3, e4]; exact SameOut_nofuel
    · rw [e1, e2]; exact SameOut_panic _
    · rw [e1, e2]; exact SameOut_nofuel

/-! ## The claim about whitespace -/

/-- Lines with the same tokens have the same outcome of `parsecmd`, read as
a tree of words. -/
theorem parseTree_lex_congr (buf buf2 : List Char) (h : lex (cstr buf) = lex (cstr buf2)) :
    parseTree buf = parseTree buf2 := by
  have f1 := parseline_fuel ((cstr buf).length + 1)
    (max (cstr buf).length (cstr buf2).length + 1) (by omega) (cstr buf)
    (parseline_total _ _ (by omega))
  have f2 := parseline_fuel ((cstr buf2).length + 1)
    (max (cstr buf).length (cstr buf2).length + 1) (by omega) (cstr buf2)
    (parseline_total _ _ (by omega))
  have hsim := parseline_sim (max (cstr buf).length (cstr buf2).length + 1) _ _ h
  rw [f1, f2] at hsim
  simp only [parseTree, parsecmd]
  rcases SameOut_cases hsim with ⟨c, t, c2, t2, e1, e2, hr, hlx⟩ | ⟨m, e1, e2⟩ | ⟨e1, e2⟩
  · rw [e1, e2]
    simp only [peek_snd]
    by_cases ht : skipws t = []
    · have ht2 : skipws t2 = [] :=
        (lex_nil_iff t2).mp (by rw [← hlx]; exact lex_of_skipws_nil ht)
      simp only [ht, ht2, bne_self_eq_false, Bool.false_eq_true, if_false, Res.map, hr]
    · have ht2 : skipws t2 ≠ [] := by
        intro e
        rw [lex_of_skipws_nil e] at hlx
        exact ht ((lex_nil_iff t).mp hlx)
      have b1 : (skipws t != []) = true := by simpa using ht
      have b2 : (skipws t2 != []) = true := by simpa using ht2
      simp only [b1, b2, if_true, Res.map]
  · rw [e1, e2]
  · rw [e1, e2]

/-- C20: parsing does not see extra whitespace between tokens.  Let the line
`s2` be the line `s` with whitespace characters (space, tab, CR, LF, vertical
tab) inserted, any number of them at any number of places, each place being at
the start, at the end, or anywhere else that is not inside a token (not inside
a word and not between the two characters of a `>>`).  Then `parsecmd` has the
same outcome on both: the same failure, or trees of the same shape with the
same node kinds, modes, descriptors and word texts.  The start and the end of
a line are always such places; the middle of a word and of a `>>` are not. -/
theorem whitespace_insensitive (s s2 : List Char) (hs : noNUL s = true) (h : Spaced s s2) :
    parseTree s2 = parseTree s ∧ lex s2 = lex s ∧
    (∀ l, tokenBoundary [] l = true ∧ tokenBoundary l [] = true) ∧
    tokenBoundary "ls".toList "|wc".toList = true ∧
    tokenBoundary ">>".toList ">".toList = true ∧
    tokenBoundary "l".toList "s".toList = false ∧
    tokenBoundary ">".toList ">".toList = false := by
  have hl := lex_Spaced h
  refine ⟨?_, hl, ?_, by decide, by decide, by decide, by decide⟩
  · apply parseTree_lex_congr
    rw [cstr_of_noNUL s hs, cstr_of_noNUL s2 (noNUL_Spaced h hs)]
    exact hl
  · intro l
    constructor
    · simp [tokenBoundary, lex, lexF]
    · simp [tokenBoundary, lex, lexF]

/-- C20, an instance: `ls|wc >>f` and ` ls \t| wc >> f`. -/
theorem whitespace_insensitive_witness :
    parseTree (" ".toList ++ ("ls".toList ++ (" \t".toList ++ ("|".toList ++ (" ".toList ++
      ("wc ".toList ++ ([] ++ (">>".toList ++ (" ".toList ++ "f".toList))))))))) =
      parseTree "ls|wc >>f".toList :=
  (whitespace_insensitive "ls|wc >>f".toList _ (by decide)
    (Spaced.ins _ [] _ " ".toList
      (Spaced.ins _ "ls".toList _ " \t".toList
        (Spaced.ins _ "ls|".toList _ " ".toList
          (Spaced.ins _ "ls|wc ".toList _ []
            (Spaced.ins _ "ls|wc >>".toList "f".toList " ".toList (Spaced.refl _)
              (by decide) (by decide))
            (by decide) (by decide))
          (by decide) (by decide))
        (by decide) (by decide))
      (by decide) (by decide))).1

/-! ## Redirections that are read -/

end Sh
